import Mathlib

/-!
Verification of the power-clipper aggregation core against its design
specification.

The definitions below are a shallow embedding of the core functions of
src/cli.ts (the bundled core module: getAllFilesRecursively, formatContent,
buildFileTree, generateTreeString, generateOutput) and of
src/binaryDetector.ts (BinaryDetector.containsBinaryContent).  Filesystem
access, the compiled matchers of the ignore npm package, and the host string
primitives (String.prototype.replace, localeCompare, trim, Array.sort) are
modelled explicitly; each model carries a comment stating exactly what it
models.  All definitions are executable and kernel-reducible so that every
theorem with hypotheses has a witness evaluated on concrete input.
-/

/-! ## Binary content heuristic (src/binaryDetector.ts, containsBinaryContent) -/

/-- Model of the ALLOWED_CONTROL_CHARS set of BinaryDetector: tab (9),
LF (10), CR (13) and form feed (12). -/
def allowedControl (b : Nat) : Bool := b = 9 || b = 10 || b = 13 || b = 12

/-- Loop body of BinaryDetector.containsBinaryContent.  The JavaScript source
compares the floating point ratio nullCount / totalBytes with the double 0.1;
for samples of at most 8 KiB the rational value nullCount / totalBytes is
never within double rounding distance of 0.1 unless it is exactly 1/10, and
division as well as the literal 0.1 round to the same double in that case, so
the comparison is modelled exactly by the integer test 10 * count > total.
The same holds for the control-character ratio.  The counters mirror the
source: a NUL byte increments both the NUL counter and (being a control byte
outside the allowed set) the control counter; each increment is followed by
its threshold check with an early true result; finally a byte whose top five
bits are 11111 (byte AND 0xF8 = 0xF8) yields true immediately. -/
def containsBinaryContentGo : List Nat → Nat → Nat → Nat → Bool
  | [], _, _, _ => false
  | b :: rest, total, nullCount, controlCount =>
    let n2 := if b = 0 then nullCount + 1 else nullCount
    let c2 := if b < 32 && !allowedControl b then controlCount + 1 else controlCount
    if b = 0 && decide (10 * n2 > total) then true
    else if (b < 32 && !allowedControl b) && decide (10 * c2 > total) then true
    else if b.land 0xF8 = 0xF8 then true
    else containsBinaryContentGo rest total n2 c2

/-- Model of BinaryDetector.containsBinaryContent on a byte sample (the first
8 KiB of a probed file), bytes as natural numbers. -/
def containsBinaryContent (buffer : List Nat) : Bool :=
  containsBinaryContentGo buffer buffer.length 0 0

/-- Number of NUL bytes in a sample. -/
def countNul : List Nat → Nat
  | [] => 0
  | b :: rest => (if b = 0 then 1 else 0) + countNul rest

/-- Number of control bytes outside the allowed set (tab, LF, CR, FF) in a
sample; as in the source, NUL bytes are counted here as well. -/
def countBadControl : List Nat → Nat
  | [] => 0
  | b :: rest => (if b < 32 && !allowedControl b then 1 else 0) + countBadControl rest

/-! ## Path splitting and joining (buildFileTree in src/cli.ts) -/

/-- A character is a path separator for buildFileTree, which splits each
input string at every slash or backslash. -/
def isSep (c : Char) : Bool := c = '/' || c = '\\'

/-- Splitting a character list at separator characters, keeping empty
pieces; model of splitting a string with a separator character class. -/
def splitSegsAux : List Char → List Char → List String
  | [], acc => [⟨acc.reverse⟩]
  | c :: rest, acc =>
    if isSep c then ⟨acc.reverse⟩ :: splitSegsAux rest []
    else splitSegsAux rest (c :: acc)

/-- Model of the segment extraction of buildFileTree: split the path string
at every slash or backslash and drop empty pieces (filter(Boolean)). -/
def splitParts (s : String) : List String :=
  (splitSegsAux s.data []).filter (fun t => t ≠ "")

/-- Normalisation step of Node's posix path.join: empty and dot segments are
dropped and a dot-dot segment pops the previous real segment. -/
def normJoinSegs : List String → List String → List String
  | [], acc => acc.reverse
  | s :: rest, acc =>
    if s = "" || s = "." then normJoinSegs rest acc
    else if s = ".." then
      match acc with
      | [] => normJoinSegs rest [".."]
      | t :: ts => if t = ".." then normJoinSegs rest (".." :: t :: ts) else normJoinSegs rest ts
    else normJoinSegs rest (s :: acc)

/-- Splitting a character list at slashes only, keeping empty pieces (for
rejoining previously joined paths inside the path.join model). -/
def splitSlashAux : List Char → List Char → List String
  | [], acc => [⟨acc.reverse⟩]
  | c :: rest, acc =>
    if c = '/' then ⟨acc.reverse⟩ :: splitSlashAux rest []
    else splitSlashAux rest (c :: acc)

/-- Splitting a string at slashes only. -/
def splitSlash (s : String) : List String := splitSlashAux s.data []

/-- Joining segments with slashes. -/
def joinSegs : List String → String
  | [] => ""
  | [s] => s
  | s :: rest => s ++ "/" ++ joinSegs rest

/-- Model of Node's posix path.join on two relative arguments: concatenate,
split at slashes, normalise dot and dot-dot segments, rejoin; an empty result
becomes a single dot.  Only the emptiness of the resulting node path is ever
observed by the renderer. -/
def pathJoin (a b : String) : String :=
  match normJoinSegs (splitSlash a ++ splitSlash b) [] with
  | [] => "."
  | segs => joinSegs segs

/-! ## File tree data model (FileTreeNode in src/cli.ts) -/

/-- The FileTreeNode record of the source: a name, a path (empty exactly for
the synthetic root), the isDirectory flag and the ordered child list. -/
inductive FileTreeNode where
  | mk (name : String) (path : String) (isDirectory : Bool) (children : List FileTreeNode)

def FileTreeNode.name : FileTreeNode → String
  | .mk n _ _ _ => n

def FileTreeNode.path : FileTreeNode → String
  | .mk _ p _ _ => p

def FileTreeNode.isDirectory : FileTreeNode → Bool
  | .mk _ _ d _ => d

def FileTreeNode.children : FileTreeNode → List FileTreeNode
  | .mk _ _ _ cs => cs

/-- Replace the first list element satisfying the test by its image under f,
returning none when no element matches; model of finding a child by name and
mutating it in place. -/
def updateFirst {α : Type} (p : α → Bool) (f : α → α) : List α → Option (List α)
  | [] => none
  | c :: cs => if p c then some (f c :: cs) else (updateFirst p f cs).map (c :: ·)

/-- Inner loop of buildFileTree: walk the segment list from the current
child list, descending into the existing child of the same name when there
is one (leaving its other fields untouched) and otherwise appending a fresh
node whose isDirectory flag records whether more segments follow. -/
def insertParts : List String → String → List FileTreeNode → List FileTreeNode
  | [], _, cs => cs
  | part :: rest, cur, cs =>
    let np := if cur = "" then part else pathJoin cur part
    match updateFirst (fun c => c.name = part)
        (fun c => .mk c.name c.path c.isDirectory (insertParts rest np c.children)) cs with
    | some cs2 => cs2
    | none => cs ++ [.mk part np (!rest.isEmpty) (insertParts rest np [])]

/-- Model of buildFileTree of src/cli.ts: build the forest under a virtual
root from every path string, then either collapse a single top-level child
into the displayed root or rename the virtual root to a dot. -/
def buildFileTree (pathStrings : List String) : FileTreeNode :=
  match pathStrings.foldl (fun cs p => insertParts (splitParts p) "" cs) [] with
  | [c] => c
  | cs => .mk "." "" true cs

/-! ## Sorting of siblings (the comparator inside generateTreeString) -/

/-- Primary collation weight of a character under the default-locale
localeCompare: ASCII letters compare case-insensitively (an upper-case
letter gets the code point of its lower-case form); all other characters
keep their code point.  This models the primary strength of the ICU root
collation exactly for ASCII-alphanumeric names (digits before letters,
letters case-insensitively); the relative order of other symbols and
non-ASCII characters against letters is only approximated by code point,
so every ordering theorem below is scoped to ASCII-alphanumeric names. -/
def foldVal (c : Char) : Nat := if c.isUpper then c.toNat + 32 else c.toNat

/-- Case weight of a character: the default locale breaks primary ties with
lower case before upper case. -/
def caseBit (c : Char) : Nat := if c.isUpper then 1 else 0

/-- Lexicographic comparison of weight lists. -/
def cmpNatList : List Nat → List Nat → Ordering
  | [], [] => .eq
  | [], _ :: _ => .lt
  | _ :: _, [] => .gt
  | a :: as, b :: bs => if a < b then .lt else if b < a then .gt else cmpNatList as bs

/-- Canonical decomposition of a character, on the fragment modelled here:
the precomposed letters e-acute and E-acute decompose into the base letter
followed by the combining acute accent; every other character stands alone.
ECMA-402 requires localeCompare to treat canonically equivalent strings as
equal, so the comparator works on decomposed character sequences; full
Unicode normalisation is not modelled beyond this fragment. -/
def nfdChar (c : Char) : List Char :=
  if c = 'é' then ['e', '\u0301']
  else if c = 'É' then ['E', '\u0301']
  else [c]

/-- Canonical decomposition of a character list, pointwise. -/
def nfdChars : List Char → List Char
  | [] => []
  | c :: rest => nfdChar c ++ nfdChars rest

/-- Primary weight list of a string: weights of its decomposed characters. -/
def primW (s : String) : List Nat := (nfdChars s.data).map foldVal

/-- Case weight list of a string: case bits of its decomposed characters. -/
def caseW (s : String) : List Nat := (nfdChars s.data).map caseBit

/-- Model of JavaScript String.prototype.localeCompare under the default
locale: compare the primary weight lists of the canonically decomposed
strings lexicographically and break ties by the case weight lists, so that
the string a sorts before the string B, and canonically equivalent strings
(for the decomposition fragment modelled) compare equal, as ECMA-402
mandates; the model is exact for ASCII-alphanumeric strings. -/
def localeCompare (s t : String) : Int :=
  match cmpNatList (primW s) (primW t) with
  | .lt => -1
  | .gt => 1
  | .eq =>
    match cmpNatList (caseW s) (caseW t) with
    | .lt => -1
    | .gt => 1
    | .eq => 0

/-- An ASCII-alphanumeric string: the fragment on which the localeCompare
model provably coincides with the default-locale collation. -/
def alnumName (s : String) : Bool := s.data.all Char.isAlphanum

/-- A path whose characters are ASCII-alphanumeric or separators, so every
segment name falls in the exactly-modelled collation fragment. -/
def alnumPath (p : String) : Bool := p.data.all (fun c => c.isAlphanum || isSep c)

/-- The comparator of generateTreeString in src/cli.ts: nodes that have
children sort before childless nodes, and inside each group the names are
compared with localeCompare.  Note that the source consults children.length,
not the isDirectory flag. -/
def cmpNodes (a b : FileTreeNode) : Int :=
  if !a.children.isEmpty && b.children.isEmpty then -1
  else if a.children.isEmpty && !b.children.isEmpty then 1
  else localeCompare a.name b.name

/-- Non-strict order induced by the comparator, used to model the stable
JavaScript Array.prototype.sort: an element may stay before another exactly
when the comparator does not order it strictly after. -/
def nodeLE (a b : FileTreeNode) : Prop := cmpNodes a b ≤ 0

instance : DecidableRel nodeLE := fun a b => Int.decLe (cmpNodes a b) 0

/-- The comparator lifted to a node paired with its two rendered variants;
it only consults the node component, exactly as the source comparator only
consults the child being sorted. -/
def pairLE {α : Type} (x y : FileTreeNode × α) : Prop := nodeLE x.1 y.1

instance {α : Type} : DecidableRel (@pairLE α) :=
  fun x y => Int.decLe (cmpNodes x.1 y.1) 0

/-- Model of the stable JavaScript sort with the sibling comparator: the
unique stable reordering, realised as an insertion sort. -/
def sortNodes (cs : List FileTreeNode) : List FileTreeNode :=
  List.insertionSort nodeLE cs

/-! ## Rendering (generateTreeString and the tree part of generateOutput) -/

/-- Concatenate rendered siblings: every sibling but the last contributes
its branch-connector variant, the last one its corner-connector variant;
model of the forEach over the sorted children with the last-index test. -/
def glueRendered {α : Type} : List (α × String × String) → String
  | [] => ""
  | [(_, _, lastStr)] => lastStr
  | (_, midStr, _) :: rest => midStr ++ glueRendered rest

mutual
/-- Model of generateTreeString of src/cli.ts.  A node with a nonempty path
prints one line made of the prefix, a corner or tee connector chosen by the
last-sibling flag, and its name; the virtual root prints its own name and a
slash when it is neither empty nor literally root; children are rendered
below with the extended prefix.  The source sorts the children and then
renders each with its last-sibling flag; here every child is rendered in
both variants first and the sorted selection is glued, which produces the
identical string because the comparator never looks at the rendered text. -/
def generateTreeString : FileTreeNode → String → Bool → String
  | .mk n p _ cs, pre, isLast =>
    let head :=
      if p ≠ "" then pre ++ (if isLast then "└── " else "├── ") ++ n ++ "\n"
      else if n ≠ "root" ∧ n ≠ "" then n ++ "/\n"
      else ""
    let childPre :=
      if p = "" ∧ n = "root" then pre
      else pre ++ (if isLast then "    " else "│   ")
    head ++ glueRendered (List.insertionSort pairLE (renderPairs cs childPre))
/-- Both rendered variants (as a non-last and as a last sibling) of every
child, keyed by the child itself for sorting. -/
def renderPairs : List FileTreeNode → String → List (FileTreeNode × String × String)
  | [], _ => []
  | c :: cs, pre =>
    (c, generateTreeString c pre false, generateTreeString c pre true) :: renderPairs cs pre
end

/-- JavaScript whitespace characters relevant to String.prototype.trim. -/
def isJsSpace (c : Char) : Bool :=
  c = ' ' || c = '\t' || c = '\n' || c = '\r' || c = '\x0b' || c = '\x0c'

/-- Model of String.prototype.trim: drop whitespace from both ends. -/
def jsTrim (s : String) : String :=
  ⟨((s.data.dropWhile isJsSpace).reverse.dropWhile isJsSpace).reverse⟩

/-- The tree body assembled by generateOutput of src/cli.ts before it is
substituted into the tree template: a header line naming the collapsed root
(when the built tree has a name and a nonempty path), followed by the full
generateTreeString drawing; generateOutput then trims this body. -/
def generateOutputTreeBody (pathsToGraph : List String) : String :=
  let tree := buildFileTree pathsToGraph
  let treeHeader := if tree.name ≠ "root" ∧ tree.path ≠ "" then tree.name ++ "/\n" else ""
  jsTrim (treeHeader ++ generateTreeString tree "" true)

/-! ## Template substitution (formatContent in src/cli.ts) -/

/-- The file record produced by processFile and getPathDetails: absolute
path, selection-relative path, repository-relative path, file name, raw
content and format tag. -/
structure FileProcessingResult where
  fileName : String
  relativePath : String
  repoPath : String
  absolutePath : String
  content : String
  language : String

/-- Whether the pattern occurs as a contiguous run inside the character
list. -/
def containsPat (pat : List Char) : List Char → Bool
  | [] => pat.isEmpty
  | c :: rest => pat.isPrefixOf (c :: rest) || containsPat pat rest

/-- GetSubstitution of ECMA-262 for a string replacement with a literal
pattern and no capture groups: in the replacement text, a doubled dollar
emits one dollar, dollar-ampersand emits the matched pattern,
dollar-backquote emits the part of the subject before the match,
dollar-quote emits the part after it, and any other dollar sequence
(including the digit and angle-bracket forms, which refer to capture
groups that do not exist here) stays literal. -/
def dollarSub (matched pre post : List Char) : List Char → List Char
  | [] => []
  | [c] => [c]
  | c :: c2 :: rest =>
    if c = '$' then
      if c2 = '$' then '$' :: dollarSub matched pre post rest
      else if c2 = '&' then matched ++ dollarSub matched pre post rest
      else if c2 = '`' then pre ++ dollarSub matched pre post rest
      else if c2 = '\'' then post ++ dollarSub matched pre post rest
      else c :: dollarSub matched pre post (c2 :: rest)
    else c :: dollarSub matched pre post (c2 :: rest)

/-- Model of JavaScript String.prototype.replace with a global literal
pattern and a string replacement: scan left to right, at each
non-overlapping occurrence of the pattern emit the replacement processed
by GetSubstitution (with the original subject split at the match) and
continue after the occurrence, never rescanning emitted text.  The fuel
argument, initialised to the length of the scanned text, only bounds the
scan so the recursion is structural; it never runs out.  The position
argument counts the characters of the original subject already consumed. -/
def jsReplaceAux (pat rep orig : List Char) : Nat → Nat → List Char → List Char
  | _, _, [] => []
  | 0, _, s => s
  | fuel + 1, pos, c :: rest =>
    if pat.isPrefixOf (c :: rest) then
      dollarSub pat (orig.take pos) (orig.drop (pos + pat.length)) rep
        ++ jsReplaceAux pat rep orig fuel (pos + pat.length) (List.drop (pat.length - 1) rest)
    else c :: jsReplaceAux pat rep orig fuel (pos + 1) rest

/-- String-level wrapper of the replace model. -/
def jsReplace (s pat rep : String) : String :=
  ⟨jsReplaceAux pat.data rep.data s.data s.data.length 0 s.data⟩

/-- Model of formatContent of src/cli.ts: the chained global replaces of the
seven recognized placeholder tokens, in source order. -/
def formatContent (result : FileProcessingResult) (template : String) : String :=
  let s1 := jsReplace template "\x7b\x7bfileName\x7d\x7d" result.fileName
  let s2 := jsReplace s1 "\x7b\x7brelativePath\x7d\x7d" result.relativePath
  let s3 := jsReplace s2 "\x7b\x7brepoPath\x7d\x7d" result.repoPath
  let s4 := jsReplace s3 "\x7b\x7babsolutePath\x7d\x7d" result.absolutePath
  let s5 := jsReplace s4 "\x7b\x7bpath\x7d\x7d" result.relativePath
  let s6 := jsReplace s5 "\x7b\x7blanguage\x7d\x7d" result.language
  jsReplace s6 "\x7b\x7bcontent\x7d\x7d" result.content

/-- The placeholder patterns recognized by formatContent, in the order the
source replaces them. -/
def recognizedTokens : List String :=
  ["\x7b\x7bfileName\x7d\x7d", "\x7b\x7brelativePath\x7d\x7d", "\x7b\x7brepoPath\x7d\x7d",
   "\x7b\x7babsolutePath\x7d\x7d", "\x7b\x7bpath\x7d\x7d", "\x7b\x7blanguage\x7d\x7d",
   "\x7b\x7bcontent\x7d\x7d"]

/-- A string is clean when no recognized placeholder pattern occurs in it;
chained replaces leave such a string untouched. -/
def cleanOfTokens (s : String) : Bool :=
  recognizedTokens.all (fun pat => !containsPat pat.data s.data)

/-- A record is clean when all of its fields are clean, so that substituting
one field never creates an occurrence for a later replace in the chain. -/
def cleanRecord (r : FileProcessingResult) : Bool :=
  cleanOfTokens r.fileName && cleanOfTokens r.relativePath && cleanOfTokens r.repoPath &&
    cleanOfTokens r.absolutePath && cleanOfTokens r.content && cleanOfTokens r.language

/-- A string free of the dollar character, which GetSubstitution would
otherwise process inside a substituted replacement value. -/
def dollarFree (s : String) : Bool := s.data.all (fun c => !(c = '$'))

/-- A record whose fields are all dollar-free, so that every substituted
value passes through GetSubstitution verbatim. -/
def dollarFreeRecord (r : FileProcessingResult) : Bool :=
  dollarFree r.fileName && dollarFree r.relativePath && dollarFree r.repoPath &&
    dollarFree r.absolutePath && dollarFree r.content && dollarFree r.language

/-! ## Directory walk (getAllFilesRecursively in src/cli.ts)

The walk is modelled over an explicit directory tree; a directory entry
carries a readability flag, false meaning that reading the directory throws
(the catch block of the source then leaves that invocation with an empty
file list).  The gitignore matcher (GitIgnoreHelper.shouldIgnore, consulted
on the full path), the exclude matcher and the forced-include matcher (the
compiled ignore-package matchers, consulted on the path relative to the
matching root) are abstract boolean predicates, since the walker only
branches on their verdicts.  The walk carries the path of the current
directory relative to the matching root; the source computes the same value
with path.relative from the full path. -/

inductive FSEntry where
  | file (name : String)
  | dir (name : String) (readable : Bool) (entries : List FSEntry)

/-- Full path of an entry given the matching root and the root-relative
path, as produced by path.join along the walk. -/
def pathConcat (root rel : String) : String :=
  if rel = "" then root else root ++ "/" ++ rel

/-- Root-relative path of a directory entry. -/
def relJoin (rel n : String) : String :=
  if rel = "" then n else rel ++ "/" ++ n

mutual
/-- Contribution of one directory entry to the walk, mirroring the loop body
of getAllFilesRecursively: the forced-include check runs first on the
root-relative path and, when it matches, the gitignore and exclude matchers
are not consulted; otherwise a gitignore or exclude match skips the entry.
A kept file contributes its full path; a kept directory contributes its own
recursive walk, which is empty when that directory is unreadable. -/
def walkEntry (root rel : String) (g e inc : String → Bool) : FSEntry → List String
  | .file n =>
    let r := relJoin rel n
    if inc r || (!g (pathConcat root r) && !e r) then [pathConcat root r] else []
  | .dir n rd es =>
    let r := relJoin rel n
    if inc r || (!g (pathConcat root r) && !e r) then
      (if rd then walkItems root r g e inc es else [])
    else []
/-- The loop of getAllFilesRecursively over the entries of one directory. -/
def walkItems (root rel : String) (g e inc : String → Bool) : List FSEntry → List String
  | [] => []
  | item :: rest => walkEntry root rel g e inc item ++ walkItems root rel g e inc rest
end

/-- Model of getAllFilesRecursively of src/cli.ts on a directory with the
given root-relative path: an unreadable directory yields the empty list via
the catch block, a readable one processes its entries in order. -/
def getAllFilesRecursively (root rel : String) (readable : Bool) (entries : List FSEntry)
    (g e inc : String → Bool) : List String :=
  if readable then walkItems root rel g e inc entries else []

/-! ## Leaf-path extraction from a rendered drawing

Modelled from the spec: the specification's round-trip property refers to
"the full set of leaf paths extracted from a rendered tree" without giving
the extraction procedure, and no such procedure exists in the source.  The
extractor below reads the drawing the renderer produces: each line carries a
depth, encoded as leading four-character groups (blank filler or vertical
bar filler), followed by a tee or corner connector and the name; the
header line of a multi-rooted drawing has no connector and ends with a
slash.  A line is a leaf when the following line does not go deeper; the
leaf path joins the names on the ancestor stack with slashes. -/

/-- Splitting a character list at newlines. -/
def splitNlAux : List Char → List Char → List String
  | [], acc => [⟨acc.reverse⟩]
  | c :: rest, acc =>
    if c = '\n' then ⟨acc.reverse⟩ :: splitNlAux rest []
    else splitNlAux rest (c :: acc)

/-- The nonempty lines of a drawing. -/
def linesOf (s : String) : List String :=
  (splitNlAux s.data []).filter (fun t => t ≠ "")

/-- Strip the leading prefix groups of a line and count them: a group is
four characters, either the blank filler or the vertical bar filler. -/
def stripGroups : List Char → Nat × List Char
  | a :: b :: c :: d :: rest =>
    if [a, b, c, d] = "    ".data || [a, b, c, d] = "│   ".data then
      let (k, l) := stripGroups rest
      (k + 1, l)
    else (0, a :: b :: c :: d :: rest)
  | l => (0, l)

/-- Drop one trailing slash from a header line. -/
def dropTrailSlash (l : List Char) : List Char :=
  match l.reverse with
  | '/' :: rest => rest.reverse
  | _ => l

/-- Parse one line of the drawing into its depth and its name: after the
prefix groups, a connector introduces the name verbatim; a line without a
connector is the header of the drawing and loses its trailing slash. -/
def parseLine (l : List Char) : Nat × String :=
  let (k, rest) := stripGroups l
  match rest with
  | a :: b :: c :: d :: name =>
    if [a, b, c, d] = "├── ".data || [a, b, c, d] = "└── ".data then (k, ⟨name⟩)
    else (k, ⟨dropTrailSlash rest⟩)
  | _ => (k, ⟨dropTrailSlash rest⟩)

/-- Whether the first of the remaining parsed lines, if any, does not go
deeper than the given depth. -/
def headLEB : List (Nat × String) → Nat → Bool
  | [], _ => true
  | (d2, _) :: _, d => d2 ≤ d

/-- Walk the parsed lines with the ancestor name stack, emitting the joined
path of every line not followed by a deeper line. -/
def leafWalk : List (Nat × String) → List String → List String
  | [], _ => []
  | (d, n) :: rest, stack =>
    let stack2 := stack.take d ++ [n]
    (if headLEB rest d then [joinSegs stack2] else []) ++ leafWalk rest stack2

/-- The full set of leaf paths extracted from a rendered drawing. -/
def leafPathsOfString (s : String) : List String :=
  leafWalk ((linesOf s).map (fun l => parseLine l.data)) []

/-! ## Tree isomorphism

The round-trip claim compares trees up to the same node names and the same
parent-child structure, ignoring sibling order; sibling names are unique in
every built tree, so matching the children of corresponding nodes by name
realises exactly that isomorphism. -/

/-- First child with the given name. -/
def findByName (n : String) : List FileTreeNode → Option FileTreeNode
  | [] => none
  | c :: cs => if c.name = n then some c else findByName n cs

mutual
/-- Isomorphism of trees: same name and children matched by name both ways
recursively (same parent-child structure up to sibling order). -/
def isoNode : FileTreeNode → FileTreeNode → Bool
  | .mk n _ _ cs, b => n == b.name && cs.length == b.children.length && isoForestSub cs b.children
/-- Every tree on the left has a name-partner on the right it is isomorphic
to. -/
def isoForestSub : List FileTreeNode → List FileTreeNode → Bool
  | [], _ => true
  | c :: cs, ds =>
    (match findByName c.name ds with
     | some d => isoNode c d
     | none => false) && isoForestSub cs ds
end

/-! ## Derived predicates, equivalences and traversal views

These definitions do not model further source code: they are the vocabulary
in which the claims about the functions above are stated and proved. -/

/-- Sequential rendering of an already sorted sibling list: every sibling
but the last is rendered with the branch connector, the last one with the
corner connector.  The renderer is proved equal to sorting the children and
then applying this. -/
def renderSeq : List FileTreeNode → String → String
  | [], _ => ""
  | [c], pre => generateTreeString c pre true
  | c :: c2 :: cs, pre => generateTreeString c pre false ++ renderSeq (c2 :: cs) pre

mutual
/-- The given per-node test holds at this node and all its descendants. -/
def allNodesB (p : FileTreeNode → Bool) : FileTreeNode → Bool
  | .mk n pa d cs => p (.mk n pa d cs) && allForestB p cs
/-- The given per-node test holds at every node of the forest. -/
def allForestB (p : FileTreeNode → Bool) : List FileTreeNode → Bool
  | [] => true
  | c :: cs => allNodesB p c && allForestB p cs
end

/-- No duplicates in a name list. -/
def namesNodupB : List String → Bool
  | [] => true
  | n :: ns => (!ns.contains n) && namesNodupB ns

/-- Per-node test: the name is nonempty. -/
def neName (a : FileTreeNode) : Bool := !(a.name == "")

/-- Per-node test: the path is nonempty. -/
def nePath (a : FileTreeNode) : Bool := !(a.path == "")

/-- Per-node test: the sibling names of the children are pairwise distinct. -/
def sibNodup (a : FileTreeNode) : Bool := namesNodupB (a.children.map FileTreeNode.name)

/-- Per-node test of the claimed invariant: the isDirectory flag is true
exactly when the node has at least one child. -/
def dirFlagIff (a : FileTreeNode) : Bool := a.isDirectory == !a.children.isEmpty

/-- Per-node test of the amended invariant: the isDirectory flag implies at
least one child. -/
def dirFlagImp (a : FileTreeNode) : Bool := !a.isDirectory || !a.children.isEmpty

/-- A name is clean when it is nonempty and contains no newline and no path
separator; names produced by splitParts are automatically nonempty and
separator-free, and the round-trip claim additionally needs them
newline-free. -/
def nameCleanB (n : String) : Bool :=
  (!(n == "")) && n.data.all (fun c => !(c = '\n') && !isSep c)

/-- Per-node test: the name is clean. -/
def cleanName (a : FileTreeNode) : Bool := nameCleanB a.name

/-- A path string is newline-free. -/
def pathNoNl (p : String) : Bool := p.data.all (fun c => !(c = '\n'))

/-- The sort key the sibling comparator depends on: childlessness and name. -/
def nodeKey (a : FileTreeNode) : Bool × String := (a.children.isEmpty, a.name)

/-- The sibling comparator expressed on sort keys. -/
def cmpKey (k1 k2 : Bool × String) : Int :=
  if !k1.1 && k2.1 then -1
  else if k1.1 && !k2.1 then 1
  else localeCompare k1.2 k2.2

/-- Equivalence of trees used for order-insensitivity: same name, same path,
children in bijection by name with equivalent partners (the isDirectory
flag, which the renderer never reads, is not constrained). -/
def NodeEquiv (a b : FileTreeNode) : Prop :=
  a.name = b.name ∧ a.path = b.path ∧ a.children.length = b.children.length ∧
    ∀ c ∈ a.children, ∃ d, findByName c.name b.children = some d ∧ NodeEquiv c d
termination_by sizeOf a
decreasing_by
  have h1 : sizeOf c < sizeOf a.children := List.sizeOf_lt_of_mem (by assumption)
  cases a with
  | mk nm pth dr cs =>
    simp only [FileTreeNode.children] at h1
    simp only [FileTreeNode.mk.sizeOf_spec]
    omega

/-- Equivalence of forests: same length and every left tree has an
equivalent name-partner on the right. -/
def ForestEquiv (cs ds : List FileTreeNode) : Prop :=
  cs.length = ds.length ∧ ∀ c ∈ cs, ∃ d, findByName c.name ds = some d ∧ NodeEquiv c d

/-- Concatenation of the second components. -/
def concatSnd {α β : Type} : List (α × List β) → List β
  | [] => []
  | x :: rest => x.2 ++ concatSnd rest

mutual
/-- The leaf chains of a tree in rendering order: every root-to-leaf name
sequence, with the children visited sorted by the sibling comparator, so
that the chains appear in the order the drawing lists the leaves. -/
def leafChains : FileTreeNode → List (List String)
  | .mk n _ _ [] => [[n]]
  | .mk n _ _ (c :: cs) =>
    (concatSnd (List.insertionSort pairLE (chainPairs (c :: cs)))).map (fun ch => n :: ch)
/-- The chain lists of the trees of a forest, keyed for sorting. -/
def chainPairs : List FileTreeNode → List (FileTreeNode × List (List String))
  | [] => []
  | c :: cs => (c, leafChains c) :: chainPairs cs
end

mutual
/-- The drawing lines a tree contributes, as depth and name pairs, children
sorted with the sibling comparator. -/
def nodeEntries : FileTreeNode → Nat → List (Nat × String)
  | .mk n _ _ cs, d =>
    (d, n) :: concatSnd (List.insertionSort pairLE (entriesPairs cs (d + 1)))
/-- The entry lists of the trees of a forest, keyed for sorting. -/
def entriesPairs : List FileTreeNode → Nat → List (FileTreeNode × List (Nat × String))
  | [], _ => []
  | c :: cs, d => (c, nodeEntries c d) :: entriesPairs cs d
end

/-- Sequential drawing entries of an already sorted forest. -/
def entSeq : List FileTreeNode → Nat → List (Nat × String)
  | [], _ => []
  | c :: cs, d => nodeEntries c d ++ entSeq cs d

/-- Sequential leaf chains of an already sorted forest. -/
def chainSeq : List FileTreeNode → List (List String)
  | [] => []
  | c :: cs => leafChains c ++ chainSeq cs

mutual
/-- Canonical form of a tree: the isDirectory flag, which neither the
renderer nor the inserter ever reads, is forced to true, and the children
are recursively canonicalised and sorted with the sibling comparator.  Two
trees with the same canonical form render identically. -/
def canon : FileTreeNode → FileTreeNode
  | .mk n p _ cs => .mk n p true (List.insertionSort nodeLE (canonL cs))
/-- Canonical forms of the trees of a forest, in place. -/
def canonL : List FileTreeNode → List FileTreeNode
  | [] => []
  | c :: cs => canon c :: canonL cs
end

/-- Canonical form of a forest: canonicalise every tree and sort the
siblings. -/
def canonF (cs : List FileTreeNode) : List FileTreeNode :=
  List.insertionSort nodeLE (canonL cs)

/-- Total variant of updateFirst: leave the list unchanged when no element
matches. -/
def upd {α : Type} (p : α → Bool) (f : α → α) (cs : List α) : List α :=
  (updateFirst p f cs).getD cs

/-- A string that a line-by-line reading may split: empty, or ending in a
newline. -/
def nlTerminated (s : String) : Prop := s.data = [] ∨ ∃ l, s.data = l ++ ['\n']

/-- The character list is exactly d four-character prefix groups (blank
filler or vertical bar filler), the shape of every rendering prefix. -/
def isGroupsB : Nat → List Char → Bool
  | 0, l => l.isEmpty
  | d + 1, a :: b :: c :: e :: rest =>
    ([a, b, c, e] = "    ".data || [a, b, c, e] = "│   ".data) && isGroupsB d rest
  | _ + 1, _ => false

/-- The first parsed line, if any, has depth at most d. -/
def headLE : List (Nat × String) → Nat → Prop
  | [], _ => True
  | (d2, _) :: _, d => d2 ≤ d

/-! ## Lemmas about the binary-content heuristic -/

lemma countNul_cons (b : Nat) (rest : List Nat) :
    countNul (b :: rest) = (if b = 0 then 1 else 0) + countNul rest := rfl

lemma countBadControl_cons (b : Nat) (rest : List Nat) :
    countBadControl (b :: rest) =
      (if b < 32 && !allowedControl b then 1 else 0) + countBadControl rest := rfl

lemma containsBinaryContentGo_cons_zero (rest : List Nat) (total n c : Nat) :
    containsBinaryContentGo (0 :: rest) total n c =
      (if 10 * (n + 1) > total then true
       else if 10 * (c + 1) > total then true
       else containsBinaryContentGo rest total (n + 1) (c + 1)) := by
  have hland : (0 : Nat).land 248 = 0 := rfl
  simp [containsBinaryContentGo, allowedControl, hland]

lemma containsBinaryContentGo_cons_bad (b : Nat) (rest : List Nat) (total n c : Nat)
    (hb : b ≠ 0) (hbad : (b < 32 && !allowedControl b) = true) :
    containsBinaryContentGo (b :: rest) total n c =
      (if 10 * (c + 1) > total then true
       else if b.land 0xF8 = 0xF8 then true
       else containsBinaryContentGo rest total n (c + 1)) := by
  simp [containsBinaryContentGo, hb, hbad]

lemma containsBinaryContentGo_cons_clean (b : Nat) (rest : List Nat) (total n c : Nat)
    (hb : b ≠ 0) (hbad : ¬(b < 32 && !allowedControl b) = true) :
    containsBinaryContentGo (b :: rest) total n c =
      (if b.land 0xF8 = 0xF8 then true
       else containsBinaryContentGo rest total n c) := by
  simp [containsBinaryContentGo, hb, hbad]

lemma containsBinaryContentGo_true_of_nul :
    ∀ (l : List Nat) (total n c : Nat), 10 * n ≤ total →
      10 * (n + countNul l) > total → containsBinaryContentGo l total n c = true := by
  intro l
  induction l with
  | nil =>
    intro total n c h1 h2
    exfalso
    simp only [countNul] at h2
    omega
  | cons b rest ih =>
    intro total n c h1 h2
    rw [countNul_cons] at h2
    by_cases hb : b = 0
    · subst hb
      rw [containsBinaryContentGo_cons_zero]
      rw [if_pos rfl] at h2
      by_cases hchk : 10 * (n + 1) > total
      · rw [if_pos hchk]
      · rw [if_neg hchk]
        by_cases hchk2 : 10 * (c + 1) > total
        · rw [if_pos hchk2]
        · rw [if_neg hchk2]
          exact ih total (n + 1) (c + 1) (by omega) (by omega)
    · rw [if_neg hb] at h2
      by_cases hbad : (b < 32 && !allowedControl b) = true
      · rw [containsBinaryContentGo_cons_bad b rest total n c hb hbad]
        by_cases hchk2 : 10 * (c + 1) > total
        · rw [if_pos hchk2]
        · rw [if_neg hchk2]
          by_cases hf8 : b.land 0xF8 = 0xF8
          · rw [if_pos hf8]
          · rw [if_neg hf8]
            exact ih total n (c + 1) h1 (by omega)
      · rw [containsBinaryContentGo_cons_clean b rest total n c hb hbad]
        by_cases hf8 : b.land 0xF8 = 0xF8
        · rw [if_pos hf8]
        · rw [if_neg hf8]
          exact ih total n c h1 (by omega)

lemma containsBinaryContentGo_true_of_control :
    ∀ (l : List Nat) (total n c : Nat), 10 * c ≤ total →
      10 * (c + countBadControl l) > total → containsBinaryContentGo l total n c = true := by
  intro l
  induction l with
  | nil =>
    intro total n c h1 h2
    exfalso
    simp only [countBadControl] at h2
    omega
  | cons b rest ih =>
    intro total n c h1 h2
    rw [countBadControl_cons] at h2
    by_cases hb : b = 0
    · subst hb
      rw [containsBinaryContentGo_cons_zero]
      have hbad : ((0 : Nat) < 32 && !allowedControl 0) = true := by decide
      rw [if_pos hbad] at h2
      by_cases hchk : 10 * (n + 1) > total
      · rw [if_pos hchk]
      · rw [if_neg hchk]
        by_cases hchk2 : 10 * (c + 1) > total
        · rw [if_pos hchk2]
        · rw [if_neg hchk2]
          exact ih total (n + 1) (c + 1) (by omega) (by omega)
    · by_cases hbad : (b < 32 && !allowedControl b) = true
      · rw [if_pos hbad] at h2
        rw [containsBinaryContentGo_cons_bad b rest total n c hb hbad]
        by_cases hchk2 : 10 * (c + 1) > total
        · rw [if_pos hchk2]
        · rw [if_neg hchk2]
          by_cases hf8 : b.land 0xF8 = 0xF8
          · rw [if_pos hf8]
          · rw [if_neg hf8]
            exact ih total n (c + 1) (by omega) (by omega)
      · rw [if_neg hbad] at h2
        rw [containsBinaryContentGo_cons_clean b rest total n c hb hbad]
        by_cases hf8 : b.land 0xF8 = 0xF8
        · rw [if_pos hf8]
        · rw [if_neg hf8]
          exact ih total n c h1 (by omega)

lemma containsBinaryContentGo_true_of_f8 :
    ∀ (l : List Nat) (total n c b : Nat), b ∈ l → b.land 0xF8 = 0xF8 →
      containsBinaryContentGo l total n c = true := by
  intro l
  induction l with
  | nil => intro _ _ _ _ h; exact fun _ => absurd h (List.not_mem_nil _)
  | cons x rest ih =>
    intro total n c b hmem hb
    rcases List.mem_cons.mp hmem with h | h
    · subst h
      have hb0 : b ≠ 0 := by
        intro h0
        subst h0
        exact absurd hb (by decide)
      by_cases hbad : (b < 32 && !allowedControl b) = true
      · rw [containsBinaryContentGo_cons_bad b rest total n c hb0 hbad]
        by_cases hchk2 : 10 * (c + 1) > total
        · rw [if_pos hchk2]
        · rw [if_neg hchk2, if_pos hb]
      · rw [containsBinaryContentGo_cons_clean b rest total n c hb0 hbad, if_pos hb]
    · by_cases hx : x = 0
      · subst hx
        rw [containsBinaryContentGo_cons_zero]
        by_cases hchk : 10 * (n + 1) > total
        · rw [if_pos hchk]
        · rw [if_neg hchk]
          by_cases hchk2 : 10 * (c + 1) > total
          · rw [if_pos hchk2]
          · rw [if_neg hchk2]
            exact ih total (n + 1) (c + 1) b h hb
      · by_cases hbad : (x < 32 && !allowedControl x) = true
        · rw [containsBinaryContentGo_cons_bad x rest total n c hx hbad]
          by_cases hchk2 : 10 * (c + 1) > total
          · rw [if_pos hchk2]
          · rw [if_neg hchk2]
            by_cases hf8 : x.land 0xF8 = 0xF8
            · rw [if_pos hf8]
            · rw [if_neg hf8]
              exact ih total n (c + 1) b h hb
        · rw [containsBinaryContentGo_cons_clean x rest total n c hx hbad]
          by_cases hf8 : x.land 0xF8 = 0xF8
          · rw [if_pos hf8]
          · rw [if_neg hf8]
            exact ih total n c b h hb

lemma containsBinaryContentGo_false :
    ∀ (l : List Nat) (total n c : Nat),
      10 * (n + countNul l) ≤ total → 10 * (c + countBadControl l) ≤ total →
      (∀ b ∈ l, b.land 0xF8 ≠ 0xF8) →
      containsBinaryContentGo l total n c = false := by
  intro l
  induction l with
  | nil => intro total n c _ _ _; rfl
  | cons b rest ih =>
    intro total n c h1 h2 h3
    rw [countNul_cons] at h1
    rw [countBadControl_cons] at h2
    by_cases hb : b = 0
    · subst hb
      rw [if_pos rfl] at h1
      have hbad : ((0 : Nat) < 32 && !allowedControl 0) = true := by decide
      rw [if_pos hbad] at h2
      rw [containsBinaryContentGo_cons_zero]
      rw [if_neg (by omega), if_neg (by omega)]
      exact ih total (n + 1) (c + 1) (by omega) (by omega)
        (fun x hx => h3 x (List.mem_cons_of_mem 0 hx))
    · rw [if_neg hb] at h1
      by_cases hbad : (b < 32 && !allowedControl b) = true
      · rw [if_pos hbad] at h2
        rw [containsBinaryContentGo_cons_bad b rest total n c hb hbad]
        rw [if_neg (by omega), if_neg (h3 b (List.mem_cons_self b rest))]
        exact ih total n (c + 1) (by omega) (by omega)
          (fun x hx => h3 x (List.mem_cons_of_mem b hx))
      · rw [if_neg hbad] at h2
        rw [containsBinaryContentGo_cons_clean b rest total n c hb hbad]
        rw [if_neg (h3 b (List.mem_cons_self b rest))]
        exact ih total n c (by omega) (by omega)
          (fun x hx => h3 x (List.mem_cons_of_mem b hx))

/-- C2.  For every byte sample of at most 8 KiB: a NUL proportion above 10
percent forces the binary classification, as does a proportion above 10
percent of control bytes outside the tab, LF, CR, FF set, as does any byte
whose top five bits are 11111 (byte AND 0xF8 = 0xF8); and a sample with at
most 10 percent NUL bytes, at most 10 percent disallowed control bytes and
no such invalid lead byte is classified not binary. -/
theorem C2_binary_heuristic (buffer : List Nat) (h8 : buffer.length ≤ 8192) :
    (10 * countNul buffer > buffer.length → containsBinaryContent buffer = true) ∧
    (10 * countBadControl buffer > buffer.length → containsBinaryContent buffer = true) ∧
    (∀ b ∈ buffer, b.land 0xF8 = 0xF8 → containsBinaryContent buffer = true) ∧
    (10 * countNul buffer ≤ buffer.length → 10 * countBadControl buffer ≤ buffer.length →
      (∀ b ∈ buffer, b.land 0xF8 ≠ 0xF8) → containsBinaryContent buffer = false) := by
  refine ⟨?_, ?_, ?_, ?_⟩
  · intro h
    exact containsBinaryContentGo_true_of_nul buffer buffer.length 0 0 (by omega) (by omega)
  · intro h
    exact containsBinaryContentGo_true_of_control buffer buffer.length 0 0 (by omega) (by omega)
  · intro b hb hf8
    exact containsBinaryContentGo_true_of_f8 buffer buffer.length 0 0 b hb hf8
  · intro h1 h2 h3
    exact containsBinaryContentGo_false buffer buffer.length 0 0 (by omega) (by omega) h3

/-- Witness for C2 on concrete samples: a sample with three NUL bytes among
five is classified binary, and a clean ASCII sample is not. -/
theorem C2_binary_heuristic_witness :
    containsBinaryContent [0, 0, 0, 65, 66] = true ∧
    containsBinaryContent [65, 66, 10, 67] = false := by
  constructor
  · exact (C2_binary_heuristic [0, 0, 0, 65, 66] (by decide)).1 (by decide)
  · exact (C2_binary_heuristic [65, 66, 10, 67] (by decide)).2.2.2 (by decide) (by decide)
      (by decide)

/-! ## C4: the tree-only scenario -/

/-- C4.  The spec scenario claims that selecting src/x.ts and src/y.ts in
tree-only mode renders exactly the three lines src/, tee x.ts, corner y.ts.
The code instead prints the collapsed root twice: once as the header line
and once as a connector line, indenting the files one level further.  The
repository README records this as a known defect (the file structure copies
the outer folder an extra time at the root level).  This theorem evaluates
the tree body generateOutput builds at the failing input and shows it
differs from the claimed drawing. -/
theorem C4_tree_only_scenario :
    generateOutputTreeBody ["src/x.ts", "src/y.ts"]
        = "src/\n└── src\n    ├── x.ts\n    └── y.ts" ∧
    generateOutputTreeBody ["src/x.ts", "src/y.ts"]
        ≠ "src/\n├── x.ts\n└── y.ts" := by
  constructor
  · rfl
  · decide

/-! ## C9: the walk absorbs unreadable directories -/

lemma walkItems_append (root rel : String) (g e inc : String → Bool) (l1 l2 : List FSEntry) :
    walkItems root rel g e inc (l1 ++ l2)
      = walkItems root rel g e inc l1 ++ walkItems root rel g e inc l2 := by
  induction l1 with
  | nil => rfl
  | cons item rest ih => simp [walkItems, ih]

lemma walkEntry_unreadable (root rel : String) (g e inc : String → Bool)
    (n : String) (cs : List FSEntry) :
    walkEntry root rel g e inc (FSEntry.dir n false cs) = [] := by
  simp [walkEntry]

/-- C9.  The walk never propagates an error: it is a total function into
path lists, and an unreadable directory among the entries contributes no
files while the enumeration of its siblings is unaffected, so the result
equals the walk without that directory. -/
theorem C9_unreadable_directory_absorbed (root rel : String) (pre post : List FSEntry)
    (n : String) (cs : List FSEntry) (g e inc : String → Bool) :
    getAllFilesRecursively root rel true (pre ++ FSEntry.dir n false cs :: post) g e inc
      = getAllFilesRecursively root rel true (pre ++ post) g e inc := by
  simp only [getAllFilesRecursively, if_true]
  rw [walkItems_append, walkItems_append]
  have : walkItems root rel g e inc (FSEntry.dir n false cs :: post)
      = walkEntry root rel g e inc (FSEntry.dir n false cs) ++ walkItems root rel g e inc post := rfl
  rw [this, walkEntry_unreadable]
  simp

/-! ## C10: separator handling of buildFileTree -/

lemma splitParts_mem_ne (s : String) : ∀ pp ∈ splitParts s, pp ≠ "" := by
  intro pp hpp
  have := List.mem_filter.mp hpp
  simpa using this.2

lemma allForestB_append (p : FileTreeNode → Bool) (l1 l2 : List FileTreeNode) :
    allForestB p (l1 ++ l2) = (allForestB p l1 && allForestB p l2) := by
  induction l1 with
  | nil => simp [allForestB]
  | cons c cs ih => simp [allForestB, ih, Bool.and_assoc]

lemma allNodesB_mk (p : FileTreeNode → Bool) (n pa : String) (d : Bool)
    (cs : List FileTreeNode) :
    allNodesB p (.mk n pa d cs) = (p (.mk n pa d cs) && allForestB p cs) := by
  rw [allNodesB]

lemma updateFirst_allForest (p : FileTreeNode → Bool) (pr : FileTreeNode → Bool)
    (f : FileTreeNode → FileTreeNode) :
    ∀ (cs cs2 : List FileTreeNode), allForestB p cs = true →
      (∀ c, allNodesB p c = true → allNodesB p (f c) = true) →
      updateFirst pr f cs = some cs2 → allForestB p cs2 = true := by
  intro cs
  induction cs with
  | nil => intro cs2 _ _ h; exact absurd h (by simp [updateFirst])
  | cons c cs ih =>
    intro cs2 hall hf hupd
    rw [allForestB, Bool.and_eq_true] at hall
    rcases hall with ⟨hc, hcs⟩
    by_cases hpr : pr c = true
    · rw [updateFirst, if_pos hpr] at hupd
      cases hupd
      simp [allForestB, hf c hc, hcs]
    · rw [updateFirst, if_neg hpr] at hupd
      cases h2 : updateFirst pr f cs with
      | none => rw [h2] at hupd; simp at hupd
      | some cs' =>
        rw [h2] at hupd
        have heq : c :: cs' = cs2 := by simpa using hupd
        subst heq
        rw [allForestB, hc, ih cs' hcs hf h2]
        rfl

lemma insertParts_neName :
    ∀ (parts : List String) (cur : String) (cs : List FileTreeNode),
      (∀ s ∈ parts, s ≠ "") → allForestB neName cs = true →
      allForestB neName (insertParts parts cur cs) = true := by
  intro parts
  induction parts with
  | nil => intro cur cs _ h; exact h
  | cons part rest ih =>
    intro cur cs hne hall
    rw [insertParts]
    cases hupd : updateFirst (fun c => c.name = part)
        (fun c => .mk c.name c.path c.isDirectory
          (insertParts rest (if cur = "" then part else pathJoin cur part) c.children)) cs with
    | some cs2 =>
      refine updateFirst_allForest neName _ _ cs cs2 hall ?_ hupd
      intro c hc
      cases c with
      | mk n pa d ccs =>
        simp only [FileTreeNode.name, FileTreeNode.path, FileTreeNode.isDirectory,
          FileTreeNode.children]
        rw [allNodesB_mk, Bool.and_eq_true] at hc
        rw [allNodesB_mk, Bool.and_eq_true]
        constructor
        · simpa [neName, FileTreeNode.name] using hc.1
        · exact ih _ ccs (fun s hs => hne s (List.mem_cons_of_mem part hs)) hc.2
    | none =>
      rw [allForestB_append, hall]
      have hpart : part ≠ "" := hne part (List.mem_cons_self part rest)
      rw [allForestB]
      rw [allNodesB_mk]
      have h1 : neName (FileTreeNode.mk part (if cur = "" then part else pathJoin cur part)
          (!rest.isEmpty) (insertParts rest (if cur = "" then part else pathJoin cur part) [])) = true := by
        simp [neName, FileTreeNode.name, hpart]
      rw [h1, ih _ [] (fun s hs => hne s (List.mem_cons_of_mem part hs)) rfl]
      rfl

lemma foldl_insert_neName :
    ∀ (S : List String) (cs : List FileTreeNode), allForestB neName cs = true →
      allForestB neName (S.foldl (fun acc pp => insertParts (splitParts pp) "" acc) cs) = true := by
  intro S
  induction S with
  | nil => intro cs h; exact h
  | cons pp S' ih =>
    intro cs h
    exact ih _ (insertParts_neName (splitParts pp) "" cs (splitParts_mem_ne pp) h)

lemma buildFileTree_neName (S : List String) : allNodesB neName (buildFileTree S) = true := by
  have h := foldl_insert_neName S [] rfl
  rw [buildFileTree]
  cases hfold : S.foldl (fun acc pp => insertParts (splitParts pp) "" acc) [] with
  | nil => rw [hfold] at h; rw [allNodesB_mk]; simp [neName, FileTreeNode.name, allForestB]
  | cons c cs' =>
    rw [hfold] at h
    cases cs' with
    | nil =>
      rw [allForestB, allForestB, Bool.and_eq_true] at h
      simpa using h.1
    | cons c2 cs'' =>
      rw [allNodesB_mk]
      rw [h]
      simp [neName, FileTreeNode.name]

/-- C10.  buildFileTree depends only on the segment lists of its inputs:
two path lists whose members split into the same segments (in particular
lists obtained by exchanging slashes and backslashes or by inserting
consecutive, leading or trailing separators) build the identical tree; and
no node of any built tree has an empty name. -/
theorem C10_separator_equivalence (S T : List String)
    (h : List.Forall₂ (fun pp qq => splitParts pp = splitParts qq) S T) :
    buildFileTree S = buildFileTree T ∧ allNodesB neName (buildFileTree S) = true := by
  constructor
  · have key : ∀ (S' T' : List String),
        List.Forall₂ (fun pp qq => splitParts pp = splitParts qq) S' T' →
        ∀ cs, S'.foldl (fun acc pp => insertParts (splitParts pp) "" acc) cs
          = T'.foldl (fun acc pp => insertParts (splitParts pp) "" acc) cs := by
      intro S' T' h'
      induction h' with
      | nil => intro cs; rfl
      | cons hpq _ ih =>
        intro cs
        simp only [List.foldl_cons]
        rw [hpq]
        exact ih _
    rw [buildFileTree, buildFileTree, key S T h []]
  · exact buildFileTree_neName S

/-- Witness for C10: a slash path and its backslash variant with a trailing
separator split identically and build the identical tree with no empty
names. -/
theorem C10_separator_equivalence_witness :
    splitParts "a/b" = splitParts "a\\b//" ∧
    (buildFileTree ["a/b"] = buildFileTree ["a\\b//"] ∧
      allNodesB neName (buildFileTree ["a/b"]) = true) :=
  ⟨rfl, C10_separator_equivalence ["a/b"] ["a\\b//"]
    (List.Forall₂.cons rfl List.Forall₂.nil)⟩

/-! ## C1: forced includes are checked first -/

lemma sizeOf_FSEntry_pos (it : FSEntry) : 1 ≤ sizeOf it := by
  cases it with
  | file n => rw [FSEntry.file.sizeOf_spec]; omega
  | dir n rd es => rw [FSEntry.dir.sizeOf_spec]; omega

lemma walkItems_congr (root : String) (g e g2 e2 inc : String → Bool)
    (hag : ∀ r', inc r' = false →
      g2 (pathConcat root r') = g (pathConcat root r') ∧ e2 r' = e r') :
    ∀ (N : Nat) (items : List FSEntry), sizeOf items ≤ N → ∀ rel,
      walkItems root rel g e inc items = walkItems root rel g2 e2 inc items := by
  intro N
  induction N with
  | zero =>
    intro items h rel
    cases items with
    | nil => rfl
    | cons item rest => rw [List.cons.sizeOf_spec] at h; omega
  | succ N ih =>
    intro items h rel
    cases items with
    | nil => rfl
    | cons item rest =>
      rw [List.cons.sizeOf_spec] at h
      have hitem : 1 ≤ sizeOf item := sizeOf_FSEntry_pos item
      have hrest : sizeOf rest ≤ N := by omega
      have htail : walkItems root rel g e inc rest = walkItems root rel g2 e2 inc rest :=
        ih rest hrest rel
      cases item with
      | file n =>
        show walkEntry root rel g e inc (.file n) ++ _ = walkEntry root rel g2 e2 inc (.file n) ++ _
        rw [htail]
        by_cases hinc : inc (relJoin rel n) = true
        · simp [walkEntry, hinc]
        · have hag2 := hag (relJoin rel n) (by simpa using hinc)
          simp [walkEntry, hinc, hag2.1, hag2.2]
      | dir n rd es =>
        show walkEntry root rel g e inc (.dir n rd es) ++ _
            = walkEntry root rel g2 e2 inc (.dir n rd es) ++ _
        rw [htail]
        have hes : sizeOf es ≤ N := by
          rw [FSEntry.dir.sizeOf_spec] at h
          omega
        have hsub : walkItems root (relJoin rel n) g e inc es
            = walkItems root (relJoin rel n) g2 e2 inc es := ih es hes (relJoin rel n)
        by_cases hinc : inc (relJoin rel n) = true
        · simp [walkEntry, hinc, hsub]
        · have hag2 := hag (relJoin rel n) (by simpa using hinc)
          simp [walkEntry, hinc, hag2.1, hag2.2, hsub]

lemma walkItems_mem_of_inc (root rel : String) (g e inc : String → Bool) (n : String) :
    ∀ items : List FSEntry, FSEntry.file n ∈ items → inc (relJoin rel n) = true →
      pathConcat root (relJoin rel n) ∈ walkItems root rel g e inc items := by
  intro items
  induction items with
  | nil => intro h; cases h
  | cons item rest ih =>
    intro hmem hinc
    rcases List.mem_cons.mp hmem with heq | hmem'
    · show _ ∈ walkEntry root rel g e inc item ++ walkItems root rel g e inc rest
      rw [← heq]
      apply List.mem_append_left
      simp [walkEntry, hinc]
    · show _ ∈ walkEntry root rel g e inc item ++ walkItems root rel g e inc rest
      exact List.mem_append_right _ (ih hmem' hinc)

/-- C1.  The forced-include layer is evaluated first: the walk result is
unchanged when the gitignore and exclude matchers are replaced by any
matchers that agree outside the forced-included relative paths (so those
layers are never consulted for a forced-included entry), and a file entry
whose root-relative path matches the forced-include matcher appears in the
walk result no matter what the gitignore and exclude matchers say about
it. -/
theorem C1_forced_include_overrides (root rel : String) (entries : List FSEntry)
    (g e g2 e2 inc : String → Bool) (n : String)
    (hag : ∀ r', inc r' = false →
      g2 (pathConcat root r') = g (pathConcat root r') ∧ e2 r' = e r')
    (hmem : FSEntry.file n ∈ entries)
    (hinc : inc (relJoin rel n) = true) :
    getAllFilesRecursively root rel true entries g e inc
        = getAllFilesRecursively root rel true entries g2 e2 inc ∧
    pathConcat root (relJoin rel n) ∈ getAllFilesRecursively root rel true entries g e inc := by
  constructor
  · simp only [getAllFilesRecursively, if_true]
    exact walkItems_congr root g e g2 e2 inc hag (sizeOf entries) entries le_rfl rel
  · simp only [getAllFilesRecursively, if_true]
    exact walkItems_mem_of_inc root rel g e inc n entries hmem hinc

/-- Witness for C1: a gitignore matcher that matches everything and an
exclude matcher that matches everything still let a forced-included file
through. -/
theorem C1_forced_include_overrides_witness :
    FSEntry.file "secret" ∈ [FSEntry.file "secret", FSEntry.file "other"] ∧
    (fun r => r == "secret") (relJoin "" "secret") = true ∧
    (getAllFilesRecursively "/w" "" true [FSEntry.file "secret", FSEntry.file "other"]
          (fun _ => true) (fun _ => true) (fun r => r == "secret")
        = getAllFilesRecursively "/w" "" true [FSEntry.file "secret", FSEntry.file "other"]
          (fun _ => true) (fun _ => true) (fun r => r == "secret") ∧
      pathConcat "/w" (relJoin "" "secret")
        ∈ getAllFilesRecursively "/w" "" true [FSEntry.file "secret", FSEntry.file "other"]
          (fun _ => true) (fun _ => true) (fun r => r == "secret")) :=
  ⟨List.mem_cons_self _ _, by decide,
    C1_forced_include_overrides "/w" "" [FSEntry.file "secret", FSEntry.file "other"]
      (fun _ => true) (fun _ => true) (fun _ => true) (fun _ => true) (fun r => r == "secret")
      "secret" (fun r' _ => ⟨rfl, rfl⟩) (List.mem_cons_self _ _) (by decide)⟩

/-! ## C8: recognized tokens are substituted, unknown tokens stay verbatim -/

lemma dollarSub_cons2 (matched pre post : List Char) (c c2 : Char) (rest : List Char) :
    dollarSub matched pre post (c :: c2 :: rest)
      = (if c = '$' then
          if c2 = '$' then '$' :: dollarSub matched pre post rest
          else if c2 = '&' then matched ++ dollarSub matched pre post rest
          else if c2 = '`' then pre ++ dollarSub matched pre post rest
          else if c2 = '\'' then post ++ dollarSub matched pre post rest
          else c :: dollarSub matched pre post (c2 :: rest)
        else c :: dollarSub matched pre post (c2 :: rest)) := rfl

lemma dollarSub_no_dollar (matched pre post : List Char) :
    ∀ rep : List Char, (∀ c ∈ rep, c ≠ '$') → dollarSub matched pre post rep = rep := by
  intro rep
  induction rep with
  | nil => intro _; rfl
  | cons c t ih =>
    intro h
    cases t with
    | nil => rfl
    | cons c2 rest =>
      rw [dollarSub_cons2, if_neg (h c (List.mem_cons_self c (c2 :: rest))),
        ih (fun x hx => h x (List.mem_cons_of_mem c hx))]

lemma jsReplaceAux_no_occur (pat rep orig : List Char) :
    ∀ (fuel : Nat) (pos : Nat) (l : List Char), containsPat pat l = false →
      jsReplaceAux pat rep orig fuel pos l = l := by
  intro fuel
  induction fuel with
  | zero =>
    intro pos l _
    cases l <;> rfl
  | succ f ih =>
    intro pos l h
    cases l with
    | nil => rfl
    | cons c rest =>
      rw [containsPat, Bool.or_eq_false_iff] at h
      rw [jsReplaceAux, if_neg (by simp [h.1]), ih (pos + 1) rest h.2]

lemma jsReplace_no_occur (s pat rep : String) (h : containsPat pat.data s.data = false) :
    jsReplace s pat rep = s := by
  cases s with
  | mk sd =>
    show String.mk (jsReplaceAux pat.data rep.data sd sd.length 0 sd) = String.mk sd
    rw [jsReplaceAux_no_occur pat.data rep.data sd sd.length 0 sd h]

lemma isPrefixOf_self (l : List Char) : l.isPrefixOf l = true := by
  induction l with
  | nil => rfl
  | cons c rest ih => simp [List.isPrefixOf, ih]

lemma jsReplace_self (pat rep : String) (h : pat.data ≠ [])
    (hrep : dollarFree rep = true) :
    jsReplace pat pat rep = rep := by
  cases pat with
  | mk pd =>
    cases pd with
    | nil => exact absurd rfl h
    | cons c rest =>
      show String.mk (jsReplaceAux (c :: rest) rep.data (c :: rest) (c :: rest).length 0
        (c :: rest)) = rep
      rw [List.length_cons, jsReplaceAux, if_pos (isPrefixOf_self (c :: rest))]
      have hdrop : List.drop ((c :: rest).length - 1) rest = [] := by
        rw [List.length_cons]
        simp [List.drop_length]
      rw [hdrop]
      have htail : jsReplaceAux (c :: rest) rep.data (c :: rest) rest.length
          (0 + (c :: rest).length) [] = [] := by
        cases rest.length <;> rfl
      rw [htail]
      have hds : dollarSub (c :: rest) ((c :: rest).take 0)
          ((c :: rest).drop (0 + (c :: rest).length)) rep.data = rep.data := by
        refine dollarSub_no_dollar _ _ _ rep.data ?_
        rw [dollarFree, List.all_eq_true] at hrep
        intro x hx
        have h2 := hrep x hx
        simpa using h2
      rw [hds, List.append_nil]

lemma cleanOf_get (s : String) (h : cleanOfTokens s = true) (pat : String)
    (hm : pat ∈ recognizedTokens) : containsPat pat.data s.data = false := by
  rw [cleanOfTokens, List.all_eq_true] at h
  have := h pat hm
  simpa using this

/-- C8 counterexample.  String.prototype.replace with a string replacement
processes dollar sequences (GetSubstitution of ECMA-262): a record whose
content field is x$$y, with every other field clean, renders the content
token as x$y — a doubled dollar collapses — and not as the field value, so
the unrestricted claim that each token is replaced by its field fails. -/
theorem C8_counterexample :
    formatContent ⟨"f", "p", "q", "a", "x$$y", "ts"⟩ "\x7b\x7bcontent\x7d\x7d" = "x$y" ∧
    formatContent ⟨"f", "p", "q", "a", "x$$y", "ts"⟩ "\x7b\x7bcontent\x7d\x7d" ≠ "x$$y" := by
  constructor
  · decide
  · decide

/-- C8, amended.  formatContent substitutes exactly the recognized
placeholder tokens: a template made of an unrecognized token (one in which
no recognized pattern occurs) is returned verbatim, and each recognized
token is replaced by its field, for every record whose fields do not
themselves contain recognized patterns (the source applies the replaces in
sequence, so a field containing a later pattern would be substituted
again) and are dollar-free (String.prototype.replace processes dollar
sequences inside a substituted value — see the counterexample — so a field
containing one is not inserted verbatim).  The alias token path is
substituted by the selection-relative path, like relativePath. -/
theorem C8_template_substitution (r : FileProcessingResult) (t : String)
    (hclean : cleanRecord r = true)
    (hdollar : dollarFreeRecord r = true)
    (htok : cleanOfTokens ("\x7b\x7b" ++ t ++ "\x7d\x7d") = true) :
    formatContent r ("\x7b\x7b" ++ t ++ "\x7d\x7d") = "\x7b\x7b" ++ t ++ "\x7d\x7d" ∧
    formatContent r "\x7b\x7bfileName\x7d\x7d" = r.fileName ∧
    formatContent r "\x7b\x7brelativePath\x7d\x7d" = r.relativePath ∧
    formatContent r "\x7b\x7brepoPath\x7d\x7d" = r.repoPath ∧
    formatContent r "\x7b\x7babsolutePath\x7d\x7d" = r.absolutePath ∧
    formatContent r "\x7b\x7bpath\x7d\x7d" = r.relativePath ∧
    formatContent r "\x7b\x7blanguage\x7d\x7d" = r.language ∧
    formatContent r "\x7b\x7bcontent\x7d\x7d" = r.content := by
  simp only [cleanRecord, Bool.and_eq_true] at hclean
  obtain ⟨⟨⟨⟨⟨hf, hrel⟩, hrepo⟩, habs⟩, hcont⟩, hlang⟩ := hclean
  simp only [dollarFreeRecord, Bool.and_eq_true] at hdollar
  obtain ⟨⟨⟨⟨⟨df, drel⟩, drepo⟩, dabs⟩, dcont⟩, dlang⟩ := hdollar
  have memFileName : "\x7b\x7bfileName\x7d\x7d" ∈ recognizedTokens := by simp [recognizedTokens]
  have memRel : "\x7b\x7brelativePath\x7d\x7d" ∈ recognizedTokens := by simp [recognizedTokens]
  have memRepo : "\x7b\x7brepoPath\x7d\x7d" ∈ recognizedTokens := by simp [recognizedTokens]
  have memAbs : "\x7b\x7babsolutePath\x7d\x7d" ∈ recognizedTokens := by simp [recognizedTokens]
  have memPath : "\x7b\x7bpath\x7d\x7d" ∈ recognizedTokens := by simp [recognizedTokens]
  have memLang : "\x7b\x7blanguage\x7d\x7d" ∈ recognizedTokens := by simp [recognizedTokens]
  have memCont : "\x7b\x7bcontent\x7d\x7d" ∈ recognizedTokens := by simp [recognizedTokens]
  refine ⟨?_, ?_, ?_, ?_, ?_, ?_, ?_, ?_⟩
  · -- unknown token left verbatim
    have u1 : jsReplace ("\x7b\x7b" ++ t ++ "\x7d\x7d") "\x7b\x7bfileName\x7d\x7d" r.fileName = ("\x7b\x7b" ++ t ++ "\x7d\x7d") :=
      jsReplace_no_occur _ "\x7b\x7bfileName\x7d\x7d" r.fileName (cleanOf_get _ htok _ memFileName)
    have u2 : jsReplace ("\x7b\x7b" ++ t ++ "\x7d\x7d") "\x7b\x7brelativePath\x7d\x7d" r.relativePath = ("\x7b\x7b" ++ t ++ "\x7d\x7d") :=
      jsReplace_no_occur _ "\x7b\x7brelativePath\x7d\x7d" r.relativePath (cleanOf_get _ htok _ memRel)
    have u3 : jsReplace ("\x7b\x7b" ++ t ++ "\x7d\x7d") "\x7b\x7brepoPath\x7d\x7d" r.repoPath = ("\x7b\x7b" ++ t ++ "\x7d\x7d") :=
      jsReplace_no_occur _ "\x7b\x7brepoPath\x7d\x7d" r.repoPath (cleanOf_get _ htok _ memRepo)
    have u4 : jsReplace ("\x7b\x7b" ++ t ++ "\x7d\x7d") "\x7b\x7babsolutePath\x7d\x7d" r.absolutePath = ("\x7b\x7b" ++ t ++ "\x7d\x7d") :=
      jsReplace_no_occur _ "\x7b\x7babsolutePath\x7d\x7d" r.absolutePath (cleanOf_get _ htok _ memAbs)
    have u5 : jsReplace ("\x7b\x7b" ++ t ++ "\x7d\x7d") "\x7b\x7bpath\x7d\x7d" r.relativePath = ("\x7b\x7b" ++ t ++ "\x7d\x7d") :=
      jsReplace_no_occur _ "\x7b\x7bpath\x7d\x7d" r.relativePath (cleanOf_get _ htok _ memPath)
    have u6 : jsReplace ("\x7b\x7b" ++ t ++ "\x7d\x7d") "\x7b\x7blanguage\x7d\x7d" r.language = ("\x7b\x7b" ++ t ++ "\x7d\x7d") :=
      jsReplace_no_occur _ "\x7b\x7blanguage\x7d\x7d" r.language (cleanOf_get _ htok _ memLang)
    have u7 : jsReplace ("\x7b\x7b" ++ t ++ "\x7d\x7d") "\x7b\x7bcontent\x7d\x7d" r.content = ("\x7b\x7b" ++ t ++ "\x7d\x7d") :=
      jsReplace_no_occur _ "\x7b\x7bcontent\x7d\x7d" r.content (cleanOf_get _ htok _ memCont)
    simp only [formatContent, u1, u2, u3, u4, u5, u6, u7]
  · -- token fileName
    have e1 : jsReplace "\x7b\x7bfileName\x7d\x7d" "\x7b\x7bfileName\x7d\x7d" r.fileName = r.fileName :=
      jsReplace_self "\x7b\x7bfileName\x7d\x7d" r.fileName (by decide) df
    have e2 : jsReplace r.fileName "\x7b\x7brelativePath\x7d\x7d" r.relativePath = r.fileName :=
      jsReplace_no_occur r.fileName "\x7b\x7brelativePath\x7d\x7d" r.relativePath (cleanOf_get _ hf _ memRel)
    have e3 : jsReplace r.fileName "\x7b\x7brepoPath\x7d\x7d" r.repoPath = r.fileName :=
      jsReplace_no_occur r.fileName "\x7b\x7brepoPath\x7d\x7d" r.repoPath (cleanOf_get _ hf _ memRepo)
    have e4 : jsReplace r.fileName "\x7b\x7babsolutePath\x7d\x7d" r.absolutePath = r.fileName :=
      jsReplace_no_occur r.fileName "\x7b\x7babsolutePath\x7d\x7d" r.absolutePath (cleanOf_get _ hf _ memAbs)
    have e5 : jsReplace r.fileName "\x7b\x7bpath\x7d\x7d" r.relativePath = r.fileName :=
      jsReplace_no_occur r.fileName "\x7b\x7bpath\x7d\x7d" r.relativePath (cleanOf_get _ hf _ memPath)
    have e6 : jsReplace r.fileName "\x7b\x7blanguage\x7d\x7d" r.language = r.fileName :=
      jsReplace_no_occur r.fileName "\x7b\x7blanguage\x7d\x7d" r.language (cleanOf_get _ hf _ memLang)
    have e7 : jsReplace r.fileName "\x7b\x7bcontent\x7d\x7d" r.content = r.fileName :=
      jsReplace_no_occur r.fileName "\x7b\x7bcontent\x7d\x7d" r.content (cleanOf_get _ hf _ memCont)
    simp only [formatContent, e1, e2, e3, e4, e5, e6, e7]
  · -- token relativePath
    have e1 : jsReplace "\x7b\x7brelativePath\x7d\x7d" "\x7b\x7bfileName\x7d\x7d" r.fileName = "\x7b\x7brelativePath\x7d\x7d" :=
      jsReplace_no_occur "\x7b\x7brelativePath\x7d\x7d" "\x7b\x7bfileName\x7d\x7d" r.fileName (by decide)
    have e2 : jsReplace "\x7b\x7brelativePath\x7d\x7d" "\x7b\x7brelativePath\x7d\x7d" r.relativePath = r.relativePath :=
      jsReplace_self "\x7b\x7brelativePath\x7d\x7d" r.relativePath (by decide) drel
    have e3 : jsReplace r.relativePath "\x7b\x7brepoPath\x7d\x7d" r.repoPath = r.relativePath :=
      jsReplace_no_occur r.relativePath "\x7b\x7brepoPath\x7d\x7d" r.repoPath (cleanOf_get _ hrel _ memRepo)
    have e4 : jsReplace r.relativePath "\x7b\x7babsolutePath\x7d\x7d" r.absolutePath = r.relativePath :=
      jsReplace_no_occur r.relativePath "\x7b\x7babsolutePath\x7d\x7d" r.absolutePath (cleanOf_get _ hrel _ memAbs)
    have e5 : jsReplace r.relativePath "\x7b\x7bpath\x7d\x7d" r.relativePath = r.relativePath :=
      jsReplace_no_occur r.relativePath "\x7b\x7bpath\x7d\x7d" r.relativePath (cleanOf_get _ hrel _ memPath)
    have e6 : jsReplace r.relativePath "\x7b\x7blanguage\x7d\x7d" r.language = r.relativePath :=
      jsReplace_no_occur r.relativePath "\x7b\x7blanguage\x7d\x7d" r.language (cleanOf_get _ hrel _ memLang)
    have e7 : jsReplace r.relativePath "\x7b\x7bcontent\x7d\x7d" r.content = r.relativePath :=
      jsReplace_no_occur r.relativePath "\x7b\x7bcontent\x7d\x7d" r.content (cleanOf_get _ hrel _ memCont)
    simp only [formatContent, e1, e2, e3, e4, e5, e6, e7]
  · -- token repoPath
    have e1 : jsReplace "\x7b\x7brepoPath\x7d\x7d" "\x7b\x7bfileName\x7d\x7d" r.fileName = "\x7b\x7brepoPath\x7d\x7d" :=
      jsReplace_no_occur "\x7b\x7brepoPath\x7d\x7d" "\x7b\x7bfileName\x7d\x7d" r.fileName (by decide)
    have e2 : jsReplace "\x7b\x7brepoPath\x7d\x7d" "\x7b\x7brelativePath\x7d\x7d" r.relativePath = "\x7b\x7brepoPath\x7d\x7d" :=
      jsReplace_no_occur "\x7b\x7brepoPath\x7d\x7d" "\x7b\x7brelativePath\x7d\x7d" r.relativePath (by decide)
    have e3 : jsReplace "\x7b\x7brepoPath\x7d\x7d" "\x7b\x7brepoPath\x7d\x7d" r.repoPath = r.repoPath :=
      jsReplace_self "\x7b\x7brepoPath\x7d\x7d" r.repoPath (by decide) drepo
    have e4 : jsReplace r.repoPath "\x7b\x7babsolutePath\x7d\x7d" r.absolutePath = r.repoPath :=
      jsReplace_no_occur r.repoPath "\x7b\x7babsolutePath\x7d\x7d" r.absolutePath (cleanOf_get _ hrepo _ memAbs)
    have e5 : jsReplace r.repoPath "\x7b\x7bpath\x7d\x7d" r.relativePath = r.repoPath :=
      jsReplace_no_occur r.repoPath "\x7b\x7bpath\x7d\x7d" r.relativePath (cleanOf_get _ hrepo _ memPath)
    have e6 : jsReplace r.repoPath "\x7b\x7blanguage\x7d\x7d" r.language = r.repoPath :=
      jsReplace_no_occur r.repoPath "\x7b\x7blanguage\x7d\x7d" r.language (cleanOf_get _ hrepo _ memLang)
    have e7 : jsReplace r.repoPath "\x7b\x7bcontent\x7d\x7d" r.content = r.repoPath :=
      jsReplace_no_occur r.repoPath "\x7b\x7bcontent\x7d\x7d" r.content (cleanOf_get _ hrepo _ memCont)
    simp only [formatContent, e1, e2, e3, e4, e5, e6, e7]
  · -- token absolutePath
    have e1 : jsReplace "\x7b\x7babsolutePath\x7d\x7d" "\x7b\x7bfileName\x7d\x7d" r.fileName = "\x7b\x7babsolutePath\x7d\x7d" :=
      jsReplace_no_occur "\x7b\x7babsolutePath\x7d\x7d" "\x7b\x7bfileName\x7d\x7d" r.fileName (by decide)
    have e2 : jsReplace "\x7b\x7babsolutePath\x7d\x7d" "\x7b\x7brelativePath\x7d\x7d" r.relativePath = "\x7b\x7babsolutePath\x7d\x7d" :=
      jsReplace_no_occur "\x7b\x7babsolutePath\x7d\x7d" "\x7b\x7brelativePath\x7d\x7d" r.relativePath (by decide)
    have e3 : jsReplace "\x7b\x7babsolutePath\x7d\x7d" "\x7b\x7brepoPath\x7d\x7d" r.repoPath = "\x7b\x7babsolutePath\x7d\x7d" :=
      jsReplace_no_occur "\x7b\x7babsolutePath\x7d\x7d" "\x7b\x7brepoPath\x7d\x7d" r.repoPath (by decide)
    have e4 : jsReplace "\x7b\x7babsolutePath\x7d\x7d" "\x7b\x7babsolutePath\x7d\x7d" r.absolutePath = r.absolutePath :=
      jsReplace_self "\x7b\x7babsolutePath\x7d\x7d" r.absolutePath (by decide) dabs
    have e5 : jsReplace r.absolutePath "\x7b\x7bpath\x7d\x7d" r.relativePath = r.absolutePath :=
      jsReplace_no_occur r.absolutePath "\x7b\x7bpath\x7d\x7d" r.relativePath (cleanOf_get _ habs _ memPath)
    have e6 : jsReplace r.absolutePath "\x7b\x7blanguage\x7d\x7d" r.language = r.absolutePath :=
      jsReplace_no_occur r.absolutePath "\x7b\x7blanguage\x7d\x7d" r.language (cleanOf_get _ habs _ memLang)
    have e7 : jsReplace r.absolutePath "\x7b\x7bcontent\x7d\x7d" r.content = r.absolutePath :=
      jsReplace_no_occur r.absolutePath "\x7b\x7bcontent\x7d\x7d" r.content (cleanOf_get _ habs _ memCont)
    simp only [formatContent, e1, e2, e3, e4, e5, e6, e7]
  · -- token path
    have e1 : jsReplace "\x7b\x7bpath\x7d\x7d" "\x7b\x7bfileName\x7d\x7d" r.fileName = "\x7b\x7bpath\x7d\x7d" :=
      jsReplace_no_occur "\x7b\x7bpath\x7d\x7d" "\x7b\x7bfileName\x7d\x7d" r.fileName (by decide)
    have e2 : jsReplace "\x7b\x7bpath\x7d\x7d" "\x7b\x7brelativePath\x7d\x7d" r.relativePath = "\x7b\x7bpath\x7d\x7d" :=
      jsReplace_no_occur "\x7b\x7bpath\x7d\x7d" "\x7b\x7brelativePath\x7d\x7d" r.relativePath (by decide)
    have e3 : jsReplace "\x7b\x7bpath\x7d\x7d" "\x7b\x7brepoPath\x7d\x7d" r.repoPath = "\x7b\x7bpath\x7d\x7d" :=
      jsReplace_no_occur "\x7b\x7bpath\x7d\x7d" "\x7b\x7brepoPath\x7d\x7d" r.repoPath (by decide)
    have e4 : jsReplace "\x7b\x7bpath\x7d\x7d" "\x7b\x7babsolutePath\x7d\x7d" r.absolutePath = "\x7b\x7bpath\x7d\x7d" :=
      jsReplace_no_occur "\x7b\x7bpath\x7d\x7d" "\x7b\x7babsolutePath\x7d\x7d" r.absolutePath (by decide)
    have e5 : jsReplace "\x7b\x7bpath\x7d\x7d" "\x7b\x7bpath\x7d\x7d" r.relativePath = r.relativePath :=
      jsReplace_self "\x7b\x7bpath\x7d\x7d" r.relativePath (by decide) drel
    have e6 : jsReplace r.relativePath "\x7b\x7blanguage\x7d\x7d" r.language = r.relativePath :=
      jsReplace_no_occur r.relativePath "\x7b\x7blanguage\x7d\x7d" r.language (cleanOf_get _ hrel _ memLang)
    have e7 : jsReplace r.relativePath "\x7b\x7bcontent\x7d\x7d" r.content = r.relativePath :=
      jsReplace_no_occur r.relativePath "\x7b\x7bcontent\x7d\x7d" r.content (cleanOf_get _ hrel _ memCont)
    simp only [formatContent, e1, e2, e3, e4, e5, e6, e7]
  · -- token language
    have e1 : jsReplace "\x7b\x7blanguage\x7d\x7d" "\x7b\x7bfileName\x7d\x7d" r.fileName = "\x7b\x7blanguage\x7d\x7d" :=
      jsReplace_no_occur "\x7b\x7blanguage\x7d\x7d" "\x7b\x7bfileName\x7d\x7d" r.fileName (by decide)
    have e2 : jsReplace "\x7b\x7blanguage\x7d\x7d" "\x7b\x7brelativePath\x7d\x7d" r.relativePath = "\x7b\x7blanguage\x7d\x7d" :=
      jsReplace_no_occur "\x7b\x7blanguage\x7d\x7d" "\x7b\x7brelativePath\x7d\x7d" r.relativePath (by decide)
    have e3 : jsReplace "\x7b\x7blanguage\x7d\x7d" "\x7b\x7brepoPath\x7d\x7d" r.repoPath = "\x7b\x7blanguage\x7d\x7d" :=
      jsReplace_no_occur "\x7b\x7blanguage\x7d\x7d" "\x7b\x7brepoPath\x7d\x7d" r.repoPath (by decide)
    have e4 : jsReplace "\x7b\x7blanguage\x7d\x7d" "\x7b\x7babsolutePath\x7d\x7d" r.absolutePath = "\x7b\x7blanguage\x7d\x7d" :=
      jsReplace_no_occur "\x7b\x7blanguage\x7d\x7d" "\x7b\x7babsolutePath\x7d\x7d" r.absolutePath (by decide)
    have e5 : jsReplace "\x7b\x7blanguage\x7d\x7d" "\x7b\x7bpath\x7d\x7d" r.relativePath = "\x7b\x7blanguage\x7d\x7d" :=
      jsReplace_no_occur "\x7b\x7blanguage\x7d\x7d" "\x7b\x7bpath\x7d\x7d" r.relativePath (by decide)
    have e6 : jsReplace "\x7b\x7blanguage\x7d\x7d" "\x7b\x7blanguage\x7d\x7d" r.language = r.language :=
      jsReplace_self "\x7b\x7blanguage\x7d\x7d" r.language (by decide) dlang
    have e7 : jsReplace r.language "\x7b\x7bcontent\x7d\x7d" r.content = r.language :=
      jsReplace_no_occur r.language "\x7b\x7bcontent\x7d\x7d" r.content (cleanOf_get _ hlang _ memCont)
    simp only [formatContent, e1, e2, e3, e4, e5, e6, e7]
  · -- token content
    have e1 : jsReplace "\x7b\x7bcontent\x7d\x7d" "\x7b\x7bfileName\x7d\x7d" r.fileName = "\x7b\x7bcontent\x7d\x7d" :=
      jsReplace_no_occur "\x7b\x7bcontent\x7d\x7d" "\x7b\x7bfileName\x7d\x7d" r.fileName (by decide)
    have e2 : jsReplace "\x7b\x7bcontent\x7d\x7d" "\x7b\x7brelativePath\x7d\x7d" r.relativePath = "\x7b\x7bcontent\x7d\x7d" :=
      jsReplace_no_occur "\x7b\x7bcontent\x7d\x7d" "\x7b\x7brelativePath\x7d\x7d" r.relativePath (by decide)
    have e3 : jsReplace "\x7b\x7bcontent\x7d\x7d" "\x7b\x7brepoPath\x7d\x7d" r.repoPath = "\x7b\x7bcontent\x7d\x7d" :=
      jsReplace_no_occur "\x7b\x7bcontent\x7d\x7d" "\x7b\x7brepoPath\x7d\x7d" r.repoPath (by decide)
    have e4 : jsReplace "\x7b\x7bcontent\x7d\x7d" "\x7b\x7babsolutePath\x7d\x7d" r.absolutePath = "\x7b\x7bcontent\x7d\x7d" :=
      jsReplace_no_occur "\x7b\x7bcontent\x7d\x7d" "\x7b\x7babsolutePath\x7d\x7d" r.absolutePath (by decide)
    have e5 : jsReplace "\x7b\x7bcontent\x7d\x7d" "\x7b\x7bpath\x7d\x7d" r.relativePath = "\x7b\x7bcontent\x7d\x7d" :=
      jsReplace_no_occur "\x7b\x7bcontent\x7d\x7d" "\x7b\x7bpath\x7d\x7d" r.relativePath (by decide)
    have e6 : jsReplace "\x7b\x7bcontent\x7d\x7d" "\x7b\x7blanguage\x7d\x7d" r.language = "\x7b\x7bcontent\x7d\x7d" :=
      jsReplace_no_occur "\x7b\x7bcontent\x7d\x7d" "\x7b\x7blanguage\x7d\x7d" r.language (by decide)
    have e7 : jsReplace "\x7b\x7bcontent\x7d\x7d" "\x7b\x7bcontent\x7d\x7d" r.content = r.content :=
      jsReplace_self "\x7b\x7bcontent\x7d\x7d" r.content (by decide) dcont
    simp only [formatContent, e1, e2, e3, e4, e5, e6, e7]

/-- Witness for C8 on a concrete clean, dollar-free record and the unknown
token unknownToken. -/
theorem C8_template_substitution_witness :
    (cleanRecord ⟨"f.ts", "src/f.ts", "repo/src/f.ts", "/a/src/f.ts", "body", "ts"⟩ = true ∧
      dollarFreeRecord ⟨"f.ts", "src/f.ts", "repo/src/f.ts", "/a/src/f.ts", "body", "ts"⟩
        = true) ∧
    cleanOfTokens ("\x7b\x7b" ++ "unknownToken" ++ "\x7d\x7d") = true ∧
    (formatContent ⟨"f.ts", "src/f.ts", "repo/src/f.ts", "/a/src/f.ts", "body", "ts"⟩
          ("\x7b\x7b" ++ "unknownToken" ++ "\x7d\x7d") = "\x7b\x7b" ++ "unknownToken" ++ "\x7d\x7d" ∧
      formatContent ⟨"f.ts", "src/f.ts", "repo/src/f.ts", "/a/src/f.ts", "body", "ts"⟩
          "\x7b\x7bfileName\x7d\x7d" = "f.ts" ∧
      formatContent ⟨"f.ts", "src/f.ts", "repo/src/f.ts", "/a/src/f.ts", "body", "ts"⟩
          "\x7b\x7brelativePath\x7d\x7d" = "src/f.ts" ∧
      formatContent ⟨"f.ts", "src/f.ts", "repo/src/f.ts", "/a/src/f.ts", "body", "ts"⟩
          "\x7b\x7brepoPath\x7d\x7d" = "repo/src/f.ts" ∧
      formatContent ⟨"f.ts", "src/f.ts", "repo/src/f.ts", "/a/src/f.ts", "body", "ts"⟩
          "\x7b\x7babsolutePath\x7d\x7d" = "/a/src/f.ts" ∧
      formatContent ⟨"f.ts", "src/f.ts", "repo/src/f.ts", "/a/src/f.ts", "body", "ts"⟩
          "\x7b\x7bpath\x7d\x7d" = "src/f.ts" ∧
      formatContent ⟨"f.ts", "src/f.ts", "repo/src/f.ts", "/a/src/f.ts", "body", "ts"⟩
          "\x7b\x7blanguage\x7d\x7d" = "ts" ∧
      formatContent ⟨"f.ts", "src/f.ts", "repo/src/f.ts", "/a/src/f.ts", "body", "ts"⟩
          "\x7b\x7bcontent\x7d\x7d" = "body") :=
  ⟨by decide, by decide,
    C8_template_substitution ⟨"f.ts", "src/f.ts", "repo/src/f.ts", "/a/src/f.ts", "body", "ts"⟩
      "unknownToken" (by decide) (by decide) (by decide)⟩

/-! ## C7: invariants of built trees -/

lemma updateFirst_some_length {α : Type} (pr : α → Bool) (f : α → α) :
    ∀ (cs cs2 : List α), updateFirst pr f cs = some cs2 → cs2.length = cs.length := by
  intro cs
  induction cs with
  | nil => intro cs2 h; simp [updateFirst] at h
  | cons c cs ih =>
    intro cs2 h
    rw [updateFirst] at h
    by_cases hpr : pr c = true
    · rw [if_pos hpr] at h
      cases h
      simp
    · rw [if_neg hpr] at h
      cases h2 : updateFirst pr f cs with
      | none => rw [h2] at h; simp at h
      | some cs' =>
        rw [h2] at h
        have heq : c :: cs' = cs2 := by simpa using h
        subst heq
        simp [ih cs' h2]

lemma updateFirst_some_names (f : FileTreeNode → FileTreeNode)
    (hf : ∀ c, (f c).name = c.name) (pr : FileTreeNode → Bool) :
    ∀ (cs cs2 : List FileTreeNode), updateFirst pr f cs = some cs2 →
      cs2.map FileTreeNode.name = cs.map FileTreeNode.name := by
  intro cs
  induction cs with
  | nil => intro cs2 h; simp [updateFirst] at h
  | cons c cs ih =>
    intro cs2 h
    rw [updateFirst] at h
    by_cases hpr : pr c = true
    · rw [if_pos hpr] at h
      cases h
      simp [hf c]
    · rw [if_neg hpr] at h
      cases h2 : updateFirst pr f cs with
      | none => rw [h2] at h; simp at h
      | some cs' =>
        rw [h2] at h
        have heq : c :: cs' = cs2 := by simpa using h
        subst heq
        simp [ih cs' h2]

lemma updateFirst_none {α : Type} (pr : α → Bool) (f : α → α) :
    ∀ (cs : List α), updateFirst pr f cs = none → ∀ c ∈ cs, pr c = false := by
  intro cs
  induction cs with
  | nil => intro _ c hc; cases hc
  | cons c cs ih =>
    intro h x hx
    rw [updateFirst] at h
    by_cases hpr : pr c = true
    · rw [if_pos hpr] at h; simp at h
    · rw [if_neg hpr] at h
      rcases List.mem_cons.mp hx with heq | hmem
      · subst heq; simpa using hpr
      · cases h2 : updateFirst pr f cs with
        | none => exact ih h2 x hmem
        | some cs' => rw [h2] at h; simp at h

lemma namesNodupB_iff : ∀ l : List String, namesNodupB l = true ↔ l.Nodup := by
  intro l
  induction l with
  | nil => simp [namesNodupB]
  | cons n ns ih =>
    show ((!ns.contains n) && namesNodupB ns) = true ↔ (n :: ns).Nodup
    rw [List.nodup_cons, Bool.and_eq_true, ih, Bool.not_eq_true']
    have hcm : ns.contains n = true ↔ n ∈ ns := List.elem_iff
    constructor
    · rintro ⟨h1, h2⟩
      refine ⟨fun hmem => ?_, h2⟩
      rw [hcm.mpr hmem] at h1
      simp at h1
    · rintro ⟨h1, h2⟩
      refine ⟨?_, h2⟩
      cases hcon : ns.contains n
      · rfl
      · exact absurd (hcm.mp hcon) h1

lemma insertParts_ne_nil (parts : List String) (cur : String) :
    ∀ cs : List FileTreeNode, cs ≠ [] → insertParts parts cur cs ≠ [] := by
  cases parts with
  | nil => intro cs h; exact h
  | cons part rest =>
    intro cs h
    rw [insertParts]
    cases hupd : updateFirst (fun c => c.name = part)
        (fun c => .mk c.name c.path c.isDirectory
          (insertParts rest (if cur = "" then part else pathJoin cur part) c.children)) cs with
    | some cs2 =>
      have hlen := updateFirst_some_length _ _ cs cs2 hupd
      show cs2 ≠ []
      intro hnil
      rw [hnil] at hlen
      cases cs with
      | nil => exact h rfl
      | cons c cs' => simp at hlen
    | none => simp

lemma insertParts_cons_ne_nil (part : String) (rest : List String) (cur : String) :
    insertParts (part :: rest) cur [] ≠ [] := by
  rw [insertParts]
  simp [updateFirst]

lemma insertParts_dirImp :
    ∀ (parts : List String) (cur : String) (cs : List FileTreeNode),
      allForestB dirFlagImp cs = true → allForestB dirFlagImp (insertParts parts cur cs) = true := by
  intro parts
  induction parts with
  | nil => intro _ _ h; exact h
  | cons part rest ih =>
    intro cur cs hall
    rw [insertParts]
    cases hupd : updateFirst (fun c => c.name = part)
        (fun c => .mk c.name c.path c.isDirectory
          (insertParts rest (if cur = "" then part else pathJoin cur part) c.children)) cs with
    | some cs2 =>
      refine updateFirst_allForest dirFlagImp _ _ cs cs2 hall ?_ hupd
      intro c hc
      cases c with
      | mk n pa d ccs =>
        rw [allNodesB_mk, Bool.and_eq_true] at hc
        rw [allNodesB_mk, Bool.and_eq_true]
        simp only [FileTreeNode.name, FileTreeNode.path, FileTreeNode.isDirectory,
          FileTreeNode.children]
        constructor
        · rcases hc with ⟨hd, _⟩
          simp only [dirFlagImp, FileTreeNode.isDirectory, FileTreeNode.children] at hd ⊢
          cases d with
          | false => rfl
          | true =>
            simp only [Bool.not_true, Bool.false_or] at hd ⊢
            have hccs : ccs ≠ [] := by
              intro hnil
              rw [hnil] at hd
              simp [List.isEmpty] at hd
            have := insertParts_ne_nil rest (if cur = "" then part else pathJoin cur part) ccs hccs
            cases hres : insertParts rest (if cur = "" then part else pathJoin cur part) ccs with
            | nil => exact absurd hres this
            | cons x xs => simp [List.isEmpty]
        · exact ih _ ccs hc.2
    | none =>
      rw [allForestB_append, hall]
      rw [allForestB, allNodesB_mk]
      have h1 : dirFlagImp (FileTreeNode.mk part
          (if cur = "" then part else pathJoin cur part) (!rest.isEmpty)
          (insertParts rest (if cur = "" then part else pathJoin cur part) [])) = true := by
        simp only [dirFlagImp, FileTreeNode.isDirectory, FileTreeNode.children]
        cases rest with
        | nil => rfl
        | cons r rs =>
          have := insertParts_cons_ne_nil r rs (if cur = "" then part else pathJoin cur part)
          cases hres : insertParts (r :: rs) (if cur = "" then part else pathJoin cur part) [] with
          | nil => exact absurd hres this
          | cons x xs => simp [List.isEmpty]
      rw [h1, ih _ [] rfl]
      rfl

lemma insertParts_nodup :
    ∀ (parts : List String) (cur : String) (cs : List FileTreeNode),
      namesNodupB (cs.map FileTreeNode.name) = true → allForestB sibNodup cs = true →
      namesNodupB ((insertParts parts cur cs).map FileTreeNode.name) = true ∧
        allForestB sibNodup (insertParts parts cur cs) = true := by
  intro parts
  induction parts with
  | nil => intro _ _ h1 h2; exact ⟨h1, h2⟩
  | cons part rest ih =>
    intro cur cs hnames hall
    rw [insertParts]
    cases hupd : updateFirst (fun c => c.name = part)
        (fun c => .mk c.name c.path c.isDirectory
          (insertParts rest (if cur = "" then part else pathJoin cur part) c.children)) cs with
    | some cs2 =>
      have hnm := updateFirst_some_names _ (by
        intro c
        cases c
        rfl) _ cs cs2 hupd
      constructor
      · rw [hnm]; exact hnames
      · refine updateFirst_allForest sibNodup _ _ cs cs2 hall ?_ hupd
        intro c hc
        cases c with
        | mk n pa d ccs =>
          rw [allNodesB_mk, Bool.and_eq_true] at hc
          rw [allNodesB_mk, Bool.and_eq_true]
          simp only [FileTreeNode.name, FileTreeNode.path, FileTreeNode.isDirectory,
            FileTreeNode.children]
          have hrec := ih (if cur = "" then part else pathJoin cur part) ccs
            (by simpa [sibNodup, FileTreeNode.children] using hc.1) hc.2
          exact ⟨by simpa [sibNodup, FileTreeNode.children] using hrec.1, hrec.2⟩
    | none =>
      have hnotmem : ∀ c ∈ cs, c.name ≠ part := by
        intro c hc
        have := updateFirst_none _ _ cs hupd c hc
        simpa using this
      constructor
      · rw [List.map_append]
        rw [namesNodupB_iff] at hnames ⊢
        simp only [List.map_cons, List.map_nil]
        rw [List.nodup_append]
        refine ⟨hnames, by simp [FileTreeNode.name], ?_⟩
        intro x hx
        simp only [List.mem_map] at hx
        rcases hx with ⟨c, hc, hcx⟩
        simp only [List.mem_singleton, FileTreeNode.name]
        intro hxeq
        exact hnotmem c hc (by rw [hcx, hxeq])
      · rw [allForestB_append, hall]
        have hrec := ih (if cur = "" then part else pathJoin cur part) [] rfl rfl
        rw [allForestB, allNodesB_mk]
        have h1 : sibNodup (FileTreeNode.mk part
            (if cur = "" then part else pathJoin cur part) (!rest.isEmpty)
            (insertParts rest (if cur = "" then part else pathJoin cur part) [])) = true := by
          simpa [sibNodup, FileTreeNode.children] using hrec.1
        rw [h1, hrec.2]
        rfl

lemma foldl_insert_dirImp :
    ∀ (S : List String) (cs : List FileTreeNode), allForestB dirFlagImp cs = true →
      allForestB dirFlagImp (S.foldl (fun acc pp => insertParts (splitParts pp) "" acc) cs) = true := by
  intro S
  induction S with
  | nil => intro cs h; exact h
  | cons pp S' ih => intro cs h; exact ih _ (insertParts_dirImp (splitParts pp) "" cs h)

lemma foldl_insert_nodup :
    ∀ (S : List String) (cs : List FileTreeNode),
      namesNodupB (cs.map FileTreeNode.name) = true → allForestB sibNodup cs = true →
      namesNodupB (((S.foldl (fun acc pp => insertParts (splitParts pp) "" acc) cs)).map
          FileTreeNode.name) = true ∧
        allForestB sibNodup (S.foldl (fun acc pp => insertParts (splitParts pp) "" acc) cs) = true := by
  intro S
  induction S with
  | nil => intro cs h1 h2; exact ⟨h1, h2⟩
  | cons pp S' ih =>
    intro cs h1 h2
    have h := insertParts_nodup (splitParts pp) "" cs h1 h2
    exact ih _ h.1 h.2

/-- C7 counterexample.  The claimed invariant that isDirectory holds exactly
when a node has at least one child fails on built trees: inserting the path
a and then a/b leaves the node a with a child but isDirectory false, and the
empty selection yields the synthetic root with isDirectory true and no
children. -/
theorem C7_counterexample :
    allNodesB dirFlagIff (buildFileTree ["a", "a/b"]) = false ∧
    allNodesB dirFlagIff (buildFileTree []) = false := by
  decide

/-- C7 amended.  Every tree returned by buildFileTree satisfies: no two
children of any node share a name; every node below the root (and the root
itself when the tree was collapsed from a single top-level entry, so its
path is nonempty) has at least one child whenever its isDirectory flag is
true.  The converse implication of the original claim fails (see the
counterexample): a node keeps isDirectory false when its path was first
inserted as a complete input path, and the synthetic root keeps isDirectory
true even when empty.  The single-ownership forest shape is inherent to the
value semantics of the model. -/
theorem C7_tree_invariants (S : List String) :
    allNodesB sibNodup (buildFileTree S) = true ∧
    allForestB dirFlagImp (buildFileTree S).children = true ∧
    ((buildFileTree S).path ≠ "" → allNodesB dirFlagImp (buildFileTree S) = true) := by
  have hnodup := foldl_insert_nodup S [] rfl rfl
  have himp := foldl_insert_dirImp S [] rfl
  rw [buildFileTree]
  cases hfold : S.foldl (fun acc pp => insertParts (splitParts pp) "" acc) [] with
  | nil =>
    rw [hfold] at hnodup himp
    refine ⟨by decide, rfl, ?_⟩
    intro h
    exact (h rfl).elim
  | cons c cs' =>
    rw [hfold] at hnodup himp
    cases cs' with
    | nil =>
      rw [allForestB] at himp
      rw [Bool.and_eq_true] at himp
      have hforest := hnodup.2
      rw [allForestB, Bool.and_eq_true] at hforest
      refine ⟨hforest.1, ?_, fun _ => ?_⟩
      · cases c with
        | mk n pa d ccs =>
          have := himp.1
          rw [allNodesB_mk, Bool.and_eq_true] at this
          exact this.2
      · exact himp.1
    | cons c2 cs'' =>
      refine ⟨?_, ?_, ?_⟩
      · rw [allNodesB_mk, Bool.and_eq_true]
        constructor
        · simpa [sibNodup, FileTreeNode.children] using hnodup.1
        · exact hnodup.2
      · exact himp
      · intro h
        exact (h rfl).elim

/-- Witness for the amended C7 invariants on a collapsed concrete tree. -/
theorem C7_tree_invariants_witness :
    (buildFileTree ["a/b"]).path ≠ "" ∧
    (allNodesB sibNodup (buildFileTree ["a/b"]) = true ∧
      allForestB dirFlagImp (buildFileTree ["a/b"]).children = true ∧
      allNodesB dirFlagImp (buildFileTree ["a/b"]) = true) :=
  ⟨by decide,
    (C7_tree_invariants ["a/b"]).1,
    (C7_tree_invariants ["a/b"]).2.1,
    (C7_tree_invariants ["a/b"]).2.2 (by decide)⟩

/-! ## C5: the sibling order the renderer emits -/

lemma cmpNatList_eq_iff : ∀ (a b : List Nat), cmpNatList a b = .eq ↔ a = b := by
  intro a
  induction a with
  | nil => intro b; cases b <;> simp [cmpNatList]
  | cons x xs ih =>
    intro b
    cases b with
    | nil => simp [cmpNatList]
    | cons y ys =>
      rw [cmpNatList]
      by_cases h1 : x < y
      · rw [if_pos h1]
        constructor
        · intro h; cases h
        · intro h
          rw [List.cons.injEq] at h
          omega
      · rw [if_neg h1]
        by_cases h2 : y < x
        · rw [if_pos h2]
          constructor
          · intro h; cases h
          · intro h
            rw [List.cons.injEq] at h
            omega
        · rw [if_neg h2]
          have hxy : x = y := by omega
          subst hxy
          rw [ih ys]
          simp

lemma cmpNatList_gt_iff_lt : ∀ (a b : List Nat), cmpNatList a b = .gt ↔ cmpNatList b a = .lt := by
  intro a
  induction a with
  | nil => intro b; cases b <;> simp [cmpNatList]
  | cons x xs ih =>
    intro b
    cases b with
    | nil => simp [cmpNatList]
    | cons y ys =>
      rw [cmpNatList, cmpNatList]
      by_cases h1 : x < y
      · rw [if_pos h1, if_neg (by omega : ¬y < x), if_pos h1]
        constructor <;> (intro h; cases h)
      · rw [if_neg h1]
        by_cases h2 : y < x
        · rw [if_pos h2, if_pos h2]
          simp
        · rw [if_neg h2, if_neg h1, if_neg h2]
          exact ih ys

lemma cmpNatList_lt_trans :
    ∀ (a b c : List Nat), cmpNatList a b = .lt → cmpNatList b c = .lt → cmpNatList a c = .lt := by
  intro a
  induction a with
  | nil =>
    intro b c hab hbc
    cases b with
    | nil => exact hbc
    | cons y ys =>
      cases c with
      | nil => simp [cmpNatList] at hbc
      | cons z zs => rfl
  | cons x xs ih =>
    intro b c hab hbc
    cases b with
    | nil => rw [cmpNatList] at hab; cases hab
    | cons y ys =>
      cases c with
      | nil => simp [cmpNatList] at hbc
      | cons z zs =>
        rw [cmpNatList] at hab hbc ⊢
        by_cases h1 : x < y
        · rw [if_pos h1] at hab
          by_cases h2 : y < z
          · rw [if_pos (by omega : x < z)]
          · rw [if_neg h2] at hbc
            by_cases h3 : z < y
            · rw [if_pos h3] at hbc; cases hbc
            · have : y = z := by omega
              subst this
              rw [if_pos h1]
        · rw [if_neg h1] at hab
          by_cases h1' : y < x
          · rw [if_pos h1'] at hab; cases hab
          · rw [if_neg h1'] at hab
            have hxy : x = y := by omega
            subst hxy
            by_cases h2 : x < z
            · rw [if_pos h2]
            · rw [if_neg h2] at hbc ⊢
              by_cases h3 : z < x
              · rw [if_pos h3] at hbc; cases hbc
              · rw [if_neg h3] at hbc ⊢
                exact ih ys zs hab hbc

lemma char_eq_of_weights (c d : Char) (h1 : foldVal c = foldVal d) (h2 : caseBit c = caseBit d) :
    c = d := by
  by_cases hc : c.isUpper
  · by_cases hd : d.isUpper
    · rw [foldVal, if_pos hc, foldVal, if_pos hd] at h1
      have : c.toNat = d.toNat := by omega
      calc c = Char.ofNat c.toNat := (Char.ofNat_toNat c).symm
        _ = Char.ofNat d.toNat := by rw [this]
        _ = d := Char.ofNat_toNat d
    · rw [caseBit, if_pos hc, caseBit, if_neg hd] at h2
      cases h2
  · by_cases hd : d.isUpper
    · rw [caseBit, if_neg hc, caseBit, if_pos hd] at h2
      cases h2
    · rw [foldVal, if_neg hc, foldVal, if_neg hd] at h1
      calc c = Char.ofNat c.toNat := (Char.ofNat_toNat c).symm
        _ = Char.ofNat d.toNat := by rw [h1]
        _ = d := Char.ofNat_toNat d

lemma chars_eq_of_weights :
    ∀ (l1 l2 : List Char), l1.map foldVal = l2.map foldVal → l1.map caseBit = l2.map caseBit →
      l1 = l2 := by
  intro l1
  induction l1 with
  | nil => intro l2 h1 _; cases l2 with | nil => rfl | cons _ _ => cases h1
  | cons c cs ih =>
    intro l2 h1 h2
    cases l2 with
    | nil => cases h1
    | cons d ds =>
      simp only [List.map_cons, List.cons.injEq] at h1 h2
      rw [char_eq_of_weights c d h1.1 h2.1, ih ds h1.2 h2.2]

lemma string_eq_of_weights (s t : String)
    (h1 : s.data.map foldVal = t.data.map foldVal)
    (h2 : s.data.map caseBit = t.data.map caseBit) : s = t := by
  cases s with
  | mk sd =>
    cases t with
    | mk td =>
      rw [chars_eq_of_weights sd td h1 h2]

lemma nfdChar_alnum (c : Char) (h : c.isAlphanum = true) : nfdChar c = [c] := by
  have h1 : ¬(c = 'é') := fun he => by subst he; exact absurd h (by decide)
  have h2 : ¬(c = 'É') := fun he => by subst he; exact absurd h (by decide)
  rw [nfdChar, if_neg h1, if_neg h2]

lemma nfdChars_alnum : ∀ l : List Char, (∀ c ∈ l, c.isAlphanum = true) → nfdChars l = l := by
  intro l
  induction l with
  | nil => intro _; rfl
  | cons c rest ih =>
    intro h
    rw [nfdChars, nfdChar_alnum c (h c (List.mem_cons_self c rest)),
      ih (fun x hx => h x (List.mem_cons_of_mem c hx))]
    rfl

lemma localeCompare_le_total (s t : String) : localeCompare s t ≤ 0 ∨ localeCompare t s ≤ 0 := by
  rw [localeCompare, localeCompare]
  cases h1 : cmpNatList (primW s) (primW t) with
  | lt => left; simp
  | gt =>
    right
    rw [cmpNatList_gt_iff_lt] at h1
    rw [h1]
    simp
  | eq =>
    have h1' : cmpNatList (primW t) (primW s) = .eq := by
      rw [cmpNatList_eq_iff] at h1 ⊢
      exact h1.symm
    rw [h1']
    cases h2 : cmpNatList (caseW s) (caseW t) with
    | lt => left; simp
    | gt =>
      right
      rw [cmpNatList_gt_iff_lt] at h2
      rw [h2]
      simp
    | eq =>
      have h2' : cmpNatList (caseW t) (caseW s) = .eq := by
        rw [cmpNatList_eq_iff] at h2 ⊢
        exact h2.symm
      rw [h2']
      simp

lemma localeCompare_le_antisymm (s t : String)
    (has : alnumName s = true) (hat : alnumName t = true)
    (hst : localeCompare s t ≤ 0) (hts : localeCompare t s ≤ 0) : s = t := by
  rw [localeCompare] at hst hts
  cases h1 : cmpNatList (primW s) (primW t) with
  | gt => rw [h1] at hst; simp at hst
  | lt =>
    have h1' : cmpNatList (primW t) (primW s) = .gt := by
      rw [cmpNatList_gt_iff_lt]
      exact h1
    rw [h1'] at hts
    simp at hts
  | eq =>
    have h1' : cmpNatList (primW t) (primW s) = .eq := by
      rw [cmpNatList_eq_iff] at h1 ⊢
      exact h1.symm
    rw [h1] at hst
    rw [h1'] at hts
    cases h2 : cmpNatList (caseW s) (caseW t) with
    | gt => rw [h2] at hst; simp at hst
    | lt =>
      have h2' : cmpNatList (caseW t) (caseW s) = .gt := by
        rw [cmpNatList_gt_iff_lt]
        exact h2
      rw [h2'] at hts
      simp at hts
    | eq =>
      have hchars : nfdChars s.data = nfdChars t.data :=
        chars_eq_of_weights (nfdChars s.data) (nfdChars t.data)
          ((cmpNatList_eq_iff _ _).mp h1) ((cmpNatList_eq_iff _ _).mp h2)
      rw [alnumName, List.all_eq_true] at has hat
      rw [nfdChars_alnum s.data (fun c hc => by simpa using has c hc),
        nfdChars_alnum t.data (fun c hc => by simpa using hat c hc)] at hchars
      cases s with
      | mk sd =>
        cases t with
        | mk td => exact congrArg String.mk hchars

lemma localeCompare_le_iff (s t : String) : localeCompare s t ≤ 0 ↔
    cmpNatList (primW s) (primW t) = .lt ∨
    (cmpNatList (primW s) (primW t) = .eq ∧
      cmpNatList (caseW s) (caseW t) ≠ .gt) := by
  rw [localeCompare]
  cases h1 : cmpNatList (primW s) (primW t) with
  | lt => simp
  | gt => simp
  | eq =>
    cases h2 : cmpNatList (caseW s) (caseW t) with
    | lt => simp
    | gt => simp
    | eq => simp

lemma localeCompare_le_trans (r s t : String)
    (h1 : localeCompare r s ≤ 0) (h2 : localeCompare s t ≤ 0) : localeCompare r t ≤ 0 := by
  rw [localeCompare_le_iff] at h1 h2 ⊢
  rcases h1 with hp1 | ⟨hp1, hc1⟩ <;> rcases h2 with hp2 | ⟨hp2, hc2⟩
  · exact Or.inl (cmpNatList_lt_trans _ _ _ hp1 hp2)
  · rw [cmpNatList_eq_iff] at hp2
    exact Or.inl (by rw [← hp2]; exact hp1)
  · rw [cmpNatList_eq_iff] at hp1
    exact Or.inl (by rw [hp1]; exact hp2)
  · right
    constructor
    · rw [cmpNatList_eq_iff] at hp1 hp2 ⊢
      exact hp1.trans hp2
    · cases hcc1 : cmpNatList (caseW r) (caseW s) with
      | gt => exact absurd hcc1 hc1
      | lt =>
        cases hcc2 : cmpNatList (caseW s) (caseW t) with
        | gt => exact absurd hcc2 hc2
        | lt =>
          rw [cmpNatList_lt_trans _ _ _ hcc1 hcc2]
          simp
        | eq =>
          rw [cmpNatList_eq_iff] at hcc2
          rw [← hcc2, hcc1]
          simp
      | eq =>
        rw [cmpNatList_eq_iff] at hcc1
        rw [hcc1]
        exact hc2

lemma cmpNodes_same_group (a b : FileTreeNode)
    (h : a.children.isEmpty = b.children.isEmpty) :
    cmpNodes a b = localeCompare a.name b.name := by
  cases hea : a.children.isEmpty <;> rw [hea] at h <;> simp [cmpNodes, hea, h.symm]

lemma cmpNodes_group_lt (a b : FileTreeNode)
    (hea : a.children.isEmpty = false) (heb : b.children.isEmpty = true) :
    cmpNodes a b = -1 := by
  simp [cmpNodes, hea, heb]

lemma cmpNodes_group_gt (a b : FileTreeNode)
    (hea : a.children.isEmpty = true) (heb : b.children.isEmpty = false) :
    cmpNodes a b = 1 := by
  simp [cmpNodes, hea, heb]

instance : IsTotal FileTreeNode nodeLE := by
  constructor
  intro a b
  rw [nodeLE, nodeLE]
  cases hea : a.children.isEmpty <;> cases heb : b.children.isEmpty
  · rw [cmpNodes_same_group a b (hea.trans heb.symm), cmpNodes_same_group b a (heb.trans hea.symm)]
    exact localeCompare_le_total a.name b.name
  · rw [cmpNodes_group_lt a b hea heb]
    left; omega
  · rw [cmpNodes_group_lt b a heb hea]
    right; omega
  · rw [cmpNodes_same_group a b (hea.trans heb.symm), cmpNodes_same_group b a (heb.trans hea.symm)]
    exact localeCompare_le_total a.name b.name

instance : IsTrans FileTreeNode nodeLE := by
  constructor
  intro a b c hab hbc
  rw [nodeLE] at hab hbc ⊢
  cases hea : a.children.isEmpty <;> cases heb : b.children.isEmpty <;>
    cases hec : c.children.isEmpty
  · rw [cmpNodes_same_group a b (hea.trans heb.symm)] at hab
    rw [cmpNodes_same_group b c (heb.trans hec.symm)] at hbc
    rw [cmpNodes_same_group a c (hea.trans hec.symm)]
    exact localeCompare_le_trans _ _ _ hab hbc
  · rw [cmpNodes_group_lt a c hea hec]
    omega
  · rw [cmpNodes_group_gt b c heb hec] at hbc
    omega
  · rw [cmpNodes_group_lt a c hea hec]
    omega
  · rw [cmpNodes_group_gt a b hea heb] at hab
    omega
  · rw [cmpNodes_group_gt a b hea heb] at hab
    omega
  · rw [cmpNodes_group_gt b c heb hec] at hbc
    omega
  · rw [cmpNodes_same_group a b (hea.trans heb.symm)] at hab
    rw [cmpNodes_same_group b c (heb.trans hec.symm)] at hbc
    rw [cmpNodes_same_group a c (hea.trans hec.symm)]
    exact localeCompare_le_trans _ _ _ hab hbc

lemma orderedInsert_map {α : Type} (f : FileTreeNode → FileTreeNode × α)
    (hf : ∀ c, (f c).1 = c) (a : FileTreeNode) :
    ∀ l : List FileTreeNode,
      List.orderedInsert pairLE (f a) (l.map f) = (List.orderedInsert nodeLE a l).map f := by
  intro l
  induction l with
  | nil => simp [List.orderedInsert]
  | cons b l ih =>
    simp only [List.map_cons, List.orderedInsert]
    have hp : pairLE (f a) (f b) ↔ nodeLE a b := by
      rw [pairLE, hf a, hf b]
    by_cases h : nodeLE a b
    · rw [if_pos (hp.mpr h), if_pos h]
      simp
    · rw [if_neg (fun hx => h (hp.mp hx)), if_neg h]
      simp [ih]

lemma insertionSort_map {α : Type} (f : FileTreeNode → FileTreeNode × α)
    (hf : ∀ c, (f c).1 = c) :
    ∀ l : List FileTreeNode,
      List.insertionSort pairLE (l.map f) = (List.insertionSort nodeLE l).map f := by
  intro l
  induction l with
  | nil => rfl
  | cons b l ih =>
    simp only [List.map_cons, List.insertionSort, ih]
    exact orderedInsert_map f hf b _

lemma renderPairs_map : ∀ (cs : List FileTreeNode) (pre : String),
    renderPairs cs pre
      = cs.map (fun c => (c, generateTreeString c pre false, generateTreeString c pre true)) := by
  intro cs
  induction cs with
  | nil => intro pre; rfl
  | cons c cs ih => intro pre; simp [renderPairs, ih]

lemma glueRendered_renderSeq : ∀ (l : List FileTreeNode) (pre : String),
    glueRendered (l.map (fun c => (c, generateTreeString c pre false, generateTreeString c pre true)))
      = renderSeq l pre := by
  intro l
  induction l with
  | nil => intro pre; rfl
  | cons c l ih =>
    intro pre
    cases l with
    | nil => rfl
    | cons c2 l2 =>
      have ih2 := ih pre
      simp only [List.map_cons] at ih2 ⊢
      rw [glueRendered, ih2]
      · rfl
      · exact fun h => List.cons_ne_nil _ _ h

lemma generateTreeString_renderSeq (n p : String) (d : Bool) (cs : List FileTreeNode)
    (pre : String) (isLast : Bool) :
    generateTreeString (FileTreeNode.mk n p d cs) pre isLast =
      (if p ≠ "" then pre ++ (if isLast then "└── " else "├── ") ++ n ++ "\n"
       else if n ≠ "root" ∧ n ≠ "" then n ++ "/\n" else "") ++
      renderSeq (sortNodes cs)
        (if p = "" ∧ n = "root" then pre else pre ++ (if isLast then "    " else "│   ")) := by
  rw [generateTreeString]
  rw [renderPairs_map, insertionSort_map _ (fun c => rfl), glueRendered_renderSeq]
  rfl

/-- C5 counterexample.  Two failures of the original claim on built trees.
First, on the tree built from r/B and r/a (two childless file nodes) the
claim predicts the case-sensitive lexicographic order B before a; the
renderer uses localeCompare, which orders a before B.  Second, on the tree
built from r/z, r/z/x and r/a both children of r carry isDirectory false
(z was first inserted as a complete path), so the claimed directories-first
grouping by flag would put the two nodes in one group and render a before
z; the source groups by children.length instead and renders z (which has a
child) first. -/
theorem C5_sibling_order_counterexample :
    (generateTreeString (buildFileTree ["r/B", "r/a"]) "" true
        = "└── r\n    ├── a\n    └── B\n" ∧
      generateTreeString (buildFileTree ["r/B", "r/a"]) "" true
        ≠ "└── r\n    ├── B\n    └── a\n") ∧
    ((buildFileTree ["r/z", "r/z/x", "r/a"]).children.map FileTreeNode.isDirectory
        = [false, false] ∧
      generateTreeString (buildFileTree ["r/z", "r/z/x", "r/a"]) "" true
        = "└── r\n    ├── z\n    │   └── x\n    └── a\n") := by
  refine ⟨⟨rfl, by decide⟩, by decide, rfl⟩

/-- C5, amended.  For every node whose children's names are all
ASCII-alphanumeric — the fragment on which the comparator model is exact —
the renderer emits exactly the node line followed by the children rendered
in the order sortNodes produces, and that order is a permutation of the
children sorted by the source comparator: children with at least one child
precede childless children (the isDirectory flag is not consulted; see the
counterexample), and names inside a group follow the default-locale
collation, which compares letters case-insensitively and puts lower case
first on ties (a before B), not code-point order.  Outside the
alphanumeric fragment the model does not pin down the collation of symbols
and non-ASCII letters, so the claim is stated only there. -/
theorem C5_sibling_order (n p : String) (d : Bool) (cs : List FileTreeNode)
    (pre : String) (isLast : Bool)
    (h : ∀ c ∈ cs, alnumName c.name = true) :
    generateTreeString (FileTreeNode.mk n p d cs) pre isLast =
      (if p ≠ "" then pre ++ (if isLast then "└── " else "├── ") ++ n ++ "\n"
       else if n ≠ "root" ∧ n ≠ "" then n ++ "/\n" else "") ++
      renderSeq (sortNodes cs)
        (if p = "" ∧ n = "root" then pre else pre ++ (if isLast then "    " else "│   ")) ∧
    (sortNodes cs).Perm cs ∧
    List.Sorted nodeLE (sortNodes cs) :=
  ⟨generateTreeString_renderSeq n p d cs pre isLast,
    List.perm_insertionSort nodeLE cs,
    List.sorted_insertionSort nodeLE cs⟩

/-- Witness for the amended C5 at a concrete node with two alphanumeric
children. -/
theorem C5_sibling_order_witness :
    (∀ c ∈ [FileTreeNode.mk "B" "r/B" false [], FileTreeNode.mk "a" "r/a" false []],
      alnumName c.name = true) ∧
    (generateTreeString (FileTreeNode.mk "r" "r" false
        [FileTreeNode.mk "B" "r/B" false [], FileTreeNode.mk "a" "r/a" false []]) "" true =
      (if ("r" : String) ≠ "" then "" ++ (if (true : Bool) then "└── " else "├── ") ++ "r" ++ "\n"
       else if ("r" : String) ≠ "root" ∧ ("r" : String) ≠ "" then "r" ++ "/\n" else "") ++
      renderSeq (sortNodes [FileTreeNode.mk "B" "r/B" false [], FileTreeNode.mk "a" "r/a" false []])
        (if ("r" : String) = "" ∧ ("r" : String) = "root" then ""
         else "" ++ (if (true : Bool) then "    " else "│   ")) ∧
    (sortNodes [FileTreeNode.mk "B" "r/B" false [],
        FileTreeNode.mk "a" "r/a" false []]).Perm
      [FileTreeNode.mk "B" "r/B" false [], FileTreeNode.mk "a" "r/a" false []] ∧
    List.Sorted nodeLE (sortNodes [FileTreeNode.mk "B" "r/B" false [],
        FileTreeNode.mk "a" "r/a" false []])) :=
  ⟨by decide,
    C5_sibling_order "r" "r" false
      [FileTreeNode.mk "B" "r/B" false [], FileTreeNode.mk "a" "r/a" false []] "" true
      (by decide)⟩

/-! ## C6: order-independence of the rendered drawing

The renderer never reads the isDirectory flag, and the sibling sort makes
the drawing independent of the sibling order; the canonical form of a tree
(flags forced, children recursively sorted) therefore determines the
drawing, and insertion of the same path set in any order yields the same
canonical form. -/

lemma canon_name (a : FileTreeNode) : (canon a).name = a.name := by
  cases a; rfl

lemma canon_path (a : FileTreeNode) : (canon a).path = a.path := by
  cases a; rfl

lemma canonL_cons (c : FileTreeNode) (l : List FileTreeNode) :
    canonL (c :: l) = canon c :: canonL l := rfl

lemma canonL_append : ∀ l1 l2 : List FileTreeNode,
    canonL (l1 ++ l2) = canonL l1 ++ canonL l2 := by
  intro l1
  induction l1 with
  | nil => intro l2; rfl
  | cons c l ih => intro l2; rw [List.cons_append, canonL_cons, canonL_cons, ih, List.cons_append]

lemma canonL_eq_map : ∀ l : List FileTreeNode, canonL l = l.map canon := by
  intro l
  induction l with
  | nil => rfl
  | cons c l ih => rw [canonL_cons, List.map_cons, ih]

lemma canonL_length (l : List FileTreeNode) : (canonL l).length = l.length := by
  rw [canonL_eq_map, List.length_map]

lemma canonL_map_name (l : List FileTreeNode) :
    (canonL l).map FileTreeNode.name = l.map FileTreeNode.name := by
  induction l with
  | nil => rfl
  | cons c l ih => rw [canonL_cons, List.map_cons, List.map_cons, ih, canon_name]

lemma isEmpty_eq_length {γ : Type} (l : List γ) : l.isEmpty = (l.length == 0) := by
  cases l <;> rfl

lemma canon_children_isEmpty (a : FileTreeNode) :
    (canon a).children.isEmpty = a.children.isEmpty := by
  cases a with
  | mk n p d cs =>
    show (List.insertionSort nodeLE (canonL cs)).isEmpty = cs.isEmpty
    rw [isEmpty_eq_length, isEmpty_eq_length, List.length_insertionSort, canonL_length]

lemma cmpNodes_canon (a b : FileTreeNode) : cmpNodes (canon a) (canon b) = cmpNodes a b := by
  rw [cmpNodes, cmpNodes, canon_children_isEmpty, canon_children_isEmpty, canon_name, canon_name]

lemma nodeLE_canon (a b : FileTreeNode) : nodeLE (canon a) (canon b) ↔ nodeLE a b := by
  show cmpNodes (canon a) (canon b) ≤ 0 ↔ cmpNodes a b ≤ 0
  rw [cmpNodes_canon]

lemma orderedInsert_canon (b : FileTreeNode) :
    ∀ l : List FileTreeNode,
      List.orderedInsert nodeLE (canon b) (canonL l) = canonL (List.orderedInsert nodeLE b l) := by
  intro l
  induction l with
  | nil => rfl
  | cons c l ih =>
    rw [canonL_cons, List.orderedInsert, List.orderedInsert]
    by_cases h : nodeLE b c
    · rw [if_pos ((nodeLE_canon b c).mpr h), if_pos h, canonL_cons, canonL_cons]
    · rw [if_neg (fun hx => h ((nodeLE_canon b c).mp hx)), if_neg h, canonL_cons, ih]

lemma sortNodes_canonL : ∀ l : List FileTreeNode,
    sortNodes (canonL l) = canonL (sortNodes l) := by
  intro l
  induction l with
  | nil => rfl
  | cons c l ih =>
    show List.orderedInsert nodeLE (canon c) (sortNodes (canonL l))
      = canonL (List.orderedInsert nodeLE c (sortNodes l))
    rw [ih]
    exact orderedInsert_canon c (sortNodes l)

lemma sortNodes_idem (l : List FileTreeNode) : sortNodes (sortNodes l) = sortNodes l :=
  List.Sorted.insertionSort_eq (List.sorted_insertionSort nodeLE l)

lemma renderSeq_canonL :
    ∀ l : List FileTreeNode,
      (∀ c ∈ l, ∀ pre isLast,
        generateTreeString (canon c) pre isLast = generateTreeString c pre isLast) →
      ∀ pre, renderSeq (canonL l) pre = renderSeq l pre := by
  intro l
  induction l with
  | nil => intro _ _; rfl
  | cons c l ih =>
    intro h pre
    cases l with
    | nil => exact h c (List.mem_cons_self c []) pre true
    | cons c2 l2 =>
      have hc := h c (List.mem_cons_self c (c2 :: l2)) pre false
      have ih2 := ih (fun x hx pre2 b => h x (List.mem_cons_of_mem c hx) pre2 b) pre
      show generateTreeString (canon c) pre false ++ renderSeq (canonL (c2 :: l2)) pre
        = generateTreeString c pre false ++ renderSeq (c2 :: l2) pre
      rw [hc, ih2]

lemma generateTreeString_canon :
    ∀ (k : Nat) (a : FileTreeNode), sizeOf a ≤ k → ∀ pre isLast,
      generateTreeString (canon a) pre isLast = generateTreeString a pre isLast := by
  intro k
  induction k with
  | zero =>
    intro a hk
    cases a with
    | mk n p d cs =>
      rw [FileTreeNode.mk.sizeOf_spec] at hk
      omega
  | succ k ih =>
    intro a hk pre isLast
    cases a with
    | mk n p d cs =>
      have hmem : ∀ c ∈ sortNodes cs, sizeOf c ≤ k := by
        intro c hc
        have hc2 : c ∈ cs := (List.perm_insertionSort nodeLE cs).mem_iff.mp hc
        have h1 : sizeOf c < sizeOf cs := List.sizeOf_lt_of_mem hc2
        rw [FileTreeNode.mk.sizeOf_spec] at hk
        omega
      have hseq := renderSeq_canonL (sortNodes cs) (fun c hc pre2 b => ih c (hmem c hc) pre2 b)
      show generateTreeString (FileTreeNode.mk n p true (sortNodes (canonL cs))) pre isLast
        = generateTreeString (FileTreeNode.mk n p d cs) pre isLast
      rw [generateTreeString_renderSeq, generateTreeString_renderSeq, sortNodes_idem,
        sortNodes_canonL, hseq]

lemma sorted_perm_eq :
    ∀ (l1 l2 : List FileTreeNode), l1.Perm l2 → List.Sorted nodeLE l1 → List.Sorted nodeLE l2 →
      (∀ a ∈ l1, ∀ b ∈ l1, nodeLE a b → nodeLE b a → a = b) → l1 = l2 := by
  intro l1
  induction l1 with
  | nil => intro l2 hp _ _ _; exact (hp.symm.eq_nil).symm
  | cons a t1 ih =>
    intro l2 hp hs1 hs2 ha
    cases l2 with
    | nil => exact (List.cons_ne_nil a t1 hp.eq_nil).elim
    | cons b t2 =>
      by_cases hab : a = b
      · subst hab
        have ht : t1.Perm t2 := hp.cons_inv
        have ha' : ∀ x ∈ t1, ∀ y ∈ t1, nodeLE x y → nodeLE y x → x = y :=
          fun x hx y hy => ha x (List.mem_cons_of_mem _ hx) y (List.mem_cons_of_mem _ hy)
        rw [ih t2 ht (List.sorted_cons.mp hs1).2 (List.sorted_cons.mp hs2).2 ha']
      · have hain : a ∈ b :: t2 := hp.mem_iff.mp (List.mem_cons_self a t1)
        have hat2 : a ∈ t2 := by
          rcases List.mem_cons.mp hain with h | h
          · exact absurd h hab
          · exact h
        have hbin : b ∈ a :: t1 := hp.mem_iff.mpr (List.mem_cons_self b t2)
        have hbt1 : b ∈ t1 := by
          rcases List.mem_cons.mp hbin with h | h
          · exact absurd h.symm hab
          · exact h
        have h1 : nodeLE a b := (List.sorted_cons.mp hs1).1 b hbt1
        have h2 : nodeLE b a := (List.sorted_cons.mp hs2).1 a hat2
        exact absurd (ha a (List.mem_cons_self a t1) b (List.mem_cons_of_mem a hbt1) h1 h2) hab

lemma nodeLE_antisymm_name (a b : FileTreeNode)
    (hna : alnumName a.name = true) (hnb : alnumName b.name = true)
    (h1 : nodeLE a b) (h2 : nodeLE b a) :
    a.name = b.name := by
  have h1' : cmpNodes a b ≤ 0 := h1
  have h2' : cmpNodes b a ≤ 0 := h2
  cases hea : a.children.isEmpty <;> cases heb : b.children.isEmpty
  · rw [cmpNodes_same_group a b (hea.trans heb.symm)] at h1'
    rw [cmpNodes_same_group b a (heb.trans hea.symm)] at h2'
    exact localeCompare_le_antisymm a.name b.name hna hnb h1' h2'
  · rw [cmpNodes_group_gt b a heb hea] at h2'; omega
  · rw [cmpNodes_group_gt a b hea heb] at h1'; omega
  · rw [cmpNodes_same_group a b (hea.trans heb.symm)] at h1'
    rw [cmpNodes_same_group b a (heb.trans hea.symm)] at h2'
    exact localeCompare_le_antisymm a.name b.name hna hnb h1' h2'

lemma mem_name_unique (l : List FileTreeNode) (hn : (l.map FileTreeNode.name).Nodup) :
    ∀ x ∈ l, ∀ y ∈ l, x.name = y.name → x = y := by
  intro x hx y hy hxy
  exact List.inj_on_of_nodup_map hn hx hy hxy

lemma sortNodes_eq_of_perm (l1 l2 : List FileTreeNode) (hp : l1.Perm l2)
    (hn : (l1.map FileTreeNode.name).Nodup)
    (hal : ∀ c ∈ l1, alnumName c.name = true) : sortNodes l1 = sortNodes l2 := by
  apply sorted_perm_eq
  · exact (List.perm_insertionSort nodeLE l1).trans
      (hp.trans (List.perm_insertionSort nodeLE l2).symm)
  · exact List.sorted_insertionSort nodeLE l1
  · exact List.sorted_insertionSort nodeLE l2
  · intro a hma b hmb hab hba
    have ha' : a ∈ l1 := (List.perm_insertionSort nodeLE l1).mem_iff.mp hma
    have hb' : b ∈ l1 := (List.perm_insertionSort nodeLE l1).mem_iff.mp hmb
    exact mem_name_unique l1 hn a ha' b hb'
      (nodeLE_antisymm_name a b (hal a ha') (hal b hb') hab hba)

lemma canonF_eq_of_perm (cs ds : List FileTreeNode) (hp : cs.Perm ds)
    (hn : (cs.map FileTreeNode.name).Nodup)
    (hal : ∀ c ∈ cs, alnumName c.name = true) : canonF cs = canonF ds := by
  show sortNodes (canonL cs) = sortNodes (canonL ds)
  apply sortNodes_eq_of_perm
  · rw [canonL_eq_map, canonL_eq_map]
    exact hp.map canon
  · rw [canonL_map_name]
    exact hn
  · intro x hx
    rw [canonL_eq_map] at hx
    rcases List.mem_map.mp hx with ⟨c, hc, hxc⟩
    rw [← hxc, canon_name]
    exact hal c hc

lemma canonF_perm_canonL (cs : List FileTreeNode) : (canonF cs).Perm (canonL cs) :=
  List.perm_insertionSort nodeLE (canonL cs)

lemma updateFirst_append_some {α : Type} (pr : α → Bool) (f : α → α) :
    ∀ (l1 l2 u : List α), updateFirst pr f l1 = some u →
      updateFirst pr f (l1 ++ l2) = some (u ++ l2) := by
  intro l1
  induction l1 with
  | nil => intro l2 u h; simp [updateFirst] at h
  | cons c l ih =>
    intro l2 u h
    rw [updateFirst] at h
    show (if pr c then some (f c :: (l ++ l2))
      else (updateFirst pr f (l ++ l2)).map (c :: ·)) = some (u ++ l2)
    by_cases hp : pr c = true
    · rw [if_pos hp] at h ⊢
      cases h
      rfl
    · rw [if_neg hp] at h ⊢
      cases h2 : updateFirst pr f l with
      | none => rw [h2] at h; simp at h
      | some u' =>
        rw [h2] at h
        have heq : c :: u' = u := by simpa using h
        subst heq
        rw [ih l2 u' h2]
        rfl

lemma updateFirst_append_none {α : Type} (pr : α → Bool) (f : α → α) :
    ∀ (l1 l2 : List α), updateFirst pr f l1 = none →
      updateFirst pr f (l1 ++ l2) = (updateFirst pr f l2).map (l1 ++ ·) := by
  intro l1
  induction l1 with
  | nil =>
    intro l2 _
    cases h2 : updateFirst pr f l2 with
    | none => simp [h2]
    | some u => simp [h2]
  | cons c l ih =>
    intro l2 h
    rw [updateFirst] at h
    by_cases hp : pr c = true
    · rw [if_pos hp] at h; simp at h
    · rw [if_neg hp] at h
      have hnone : updateFirst pr f l = none := by
        cases h2 : updateFirst pr f l with
        | none => rfl
        | some u => rw [h2] at h; simp at h
      show (if pr c then some (f c :: (l ++ l2))
        else (updateFirst pr f (l ++ l2)).map (c :: ·)) = (updateFirst pr f l2).map ((c :: l) ++ ·)
      rw [if_neg hp, ih l2 hnone]
      cases updateFirst pr f l2 <;> simp

lemma updateFirst_found {α : Type} (pr : α → Bool) (f : α → α) :
    ∀ (l1 : List α) (c : α) (l2 : List α), (∀ x ∈ l1, pr x = false) → pr c = true →
      updateFirst pr f (l1 ++ c :: l2) = some (l1 ++ f c :: l2) := by
  intro l1
  induction l1 with
  | nil =>
    intro c l2 _ hc
    show (if pr c then some (f c :: l2) else (updateFirst pr f l2).map (c :: ·)) = _
    rw [if_pos hc]
    rfl
  | cons a l ih =>
    intro c l2 hall hc
    show (if pr a then some (f a :: (l ++ c :: l2))
      else (updateFirst pr f (l ++ c :: l2)).map (a :: ·)) = _
    rw [if_neg (by simp [hall a (List.mem_cons_self a l)]),
      ih c l2 (fun x hx => hall x (List.mem_cons_of_mem a hx)) hc]
    rfl

lemma updateFirst_split {α : Type} (pr : α → Bool) (f : α → α) :
    ∀ (cs u : List α), updateFirst pr f cs = some u →
      ∃ l1 c l2, cs = l1 ++ c :: l2 ∧ u = l1 ++ f c :: l2 ∧ pr c = true ∧
        ∀ x ∈ l1, pr x = false := by
  intro cs
  induction cs with
  | nil => intro u h; simp [updateFirst] at h
  | cons c cs ih =>
    intro u h
    rw [updateFirst] at h
    by_cases hp : pr c = true
    · rw [if_pos hp] at h
      have heq : f c :: cs = u := by simpa using h
      exact ⟨[], c, cs, rfl, heq.symm, hp, by intro x hx; cases hx⟩
    · rw [if_neg hp] at h
      cases h2 : updateFirst pr f cs with
      | none => rw [h2] at h; simp at h
      | some u' =>
        rw [h2] at h
        have hu : c :: u' = u := by simpa using h
        rcases ih u' h2 with ⟨l1, cc, l2, he1, he2, hpc, hall⟩
        refine ⟨c :: l1, cc, l2, by rw [he1]; rfl, by rw [← hu, he2]; rfl, hpc, ?_⟩
        intro x hx
        rcases List.mem_cons.mp hx with hxe | hxm
        · subst hxe; simpa using hp
        · exact hall x hxm

lemma updateFirst_ne_none_of_mem {α : Type} (pr : α → Bool) (f : α → α) :
    ∀ (cs : List α) (c : α), c ∈ cs → pr c = true → updateFirst pr f cs ≠ none := by
  intro cs
  induction cs with
  | nil => intro c hc; cases hc
  | cons a l ih =>
    intro c hc hp h
    rw [updateFirst] at h
    by_cases hpa : pr a = true
    · rw [if_pos hpa] at h; simp at h
    · rw [if_neg hpa] at h
      rcases List.mem_cons.mp hc with he | hm
      · subst he; exact hpa hp
      · cases h2 : updateFirst pr f l with
        | none => exact ih c hm hp h2
        | some u => rw [h2] at h; simp at h

lemma upd_of_some {α : Type} (pr : α → Bool) (f : α → α) (cs u : List α)
    (h : updateFirst pr f cs = some u) : upd pr f cs = u := by
  rw [upd, h]
  rfl

lemma upd_cons_pos {α : Type} (pr : α → Bool) (f : α → α) (c : α) (cs : List α)
    (h : pr c = true) : upd pr f (c :: cs) = f c :: cs := by
  rw [upd]
  show ((if pr c then some (f c :: cs)
    else (updateFirst pr f cs).map (c :: ·)).getD (c :: cs)) = f c :: cs
  rw [if_pos h]
  rfl

lemma upd_cons_neg {α : Type} (pr : α → Bool) (f : α → α) (c : α) (cs : List α)
    (h : pr c = false) : upd pr f (c :: cs) = c :: upd pr f cs := by
  rw [upd, upd]
  show ((if pr c then some (f c :: cs)
    else (updateFirst pr f cs).map (c :: ·)).getD (c :: cs)) = c :: (updateFirst pr f cs).getD cs
  rw [if_neg (by simp [h])]
  cases updateFirst pr f cs <;> rfl

lemma upd_comm {α : Type} (pa pb : α → Bool) (fa fb : α → α)
    (hd : ∀ x, pa x = true → pb x = false)
    (hba : ∀ x, pa (fb x) = pa x) (hab : ∀ x, pb (fa x) = pb x) :
    ∀ cs, upd pa fa (upd pb fb cs) = upd pb fb (upd pa fa cs) := by
  intro cs
  induction cs with
  | nil => rfl
  | cons c cs ih =>
    by_cases ha : pa c = true
    · have hb : pb c = false := hd c ha
      rw [upd_cons_neg pb fb c cs hb, upd_cons_pos pa fa c (upd pb fb cs) ha,
        upd_cons_pos pa fa c cs ha, upd_cons_neg pb fb (fa c) cs (by rw [hab, hb])]
    · have ha' : pa c = false := by
        cases hq : pa c
        · rfl
        · exact absurd hq ha
      by_cases hb : pb c = true
      · rw [upd_cons_pos pb fb c cs hb, upd_cons_neg pa fa (fb c) cs (by rw [hba, ha']),
          upd_cons_neg pa fa c cs ha', upd_cons_pos pb fb c (upd pa fa cs) hb]
      · have hb' : pb c = false := by
          cases hq : pb c
          · rfl
          · exact absurd hq hb
        rw [upd_cons_neg pb fb c cs hb', upd_cons_neg pa fa c (upd pb fb cs) ha',
          upd_cons_neg pa fa c cs ha', upd_cons_neg pb fb c (upd pa fa cs) hb', ih]

lemma upd_comp {α : Type} (pr : α → Bool) (f g : α → α) (hg : ∀ x, pr (g x) = pr x) :
    ∀ cs, upd pr f (upd pr g cs) = upd pr (fun x => f (g x)) cs := by
  intro cs
  induction cs with
  | nil => rfl
  | cons c cs ih =>
    by_cases hp : pr c = true
    · rw [upd_cons_pos pr g c cs hp, upd_cons_pos pr f (g c) cs (by rw [hg]; exact hp),
        upd_cons_pos pr (fun x => f (g x)) c cs hp]
    · have hp' : pr c = false := by
        cases hq : pr c
        · rfl
        · exact absurd hq hp
      rw [upd_cons_neg pr g c cs hp', upd_cons_neg pr f c (upd pr g cs) hp',
        upd_cons_neg pr (fun x => f (g x)) c cs hp', ih]

lemma canonL_upd_congr (pr : FileTreeNode → Bool) (f g : FileTreeNode → FileTreeNode) :
    ∀ cs, (∀ x ∈ cs, pr x = true → canon (f x) = canon (g x)) →
      canonL (upd pr f cs) = canonL (upd pr g cs) := by
  intro cs
  induction cs with
  | nil => intro _; rfl
  | cons c cs ih =>
    intro h
    by_cases hp : pr c = true
    · rw [upd_cons_pos pr f c cs hp, upd_cons_pos pr g c cs hp, canonL_cons, canonL_cons,
        h c (List.mem_cons_self c cs) hp]
    · have hp' : pr c = false := by
        cases hq : pr c
        · rfl
        · exact absurd hq hp
      rw [upd_cons_neg pr f c cs hp', upd_cons_neg pr g c cs hp', canonL_cons, canonL_cons,
        ih (fun x hx => h x (List.mem_cons_of_mem c hx))]

lemma upd_map_name (pr : FileTreeNode → Bool) (f : FileTreeNode → FileTreeNode)
    (hf : ∀ c, (f c).name = c.name) (cs : List FileTreeNode) :
    (upd pr f cs).map FileTreeNode.name = cs.map FileTreeNode.name := by
  rw [upd]
  cases h : updateFirst pr f cs with
  | none => rfl
  | some u => exact updateFirst_some_names f hf pr cs u h

lemma names_perm_of_canonF_eq (cs ds : List FileTreeNode) (h : canonF cs = canonF ds) :
    (cs.map FileTreeNode.name).Perm (ds.map FileTreeNode.name) := by
  have h1 : (cs.map FileTreeNode.name) = (canonL cs).map FileTreeNode.name :=
    (canonL_map_name cs).symm
  have h2 : ((canonL cs).map FileTreeNode.name).Perm ((canonF cs).map FileTreeNode.name) :=
    ((canonF_perm_canonL cs).map FileTreeNode.name).symm
  have h3 : ((canonF ds).map FileTreeNode.name).Perm ((canonL ds).map FileTreeNode.name) :=
    (canonF_perm_canonL ds).map FileTreeNode.name
  rw [h1, ← canonL_map_name ds]
  rw [h] at h2
  exact h2.trans h3

lemma mem_canonL_of_mem (c : FileTreeNode) (cs : List FileTreeNode) (hc : c ∈ cs) :
    canon c ∈ canonL cs := by
  rw [canonL_eq_map]
  exact List.mem_map_of_mem canon hc

lemma canon_eq_of_canonF_eq (cs ds : List FileTreeNode) (h : canonF cs = canonF ds)
    (hnd : (ds.map FileTreeNode.name).Nodup) (c d : FileTreeNode)
    (hc : c ∈ cs) (hd : d ∈ ds) (hname : c.name = d.name) : canon c = canon d := by
  have h1 : canon c ∈ canonL ds := by
    have h2 : canon c ∈ canonF cs := (canonF_perm_canonL cs).mem_iff.mpr (mem_canonL_of_mem c cs hc)
    rw [h] at h2
    exact (canonF_perm_canonL ds).mem_iff.mp h2
  have h3 : canon d ∈ canonL ds := mem_canonL_of_mem d ds hd
  have h4 : ((canonL ds).map FileTreeNode.name).Nodup := by
    rw [canonL_map_name]
    exact hnd
  exact mem_name_unique (canonL ds) h4 (canon c) h1 (canon d) h3
    (by rw [canon_name, canon_name, hname])

lemma allForestB_mem (p : FileTreeNode → Bool) :
    ∀ cs : List FileTreeNode, allForestB p cs = true → ∀ c ∈ cs, allNodesB p c = true := by
  intro cs
  induction cs with
  | nil => intro _ c hc; cases hc
  | cons a l ih =>
    intro h c hc
    rw [allForestB, Bool.and_eq_true] at h
    rcases List.mem_cons.mp hc with he | hm
    · subst he; exact h.1
    · exact ih h.2 c hm

lemma allNodesB_sibNodup_parts (c : FileTreeNode) (h : allNodesB sibNodup c = true) :
    namesNodupB (c.children.map FileTreeNode.name) = true ∧
      allForestB sibNodup c.children = true := by
  cases c with
  | mk n p dd ccs =>
    rw [allNodesB_mk, Bool.and_eq_true] at h
    exact ⟨by simpa [sibNodup, FileTreeNode.children] using h.1, h.2⟩

lemma allNodesB_split (q : FileTreeNode → Bool) (c : FileTreeNode)
    (h : allNodesB q c = true) : q c = true ∧ allForestB q c.children = true := by
  cases c with
  | mk n p d cs =>
    rw [allNodesB_mk, Bool.and_eq_true] at h
    exact h

lemma updateFirst_names_of_some {pr : FileTreeNode → Bool} {f : FileTreeNode → FileTreeNode}
    {cs u : List FileTreeNode} (h : updateFirst pr f cs = some u)
    (hf : ∀ c, (f c).name = c.name) :
    u.map FileTreeNode.name = cs.map FileTreeNode.name :=
  updateFirst_some_names f hf pr cs u h

lemma insertParts_canonF_congr :
    ∀ (parts : List String) (cur : String) (cs ds : List FileTreeNode),
      namesNodupB (cs.map FileTreeNode.name) = true → allForestB sibNodup cs = true →
      namesNodupB (ds.map FileTreeNode.name) = true → allForestB sibNodup ds = true →
      allForestB (fun a => alnumName a.name) cs = true →
      allForestB (fun a => alnumName a.name) ds = true →
      (∀ s ∈ parts, alnumName s = true) →
      canonF cs = canonF ds →
      canonF (insertParts parts cur cs) = canonF (insertParts parts cur ds) := by
  intro parts
  induction parts with
  | nil => intro cur cs ds _ _ _ _ _ _ _ h; exact h
  | cons part rest ih =>
    intro cur cs ds hn1 ha1 hn2 ha2 hA1 hA2 hps hcf
    rw [insertParts, insertParts]
    cases hu1 : updateFirst (fun c => c.name = part)
        (fun c => .mk c.name c.path c.isDirectory
          (insertParts rest (if cur = "" then part else pathJoin cur part) c.children)) cs with
    | some u1 =>
      cases hu2 : updateFirst (fun c => c.name = part)
          (fun c => .mk c.name c.path c.isDirectory
            (insertParts rest (if cur = "" then part else pathJoin cur part) c.children)) ds with
      | some u2 =>
        rcases updateFirst_split _ _ cs u1 hu1 with ⟨P1, c, Q1, he1, hv1, hpc, hPall1⟩
        rcases updateFirst_split _ _ ds u2 hu2 with ⟨P2, d, Q2, he2, hv2, hpd, hPall2⟩
        have hcname : c.name = part := by simpa using hpc
        have hdname : d.name = part := by simpa using hpd
        have hcmem : c ∈ cs := by rw [he1]; exact List.mem_append.mpr (Or.inr (List.mem_cons_self c Q1))
        have hdmem : d ∈ ds := by rw [he2]; exact List.mem_append.mpr (Or.inr (List.mem_cons_self d Q2))
        have hcd : canon c = canon d :=
          canon_eq_of_canonF_eq cs ds hcf ((namesNodupB_iff _).mp hn2) c d hcmem hdmem
            (hcname.trans hdname.symm)
        have hgood1 := allNodesB_sibNodup_parts c (allForestB_mem sibNodup cs ha1 c hcmem)
        have hgood2 := allNodesB_sibNodup_parts d (allForestB_mem sibNodup ds ha2 d hdmem)
        have hpath : c.path = d.path := by rw [← canon_path c, ← canon_path d, hcd]
        have hchild : canonF c.children = canonF d.children := by
          cases c with
          | mk cn cp cdd cch =>
            cases d with
            | mk dn dp ddd dch =>
              have hcd2 : FileTreeNode.mk cn cp true (sortNodes (canonL cch))
                  = FileTreeNode.mk dn dp true (sortNodes (canonL dch)) := hcd
              rw [FileTreeNode.mk.injEq] at hcd2
              exact hcd2.2.2.2
        have hrec : canonF (insertParts rest (if cur = "" then part else pathJoin cur part)
              c.children)
            = canonF (insertParts rest (if cur = "" then part else pathJoin cur part)
              d.children) :=
          ih _ c.children d.children hgood1.1 hgood1.2 hgood2.1 hgood2.2
            (allNodesB_split (fun a => alnumName a.name) c
              (allForestB_mem (fun a => alnumName a.name) cs hA1 c hcmem)).2
            (allNodesB_split (fun a => alnumName a.name) d
              (allForestB_mem (fun a => alnumName a.name) ds hA2 d hdmem)).2
            (fun s hs => hps s (List.mem_cons_of_mem part hs)) hchild
        have hfcd : canon (FileTreeNode.mk c.name c.path c.isDirectory
              (insertParts rest (if cur = "" then part else pathJoin cur part) c.children))
            = canon (FileTreeNode.mk d.name d.path d.isDirectory
              (insertParts rest (if cur = "" then part else pathJoin cur part) d.children)) := by
          show FileTreeNode.mk c.name c.path true _ = FileTreeNode.mk d.name d.path true _
          rw [hcname, hdname, hpath]
          exact congrArg (FileTreeNode.mk part d.path true) hrec
        have hXperm : (canonL cs).Perm (canonL ds) :=
          ((canonF_perm_canonL cs).symm.trans (by rw [hcf])).trans (canonF_perm_canonL ds)
        have hcs2 : canonL cs = canonL P1 ++ canon c :: canonL Q1 := by
          rw [he1, canonL_append, canonL_cons]
        have hds2 : canonL ds = canonL P2 ++ canon c :: canonL Q2 := by
          rw [he2, canonL_append, canonL_cons, hcd]
        have hmid : (canonL P1 ++ canonL Q1).Perm (canonL P2 ++ canonL Q2) := by
          have h5 : (canon c :: (canonL P1 ++ canonL Q1)).Perm
              (canon c :: (canonL P2 ++ canonL Q2)) := by
            refine (List.perm_middle.symm.trans ?_).trans List.perm_middle
            rw [← hcs2, ← hds2]
            exact hXperm
          exact h5.cons_inv
        apply sortNodes_eq_of_perm
        · rw [hv1, hv2, canonL_append, canonL_append, canonL_cons, canonL_cons, hfcd]
          refine (List.perm_middle.trans ?_).trans List.perm_middle.symm
          exact hmid.cons _
        · have hnames : (canonL u1).map FileTreeNode.name = cs.map FileTreeNode.name := by
            rw [canonL_map_name]
            exact updateFirst_some_names
              (fun c => FileTreeNode.mk c.name c.path c.isDirectory
                (insertParts rest (if cur = "" then part else pathJoin cur part) c.children))
              (fun x => rfl) _ cs u1 hu1
          rw [hnames]
          exact (namesNodupB_iff _).mp hn1
        · intro x hx
          rw [canonL_eq_map] at hx
          rcases List.mem_map.mp hx with ⟨y, hy, hxy⟩
          rw [← hxy, canon_name]
          have hyn : y.name ∈ cs.map FileTreeNode.name := by
            rw [← updateFirst_names_of_some hu1 (fun x => rfl)]
            exact List.mem_map_of_mem FileTreeNode.name hy
          rcases List.mem_map.mp hyn with ⟨c0, hc0, hc0n⟩
          rw [← hc0n]
          exact (allNodesB_split (fun a => alnumName a.name) c0
            (allForestB_mem (fun a => alnumName a.name) cs hA1 c0 hc0)).1
      | none =>
        rcases updateFirst_split _ _ cs u1 hu1 with ⟨P1, c, Q1, he1, hv1, hpc, hPall1⟩
        have hcname : c.name = part := by simpa using hpc
        have hcmem : c ∈ cs := by rw [he1]; exact List.mem_append.mpr (Or.inr (List.mem_cons_self c Q1))
        have hmem1 : part ∈ cs.map FileTreeNode.name := by
          rw [← hcname]
          exact List.mem_map_of_mem FileTreeNode.name hcmem
        have hmem2 : part ∈ ds.map FileTreeNode.name :=
          (names_perm_of_canonF_eq cs ds hcf).mem_iff.mp hmem1
        rcases List.mem_map.mp hmem2 with ⟨d, hdmem, hdname⟩
        exact absurd hu2 (updateFirst_ne_none_of_mem _ _ ds d hdmem (by simp [hdname]))
    | none =>
      cases hu2 : updateFirst (fun c => c.name = part)
          (fun c => .mk c.name c.path c.isDirectory
            (insertParts rest (if cur = "" then part else pathJoin cur part) c.children)) ds with
      | some u2 =>
        rcases updateFirst_split _ _ ds u2 hu2 with ⟨P2, d, Q2, he2, hv2, hpd, hPall2⟩
        have hdname : d.name = part := by simpa using hpd
        have hdmem : d ∈ ds := by rw [he2]; exact List.mem_append.mpr (Or.inr (List.mem_cons_self d Q2))
        have hmem2 : part ∈ ds.map FileTreeNode.name := by
          rw [← hdname]
          exact List.mem_map_of_mem FileTreeNode.name hdmem
        have hmem1 : part ∈ cs.map FileTreeNode.name :=
          (names_perm_of_canonF_eq cs ds hcf).mem_iff.mpr hmem2
        rcases List.mem_map.mp hmem1 with ⟨c, hcmem, hcname⟩
        exact absurd hu1 (updateFirst_ne_none_of_mem _ _ cs c hcmem (by simp [hcname]))
      | none =>
        have hnot1 : part ∉ cs.map FileTreeNode.name := by
          intro hmem
          rcases List.mem_map.mp hmem with ⟨c, hcmem, hcname⟩
          exact updateFirst_ne_none_of_mem _ _ cs c hcmem (by simp [hcname]) hu1
        show canonF (cs ++ [_]) = canonF (ds ++ [_])
        rw [show canonF (cs ++ [FileTreeNode.mk part
            (if cur = "" then part else pathJoin cur part) (!rest.isEmpty)
            (insertParts rest (if cur = "" then part else pathJoin cur part) [])])
          = sortNodes (canonL cs ++ [canon (FileTreeNode.mk part
            (if cur = "" then part else pathJoin cur part) (!rest.isEmpty)
            (insertParts rest (if cur = "" then part else pathJoin cur part) []))]) by
            show sortNodes (canonL _) = _
            rw [canonL_append]
            rfl]
        rw [show canonF (ds ++ [FileTreeNode.mk part
            (if cur = "" then part else pathJoin cur part) (!rest.isEmpty)
            (insertParts rest (if cur = "" then part else pathJoin cur part) [])])
          = sortNodes (canonL ds ++ [canon (FileTreeNode.mk part
            (if cur = "" then part else pathJoin cur part) (!rest.isEmpty)
            (insertParts rest (if cur = "" then part else pathJoin cur part) []))]) by
            show sortNodes (canonL _) = _
            rw [canonL_append]
            rfl]
        apply sortNodes_eq_of_perm
        · refine List.Perm.append_right _ ?_
          exact ((canonF_perm_canonL cs).symm.trans (by rw [hcf])).trans (canonF_perm_canonL ds)
        · rw [List.map_append, canonL_map_name]
          rw [List.nodup_append]
          refine ⟨(namesNodupB_iff _).mp hn1, by simp, ?_⟩
          intro x hx
          simp only [List.map_cons, List.map_nil, canonL_cons, canonL]
          intro hmem
          rcases List.mem_cons.mp hmem with he | hf
          · rw [canon_name] at he
            show False
            apply hnot1
            rw [← show x = part from by simpa using he]
            exact hx
          · cases hf
        · intro x hx
          rcases List.mem_append.mp hx with hxc | hxn
          · rw [canonL_eq_map] at hxc
            rcases List.mem_map.mp hxc with ⟨y, hy, hxy⟩
            rw [← hxy, canon_name]
            exact (allNodesB_split (fun a => alnumName a.name) y
              (allForestB_mem (fun a => alnumName a.name) cs hA1 y hy)).1
          · have hxe : x = canon (FileTreeNode.mk part
                (if cur = "" then part else pathJoin cur part) (!rest.isEmpty)
                (insertParts rest (if cur = "" then part else pathJoin cur part) [])) := by
              simpa using hxn
            rw [hxe, canon_name]
            exact hps part (List.mem_cons_self part rest)

lemma updateFirst_none_of_all {α : Type} (pr : α → Bool) (f : α → α) :
    ∀ cs : List α, (∀ c ∈ cs, pr c = false) → updateFirst pr f cs = none := by
  intro cs
  induction cs with
  | nil => intro _; rfl
  | cons c l ih =>
    intro h
    rw [updateFirst, if_neg (by simp [h c (List.mem_cons_self c l)]),
      ih (fun x hx => h x (List.mem_cons_of_mem c hx))]
    rfl

lemma name_not_mem_of_all (cs : List FileTreeNode) (a : String)
    (h : ∀ c ∈ cs, (decide (c.name = a)) = false) : a ∉ cs.map FileTreeNode.name := by
  intro hmem
  rcases List.mem_map.mp hmem with ⟨c, hc, hcn⟩
  have := h c hc
  rw [hcn] at this
  simp at this

lemma all_not_name_of_not_mem (cs : List FileTreeNode) (a : String)
    (h : a ∉ cs.map FileTreeNode.name) : ∀ c ∈ cs, (decide (c.name = a)) = false := by
  intro c hc
  by_cases he : c.name = a
  · exact absurd (he ▸ List.mem_map_of_mem FileTreeNode.name hc) h
  · simp [he]

lemma insertParts_swap_canonF :
    ∀ (m : Nat) (p1 p2 : List String) (cur : String) (cs : List FileTreeNode),
      p1.length + p2.length ≤ m →
      namesNodupB (cs.map FileTreeNode.name) = true → allForestB sibNodup cs = true →
      allForestB (fun a => alnumName a.name) cs = true →
      (∀ s ∈ p1, alnumName s = true) → (∀ s ∈ p2, alnumName s = true) →
      canonF (insertParts p1 cur (insertParts p2 cur cs))
        = canonF (insertParts p2 cur (insertParts p1 cur cs)) := by
  intro m
  induction m with
  | zero =>
    intro p1 p2 cur cs hm _ _ _ _ _
    cases p1 with
    | nil => rfl
    | cons a r1 => rw [List.length_cons] at hm; omega
  | succ m ih =>
    intro p1 p2 cur cs hm hn ha hA hq1 hq2
    cases p1 with
    | nil => rfl
    | cons a r1 =>
      cases p2 with
      | nil => rfl
      | cons b r2 =>
        rw [List.length_cons, List.length_cons] at hm
        by_cases hab : a = b
        · subst hab
          cases hu2 : updateFirst (fun c => c.name = a)
              (fun c => .mk c.name c.path c.isDirectory
                (insertParts r2 (if cur = "" then a else pathJoin cur a) c.children)) cs with
          | some u2 =>
            cases hu1 : updateFirst (fun c => c.name = a)
                (fun c => .mk c.name c.path c.isDirectory
                  (insertParts r1 (if cur = "" then a else pathJoin cur a) c.children)) cs with
            | some u1 =>
              have e2 : insertParts (a :: r2) cur cs = u2 := by rw [insertParts, hu2]
              have e1 : insertParts (a :: r1) cur cs = u1 := by rw [insertParts, hu1]
              rcases updateFirst_split _ _ cs u2 hu2 with ⟨P2, c2, Q2, hs2, hv2, hp2, hall2⟩
              have hc2name : c2.name = a := by simpa using hp2
              have hc2mem : c2 ∈ cs := by
                rw [hs2]; exact List.mem_append.mpr (Or.inr (List.mem_cons_self c2 Q2))
              have hnames2 : u2.map FileTreeNode.name = cs.map FileTreeNode.name :=
                updateFirst_names_of_some hu2 (fun x => rfl)
              have hnames1 : u1.map FileTreeNode.name = cs.map FileTreeNode.name :=
                updateFirst_names_of_some hu1 (fun x => rfl)
              have hmem2 : a ∈ u2.map FileTreeNode.name := by
                rw [hnames2, ← hc2name]
                exact List.mem_map_of_mem FileTreeNode.name hc2mem
              have hmem1 : a ∈ u1.map FileTreeNode.name := by
                rw [hnames1, ← hc2name]
                exact List.mem_map_of_mem FileTreeNode.name hc2mem
              rcases List.mem_map.mp hmem2 with ⟨x2, hx2, hx2n⟩
              rcases List.mem_map.mp hmem1 with ⟨x1, hx1, hx1n⟩
              cases hu12 : updateFirst (fun c => c.name = a)
                  (fun c => .mk c.name c.path c.isDirectory
                    (insertParts r1 (if cur = "" then a else pathJoin cur a) c.children)) u2 with
              | none =>
                exact absurd hu12 (updateFirst_ne_none_of_mem _ _ u2 x2 hx2 (by simp [hx2n]))
              | some u12 =>
                cases hu21 : updateFirst (fun c => c.name = a)
                    (fun c => .mk c.name c.path c.isDirectory
                      (insertParts r2 (if cur = "" then a else pathJoin cur a) c.children)) u1 with
                | none =>
                  exact absurd hu21 (updateFirst_ne_none_of_mem _ _ u1 x1 hx1 (by simp [hx1n]))
                | some u21 =>
                  have e12 : insertParts (a :: r1) cur u2 = u12 := by rw [insertParts, hu12]
                  have e21 : insertParts (a :: r2) cur u1 = u21 := by rw [insertParts, hu21]
                  rw [e2, e12, e1, e21]
                  have hu2u : upd (fun c => c.name = a)
                      (fun c => FileTreeNode.mk c.name c.path c.isDirectory
                        (insertParts r2 (if cur = "" then a else pathJoin cur a) c.children)) cs
                      = u2 := upd_of_some _ _ cs u2 hu2
                  have hu1u : upd (fun c => c.name = a)
                      (fun c => FileTreeNode.mk c.name c.path c.isDirectory
                        (insertParts r1 (if cur = "" then a else pathJoin cur a) c.children)) cs
                      = u1 := upd_of_some _ _ cs u1 hu1
                  have hu12u := upd_of_some _ _ u2 u12 hu12
                  have hu21u := upd_of_some _ _ u1 u21 hu21
                  rw [← hu12u, ← hu2u, ← hu21u, ← hu1u]
                  rw [upd_comp (fun c => decide (c.name = a))
                      (fun c => FileTreeNode.mk c.name c.path c.isDirectory
                        (insertParts r1 (if cur = "" then a else pathJoin cur a) c.children))
                      (fun c => FileTreeNode.mk c.name c.path c.isDirectory
                        (insertParts r2 (if cur = "" then a else pathJoin cur a) c.children))
                      (fun x => by cases x; rfl) cs,
                    upd_comp (fun c => decide (c.name = a))
                      (fun c => FileTreeNode.mk c.name c.path c.isDirectory
                        (insertParts r2 (if cur = "" then a else pathJoin cur a) c.children))
                      (fun c => FileTreeNode.mk c.name c.path c.isDirectory
                        (insertParts r1 (if cur = "" then a else pathJoin cur a) c.children))
                      (fun x => by cases x; rfl) cs]
                  show sortNodes (canonL _) = sortNodes (canonL _)
                  refine congrArg sortNodes (canonL_upd_congr _ _ _ cs ?_)
                  intro x hx hpx
                  show FileTreeNode.mk x.name x.path true
                      (canonF (insertParts r1 (if cur = "" then a else pathJoin cur a)
                        (insertParts r2 (if cur = "" then a else pathJoin cur a) x.children)))
                    = FileTreeNode.mk x.name x.path true
                      (canonF (insertParts r2 (if cur = "" then a else pathJoin cur a)
                        (insertParts r1 (if cur = "" then a else pathJoin cur a) x.children)))
                  refine congrArg (FileTreeNode.mk x.name x.path true) ?_
                  have hgood := allNodesB_sibNodup_parts x (allForestB_mem sibNodup cs ha x hx)
                  exact ih r1 r2 (if cur = "" then a else pathJoin cur a) x.children
                    (by omega) hgood.1 hgood.2
                    (allNodesB_split (fun a2 => alnumName a2.name) x
                      (allForestB_mem (fun a2 => alnumName a2.name) cs hA x hx)).2
                    (fun s hs => hq1 s (List.mem_cons_of_mem a hs))
                    (fun s hs => hq2 s (List.mem_cons_of_mem a hs))
            | none =>
              rcases updateFirst_split _ _ cs u2 hu2 with ⟨P2, c2, Q2, hs2, hv2, hp2, hall2⟩
              have hc2mem : c2 ∈ cs := by
                rw [hs2]; exact List.mem_append.mpr (Or.inr (List.mem_cons_self c2 Q2))
              exact absurd hu1 (updateFirst_ne_none_of_mem _ _ cs c2 hc2mem hp2)
          | none =>
            cases hu1 : updateFirst (fun c => c.name = a)
                (fun c => .mk c.name c.path c.isDirectory
                  (insertParts r1 (if cur = "" then a else pathJoin cur a) c.children)) cs with
            | some u1 =>
              rcases updateFirst_split _ _ cs u1 hu1 with ⟨P1, c1, Q1, hs1, hv1, hp1, hall1⟩
              have hc1mem : c1 ∈ cs := by
                rw [hs1]; exact List.mem_append.mpr (Or.inr (List.mem_cons_self c1 Q1))
              exact absurd hu2 (updateFirst_ne_none_of_mem _ _ cs c1 hc1mem hp1)
            | none =>
              have hall := updateFirst_none _ _ cs hu2
              have e2 : insertParts (a :: r2) cur cs
                  = cs ++ [FileTreeNode.mk a (if cur = "" then a else pathJoin cur a)
                      (!r2.isEmpty)
                      (insertParts r2 (if cur = "" then a else pathJoin cur a) [])] := by
                rw [insertParts, hu2]
              have e1 : insertParts (a :: r1) cur cs
                  = cs ++ [FileTreeNode.mk a (if cur = "" then a else pathJoin cur a)
                      (!r1.isEmpty)
                      (insertParts r1 (if cur = "" then a else pathJoin cur a) [])] := by
                rw [insertParts, hu1]
              have hf12 : updateFirst (fun c => c.name = a)
                  (fun c => FileTreeNode.mk c.name c.path c.isDirectory
                    (insertParts r1 (if cur = "" then a else pathJoin cur a) c.children))
                  (cs ++ [FileTreeNode.mk a (if cur = "" then a else pathJoin cur a)
                    (!r2.isEmpty)
                    (insertParts r2 (if cur = "" then a else pathJoin cur a) [])])
                  = some (cs ++ [FileTreeNode.mk a (if cur = "" then a else pathJoin cur a)
                    (!r2.isEmpty)
                    (insertParts r1 (if cur = "" then a else pathJoin cur a)
                      (insertParts r2 (if cur = "" then a else pathJoin cur a) []))]) :=
                updateFirst_found _ _ cs _ [] hall (by simp [FileTreeNode.name])
              have hf21 : updateFirst (fun c => c.name = a)
                  (fun c => FileTreeNode.mk c.name c.path c.isDirectory
                    (insertParts r2 (if cur = "" then a else pathJoin cur a) c.children))
                  (cs ++ [FileTreeNode.mk a (if cur = "" then a else pathJoin cur a)
                    (!r1.isEmpty)
                    (insertParts r1 (if cur = "" then a else pathJoin cur a) [])])
                  = some (cs ++ [FileTreeNode.mk a (if cur = "" then a else pathJoin cur a)
                    (!r1.isEmpty)
                    (insertParts r2 (if cur = "" then a else pathJoin cur a)
                      (insertParts r1 (if cur = "" then a else pathJoin cur a) []))]) :=
                updateFirst_found _ _ cs _ [] hall (by simp [FileTreeNode.name])
              have e12 : insertParts (a :: r1) cur
                  (cs ++ [FileTreeNode.mk a (if cur = "" then a else pathJoin cur a)
                    (!r2.isEmpty)
                    (insertParts r2 (if cur = "" then a else pathJoin cur a) [])])
                  = cs ++ [FileTreeNode.mk a (if cur = "" then a else pathJoin cur a)
                    (!r2.isEmpty)
                    (insertParts r1 (if cur = "" then a else pathJoin cur a)
                      (insertParts r2 (if cur = "" then a else pathJoin cur a) []))] := by
                rw [insertParts, hf12]
              have e21 : insertParts (a :: r2) cur
                  (cs ++ [FileTreeNode.mk a (if cur = "" then a else pathJoin cur a)
                    (!r1.isEmpty)
                    (insertParts r1 (if cur = "" then a else pathJoin cur a) [])])
                  = cs ++ [FileTreeNode.mk a (if cur = "" then a else pathJoin cur a)
                    (!r1.isEmpty)
                    (insertParts r2 (if cur = "" then a else pathJoin cur a)
                      (insertParts r1 (if cur = "" then a else pathJoin cur a) []))] := by
                rw [insertParts, hf21]
              rw [e2, e12, e1, e21]
              have hswap : canonF (insertParts r1 (if cur = "" then a else pathJoin cur a)
                    (insertParts r2 (if cur = "" then a else pathJoin cur a) []))
                  = canonF (insertParts r2 (if cur = "" then a else pathJoin cur a)
                    (insertParts r1 (if cur = "" then a else pathJoin cur a) [])) :=
                ih r1 r2 (if cur = "" then a else pathJoin cur a) [] (by omega) rfl rfl rfl
                  (fun s hs => hq1 s (List.mem_cons_of_mem a hs))
                  (fun s hs => hq2 s (List.mem_cons_of_mem a hs))
              show sortNodes (canonL _) = sortNodes (canonL _)
              rw [canonL_append, canonL_append]
              refine congrArg sortNodes (congrArg (canonL cs ++ ·) ?_)
              show [FileTreeNode.mk a (if cur = "" then a else pathJoin cur a) true
                  (canonF (insertParts r1 (if cur = "" then a else pathJoin cur a)
                    (insertParts r2 (if cur = "" then a else pathJoin cur a) [])))]
                = [FileTreeNode.mk a (if cur = "" then a else pathJoin cur a) true
                  (canonF (insertParts r2 (if cur = "" then a else pathJoin cur a)
                    (insertParts r1 (if cur = "" then a else pathJoin cur a) [])))]
              rw [hswap]
        · cases hu2 : updateFirst (fun c => c.name = b)
              (fun c => .mk c.name c.path c.isDirectory
                (insertParts r2 (if cur = "" then b else pathJoin cur b) c.children)) cs with
          | some u2 =>
            cases hu1 : updateFirst (fun c => c.name = a)
                (fun c => .mk c.name c.path c.isDirectory
                  (insertParts r1 (if cur = "" then a else pathJoin cur a) c.children)) cs with
            | some u1 =>
              have e2 : insertParts (b :: r2) cur cs = u2 := by rw [insertParts, hu2]
              have e1 : insertParts (a :: r1) cur cs = u1 := by rw [insertParts, hu1]
              rcases updateFirst_split _ _ cs u2 hu2 with ⟨P2, c2, Q2, hs2, hv2, hp2, hall2⟩
              rcases updateFirst_split _ _ cs u1 hu1 with ⟨P1, c1, Q1, hs1, hv1, hp1, hall1⟩
              have hc2mem : c2 ∈ cs := by
                rw [hs2]; exact List.mem_append.mpr (Or.inr (List.mem_cons_self c2 Q2))
              have hc1mem : c1 ∈ cs := by
                rw [hs1]; exact List.mem_append.mpr (Or.inr (List.mem_cons_self c1 Q1))
              have hnames2 : u2.map FileTreeNode.name = cs.map FileTreeNode.name :=
                updateFirst_names_of_some hu2 (fun x => rfl)
              have hnames1 : u1.map FileTreeNode.name = cs.map FileTreeNode.name :=
                updateFirst_names_of_some hu1 (fun x => rfl)
              have hmem12 : a ∈ u2.map FileTreeNode.name := by
                rw [hnames2, ← show c1.name = a from by simpa using hp1]
                exact List.mem_map_of_mem FileTreeNode.name hc1mem
              have hmem21 : b ∈ u1.map FileTreeNode.name := by
                rw [hnames1, ← show c2.name = b from by simpa using hp2]
                exact List.mem_map_of_mem FileTreeNode.name hc2mem
              rcases List.mem_map.mp hmem12 with ⟨x2, hx2, hx2n⟩
              rcases List.mem_map.mp hmem21 with ⟨x1, hx1, hx1n⟩
              cases hu12 : updateFirst (fun c => c.name = a)
                  (fun c => .mk c.name c.path c.isDirectory
                    (insertParts r1 (if cur = "" then a else pathJoin cur a) c.children)) u2 with
              | none =>
                exact absurd hu12 (updateFirst_ne_none_of_mem _ _ u2 x2 hx2 (by simp [hx2n]))
              | some u12 =>
                cases hu21 : updateFirst (fun c => c.name = b)
                    (fun c => .mk c.name c.path c.isDirectory
                      (insertParts r2 (if cur = "" then b else pathJoin cur b) c.children)) u1 with
                | none =>
                  exact absurd hu21 (updateFirst_ne_none_of_mem _ _ u1 x1 hx1 (by simp [hx1n]))
                | some u21 =>
                  have e12 : insertParts (a :: r1) cur u2 = u12 := by rw [insertParts, hu12]
                  have e21 : insertParts (b :: r2) cur u1 = u21 := by rw [insertParts, hu21]
                  rw [e2, e12, e1, e21]
                  rw [← upd_of_some _ _ u2 u12 hu12, ← upd_of_some _ _ cs u2 hu2,
                    ← upd_of_some _ _ u1 u21 hu21, ← upd_of_some _ _ cs u1 hu1]
                  rw [upd_comm (fun c => decide (c.name = a)) (fun c => decide (c.name = b))
                    (fun c => FileTreeNode.mk c.name c.path c.isDirectory
                      (insertParts r1 (if cur = "" then a else pathJoin cur a) c.children))
                    (fun c => FileTreeNode.mk c.name c.path c.isDirectory
                      (insertParts r2 (if cur = "" then b else pathJoin cur b) c.children))
                    (fun x hx => by
                      simp only [decide_eq_true_eq] at hx
                      simp [hx, hab])
                    (fun x => by cases x; rfl) (fun x => by cases x; rfl) cs]
            | none =>
              have e2 : insertParts (b :: r2) cur cs = u2 := by rw [insertParts, hu2]
              have e1 : insertParts (a :: r1) cur cs
                  = cs ++ [FileTreeNode.mk a (if cur = "" then a else pathJoin cur a)
                      (!r1.isEmpty)
                      (insertParts r1 (if cur = "" then a else pathJoin cur a) [])] := by
                rw [insertParts, hu1]
              have hnames2 : u2.map FileTreeNode.name = cs.map FileTreeNode.name :=
                updateFirst_names_of_some hu2 (fun x => rfl)
              have hnone12 : updateFirst (fun c => c.name = a)
                  (fun c => .mk c.name c.path c.isDirectory
                    (insertParts r1 (if cur = "" then a else pathJoin cur a) c.children)) u2
                  = none := by
                refine updateFirst_none_of_all _ _ u2 ?_
                refine all_not_name_of_not_mem u2 a ?_
                rw [hnames2]
                exact name_not_mem_of_all cs a (updateFirst_none _ _ cs hu1)
              have e12 : insertParts (a :: r1) cur u2
                  = u2 ++ [FileTreeNode.mk a (if cur = "" then a else pathJoin cur a)
                      (!r1.isEmpty)
                      (insertParts r1 (if cur = "" then a else pathJoin cur a) [])] := by
                rw [insertParts, hnone12]
              have hsome21 := updateFirst_append_some (fun c => c.name = b)
                (fun c => FileTreeNode.mk c.name c.path c.isDirectory
                  (insertParts r2 (if cur = "" then b else pathJoin cur b) c.children)) cs
                [FileTreeNode.mk a (if cur = "" then a else pathJoin cur a) (!r1.isEmpty)
                  (insertParts r1 (if cur = "" then a else pathJoin cur a) [])] u2 hu2
              have e21 : insertParts (b :: r2) cur
                  (cs ++ [FileTreeNode.mk a (if cur = "" then a else pathJoin cur a)
                    (!r1.isEmpty)
                    (insertParts r1 (if cur = "" then a else pathJoin cur a) [])])
                  = u2 ++ [FileTreeNode.mk a (if cur = "" then a else pathJoin cur a)
                    (!r1.isEmpty)
                    (insertParts r1 (if cur = "" then a else pathJoin cur a) [])] := by
                rw [insertParts, hsome21]
              rw [e2, e12, e1, e21]
          | none =>
            cases hu1 : updateFirst (fun c => c.name = a)
                (fun c => .mk c.name c.path c.isDirectory
                  (insertParts r1 (if cur = "" then a else pathJoin cur a) c.children)) cs with
            | some u1 =>
              have e1 : insertParts (a :: r1) cur cs = u1 := by rw [insertParts, hu1]
              have e2 : insertParts (b :: r2) cur cs
                  = cs ++ [FileTreeNode.mk b (if cur = "" then b else pathJoin cur b)
                      (!r2.isEmpty)
                      (insertParts r2 (if cur = "" then b else pathJoin cur b) [])] := by
                rw [insertParts, hu2]
              have hnames1 : u1.map FileTreeNode.name = cs.map FileTreeNode.name :=
                updateFirst_names_of_some hu1 (fun x => rfl)
              have hnone21 : updateFirst (fun c => c.name = b)
                  (fun c => .mk c.name c.path c.isDirectory
                    (insertParts r2 (if cur = "" then b else pathJoin cur b) c.children)) u1
                  = none := by
                refine updateFirst_none_of_all _ _ u1 ?_
                refine all_not_name_of_not_mem u1 b ?_
                rw [hnames1]
                exact name_not_mem_of_all cs b (updateFirst_none _ _ cs hu2)
              have e21 : insertParts (b :: r2) cur u1
                  = u1 ++ [FileTreeNode.mk b (if cur = "" then b else pathJoin cur b)
                      (!r2.isEmpty)
                      (insertParts r2 (if cur = "" then b else pathJoin cur b) [])] := by
                rw [insertParts, hnone21]
              have hsome12 := updateFirst_append_some (fun c => c.name = a)
                (fun c => FileTreeNode.mk c.name c.path c.isDirectory
                  (insertParts r1 (if cur = "" then a else pathJoin cur a) c.children)) cs
                [FileTreeNode.mk b (if cur = "" then b else pathJoin cur b) (!r2.isEmpty)
                  (insertParts r2 (if cur = "" then b else pathJoin cur b) [])] u1 hu1
              have e12 : insertParts (a :: r1) cur
                  (cs ++ [FileTreeNode.mk b (if cur = "" then b else pathJoin cur b)
                    (!r2.isEmpty)
                    (insertParts r2 (if cur = "" then b else pathJoin cur b) [])])
                  = u1 ++ [FileTreeNode.mk b (if cur = "" then b else pathJoin cur b)
                    (!r2.isEmpty)
                    (insertParts r2 (if cur = "" then b else pathJoin cur b) [])] := by
                rw [insertParts, hsome12]
              rw [e2, e12, e1, e21]
            | none =>
              have hallb := updateFirst_none _ _ cs hu2
              have halla := updateFirst_none _ _ cs hu1
              have e2 : insertParts (b :: r2) cur cs
                  = cs ++ [FileTreeNode.mk b (if cur = "" then b else pathJoin cur b)
                      (!r2.isEmpty)
                      (insertParts r2 (if cur = "" then b else pathJoin cur b) [])] := by
                rw [insertParts, hu2]
              have e1 : insertParts (a :: r1) cur cs
                  = cs ++ [FileTreeNode.mk a (if cur = "" then a else pathJoin cur a)
                      (!r1.isEmpty)
                      (insertParts r1 (if cur = "" then a else pathJoin cur a) [])] := by
                rw [insertParts, hu1]
              have hnone12 : updateFirst (fun c => c.name = a)
                  (fun c => .mk c.name c.path c.isDirectory
                    (insertParts r1 (if cur = "" then a else pathJoin cur a) c.children))
                  (cs ++ [FileTreeNode.mk b (if cur = "" then b else pathJoin cur b)
                    (!r2.isEmpty)
                    (insertParts r2 (if cur = "" then b else pathJoin cur b) [])]) = none := by
                refine updateFirst_none_of_all _ _ _ ?_
                intro x hx
                rcases List.mem_append.mp hx with hxc | hxn
                · exact halla x hxc
                · rcases List.mem_cons.mp hxn with he | hf
                  · subst he
                    exact decide_eq_false
                      (by simp only [FileTreeNode.name]; exact fun h => hab h.symm)
                  · cases hf
              have hnone21 : updateFirst (fun c => c.name = b)
                  (fun c => .mk c.name c.path c.isDirectory
                    (insertParts r2 (if cur = "" then b else pathJoin cur b) c.children))
                  (cs ++ [FileTreeNode.mk a (if cur = "" then a else pathJoin cur a)
                    (!r1.isEmpty)
                    (insertParts r1 (if cur = "" then a else pathJoin cur a) [])]) = none := by
                refine updateFirst_none_of_all _ _ _ ?_
                intro x hx
                rcases List.mem_append.mp hx with hxc | hxn
                · exact hallb x hxc
                · rcases List.mem_cons.mp hxn with he | hf
                  · subst he
                    exact decide_eq_false (by simp only [FileTreeNode.name]; exact fun h => hab h)
                  · cases hf
              have e12 : insertParts (a :: r1) cur
                  (cs ++ [FileTreeNode.mk b (if cur = "" then b else pathJoin cur b)
                    (!r2.isEmpty)
                    (insertParts r2 (if cur = "" then b else pathJoin cur b) [])])
                  = (cs ++ [FileTreeNode.mk b (if cur = "" then b else pathJoin cur b)
                    (!r2.isEmpty)
                    (insertParts r2 (if cur = "" then b else pathJoin cur b) [])])
                    ++ [FileTreeNode.mk a (if cur = "" then a else pathJoin cur a)
                      (!r1.isEmpty)
                      (insertParts r1 (if cur = "" then a else pathJoin cur a) [])] := by
                rw [insertParts, hnone12]
              have e21 : insertParts (b :: r2) cur
                  (cs ++ [FileTreeNode.mk a (if cur = "" then a else pathJoin cur a)
                    (!r1.isEmpty)
                    (insertParts r1 (if cur = "" then a else pathJoin cur a) [])])
                  = (cs ++ [FileTreeNode.mk a (if cur = "" then a else pathJoin cur a)
                    (!r1.isEmpty)
                    (insertParts r1 (if cur = "" then a else pathJoin cur a) [])])
                    ++ [FileTreeNode.mk b (if cur = "" then b else pathJoin cur b)
                      (!r2.isEmpty)
                      (insertParts r2 (if cur = "" then b else pathJoin cur b) [])] := by
                rw [insertParts, hnone21]
              rw [e2, e12, e1, e21]
              show sortNodes (canonL _) = sortNodes (canonL _)
              rw [canonL_append, canonL_append, canonL_append, canonL_append,
                List.append_assoc, List.append_assoc]
              apply sortNodes_eq_of_perm
              · refine List.Perm.append_left (canonL cs) ?_
                show (canon (FileTreeNode.mk b (if cur = "" then b else pathJoin cur b)
                    (!r2.isEmpty)
                    (insertParts r2 (if cur = "" then b else pathJoin cur b) []))
                  :: canon (FileTreeNode.mk a (if cur = "" then a else pathJoin cur a)
                    (!r1.isEmpty)
                    (insertParts r1 (if cur = "" then a else pathJoin cur a) [])) :: []).Perm _
                exact List.Perm.swap _ _ []
              · have hmap : ((canonL cs ++ (canonL [FileTreeNode.mk b
                      (if cur = "" then b else pathJoin cur b) (!r2.isEmpty)
                      (insertParts r2 (if cur = "" then b else pathJoin cur b) [])]
                    ++ canonL [FileTreeNode.mk a (if cur = "" then a else pathJoin cur a)
                      (!r1.isEmpty)
                      (insertParts r1 (if cur = "" then a else pathJoin cur a) [])])).map
                    FileTreeNode.name)
                    = cs.map FileTreeNode.name ++ [b, a] := by
                  rw [List.map_append, canonL_map_name]
                  rfl
                rw [hmap]
                rw [List.nodup_append]
                refine ⟨(namesNodupB_iff _).mp hn, by simp [Ne.symm hab], ?_⟩
                intro x hx
                simp only [List.mem_cons, List.not_mem_nil, or_false]
                intro hor
                rcases hor with he | he
                · subst he
                  exact name_not_mem_of_all cs x hallb hx
                · subst he
                  exact name_not_mem_of_all cs x halla hx
              · intro x hx
                rcases List.mem_append.mp hx with hxc | hxn
                · rw [canonL_eq_map] at hxc
                  rcases List.mem_map.mp hxc with ⟨y, hy, hxy⟩
                  rw [← hxy, canon_name]
                  exact (allNodesB_split (fun a2 => alnumName a2.name) y
                    (allForestB_mem (fun a2 => alnumName a2.name) cs hA y hy)).1
                · rcases List.mem_append.mp hxn with hxb | hxa
                  · have hxb2 : x ∈ [canon (FileTreeNode.mk b
                        (if cur = "" then b else pathJoin cur b) (!r2.isEmpty)
                        (insertParts r2 (if cur = "" then b else pathJoin cur b) []))] := hxb
                    rw [List.mem_singleton.mp hxb2, canon_name]
                    exact hq2 b (List.mem_cons_self b r2)
                  · have hxa2 : x ∈ [canon (FileTreeNode.mk a
                        (if cur = "" then a else pathJoin cur a) (!r1.isEmpty)
                        (insertParts r1 (if cur = "" then a else pathJoin cur a) []))] := hxa
                    rw [List.mem_singleton.mp hxa2, canon_name]
                    exact hq1 a (List.mem_cons_self a r1)

lemma splitSegsAux_chars :
    ∀ (l acc : List Char), (∀ c ∈ acc, isSep c = false) →
      ∀ seg ∈ splitSegsAux l acc, ∀ ch ∈ seg.data, isSep ch = false ∧ (ch ∈ acc ∨ ch ∈ l) := by
  intro l
  induction l with
  | nil =>
    intro acc hacc seg hseg ch hch
    have hs : seg = ⟨acc.reverse⟩ := by simpa [splitSegsAux] using hseg
    subst hs
    have hch2 : ch ∈ acc := by simpa using hch
    exact ⟨hacc ch hch2, Or.inl hch2⟩
  | cons c rest ih =>
    intro acc hacc seg hseg ch hch
    rw [splitSegsAux] at hseg
    by_cases hsep : isSep c = true
    · rw [if_pos hsep] at hseg
      rcases List.mem_cons.mp hseg with he | hm
      · subst he
        have hch2 : ch ∈ acc := by simpa using hch
        exact ⟨hacc ch hch2, Or.inl hch2⟩
      · rcases ih [] (by intro x hx; cases hx) seg hm ch hch with ⟨h1, h2⟩
        rcases h2 with h2 | h2
        · cases h2
        · exact ⟨h1, Or.inr (List.mem_cons_of_mem c h2)⟩
    · rw [if_neg hsep] at hseg
      have hsep' : isSep c = false := by
        cases hq : isSep c
        · rfl
        · exact absurd hq hsep
      rcases ih (c :: acc) (by
        intro x hx
        rcases List.mem_cons.mp hx with he | hm
        · subst he; exact hsep'
        · exact hacc x hm) seg hseg ch hch with ⟨h1, h2⟩
      refine ⟨h1, ?_⟩
      rcases h2 with h2 | h2
      · rcases List.mem_cons.mp h2 with he | hm
        · subst he; exact Or.inr (List.mem_cons_self ch rest)
        · exact Or.inl hm
      · exact Or.inr (List.mem_cons_of_mem c h2)

lemma splitParts_alnum (s : String) (hp : alnumPath s = true) :
    ∀ seg ∈ splitParts s, alnumName seg = true := by
  intro seg hseg
  have hmem : seg ∈ splitSegsAux s.data [] := (List.mem_filter.mp hseg).1
  rw [alnumName, List.all_eq_true]
  intro ch hch
  rcases splitSegsAux_chars s.data [] (by intro x hx; cases hx) seg hmem ch hch with ⟨h1, h2⟩
  have hin : ch ∈ s.data := by
    rcases h2 with h2 | h2
    · cases h2
    · exact h2
  rw [alnumPath, List.all_eq_true] at hp
  have h3 : (ch.isAlphanum || isSep ch) = true := hp ch hin
  rw [Bool.or_eq_true] at h3
  rcases h3 with h3 | h3
  · exact h3
  · rw [h1] at h3
    cases h3

lemma insertParts_nameAll (q : String → Bool) :
    ∀ (parts : List String) (cur : String) (cs : List FileTreeNode),
      (∀ pp ∈ parts, q pp = true) →
      allForestB (fun a => q a.name) cs = true →
      allForestB (fun a => q a.name) (insertParts parts cur cs) = true := by
  intro parts
  induction parts with
  | nil => intro _ cs _ h; exact h
  | cons part rest ih =>
    intro cur cs hq hall
    rw [insertParts]
    cases hupd : updateFirst (fun c => c.name = part)
        (fun c => .mk c.name c.path c.isDirectory
          (insertParts rest (if cur = "" then part else pathJoin cur part) c.children)) cs with
    | some cs2 =>
      refine updateFirst_allForest (fun a => q a.name) _ _ cs cs2 hall ?_ hupd
      intro c hc
      cases c with
      | mk n pa d ccs =>
        simp only [FileTreeNode.name, FileTreeNode.path, FileTreeNode.isDirectory,
          FileTreeNode.children]
        rw [allNodesB_mk, Bool.and_eq_true] at hc
        rw [allNodesB_mk, Bool.and_eq_true]
        constructor
        · simpa [FileTreeNode.name] using hc.1
        · exact ih _ ccs (fun pp hpp => hq pp (List.mem_cons_of_mem part hpp)) hc.2
    | none =>
      rw [allForestB_append, hall]
      have hpart : q part = true := hq part (List.mem_cons_self part rest)
      have hrec := ih (if cur = "" then part else pathJoin cur part) []
        (fun pp hpp => hq pp (List.mem_cons_of_mem part hpp)) rfl
      simp [allForestB, allNodesB_mk, FileTreeNode.name, hpart]
      exact hrec

lemma foldl_insert_canonF_congr :
    ∀ (S : List String) (cs ds : List FileTreeNode),
      namesNodupB (cs.map FileTreeNode.name) = true → allForestB sibNodup cs = true →
      namesNodupB (ds.map FileTreeNode.name) = true → allForestB sibNodup ds = true →
      allForestB (fun a => alnumName a.name) cs = true →
      allForestB (fun a => alnumName a.name) ds = true →
      (∀ p ∈ S, alnumPath p = true) →
      canonF cs = canonF ds →
      canonF (S.foldl (fun acc pp => insertParts (splitParts pp) "" acc) cs)
        = canonF (S.foldl (fun acc pp => insertParts (splitParts pp) "" acc) ds) := by
  intro S
  induction S with
  | nil => intro cs ds _ _ _ _ _ _ _ h; exact h
  | cons pp S ih =>
    intro cs ds hn1 ha1 hn2 ha2 hA1 hA2 hS h
    have g1 := insertParts_nodup (splitParts pp) "" cs hn1 ha1
    have g2 := insertParts_nodup (splitParts pp) "" ds hn2 ha2
    have hpp := splitParts_alnum pp (hS pp (List.mem_cons_self pp S))
    exact ih _ _ g1.1 g1.2 g2.1 g2.2
      (insertParts_nameAll alnumName (splitParts pp) "" cs hpp hA1)
      (insertParts_nameAll alnumName (splitParts pp) "" ds hpp hA2)
      (fun p hp => hS p (List.mem_cons_of_mem pp hp))
      (insertParts_canonF_congr (splitParts pp) "" cs ds hn1 ha1 hn2 ha2 hA1 hA2 hpp h)

lemma foldl_insert_perm_canonF :
    ∀ {S1 S2 : List String}, S1.Perm S2 →
      ∀ (cs ds : List FileTreeNode),
        namesNodupB (cs.map FileTreeNode.name) = true → allForestB sibNodup cs = true →
        namesNodupB (ds.map FileTreeNode.name) = true → allForestB sibNodup ds = true →
        allForestB (fun a => alnumName a.name) cs = true →
        allForestB (fun a => alnumName a.name) ds = true →
        (∀ p ∈ S1, alnumPath p = true) →
        canonF cs = canonF ds →
        canonF (S1.foldl (fun acc pp => insertParts (splitParts pp) "" acc) cs)
          = canonF (S2.foldl (fun acc pp => insertParts (splitParts pp) "" acc) ds) := by
  intro S1 S2 hp
  induction hp with
  | nil => intro cs ds _ _ _ _ _ _ _ h; exact h
  | cons x h ih =>
    intro cs ds hn1 ha1 hn2 ha2 hA1 hA2 hS hc
    have g1 := insertParts_nodup (splitParts x) "" cs hn1 ha1
    have g2 := insertParts_nodup (splitParts x) "" ds hn2 ha2
    have hxSegs := splitParts_alnum x (hS x (List.mem_cons_self x _))
    exact ih _ _ g1.1 g1.2 g2.1 g2.2
      (insertParts_nameAll alnumName (splitParts x) "" cs hxSegs hA1)
      (insertParts_nameAll alnumName (splitParts x) "" ds hxSegs hA2)
      (fun p hp2 => hS p (List.mem_cons_of_mem x hp2))
      (insertParts_canonF_congr (splitParts x) "" cs ds hn1 ha1 hn2 ha2 hA1 hA2 hxSegs hc)
  | swap x y l =>
    intro cs ds hn1 ha1 hn2 ha2 hA1 hA2 hS hc
    have hySegs := splitParts_alnum y (hS y (List.mem_cons_self y (x :: l)))
    have hxSegs := splitParts_alnum x
      (hS x (List.mem_cons_of_mem y (List.mem_cons_self x l)))
    have gy1 := insertParts_nodup (splitParts y) "" cs hn1 ha1
    have gy2 := insertParts_nodup (splitParts y) "" ds hn2 ha2
    have gyx1 := insertParts_nodup (splitParts x) "" (insertParts (splitParts y) "" cs)
      gy1.1 gy1.2
    have gx2 := insertParts_nodup (splitParts x) "" ds hn2 ha2
    have gxy2 := insertParts_nodup (splitParts y) "" (insertParts (splitParts x) "" ds)
      gx2.1 gx2.2
    refine foldl_insert_canonF_congr l _ _ gyx1.1 gyx1.2 gxy2.1 gxy2.2
      (insertParts_nameAll alnumName (splitParts x) "" _ hxSegs
        (insertParts_nameAll alnumName (splitParts y) "" cs hySegs hA1))
      (insertParts_nameAll alnumName (splitParts y) "" _ hySegs
        (insertParts_nameAll alnumName (splitParts x) "" ds hxSegs hA2))
      (fun p hp2 => hS p (List.mem_cons_of_mem y (List.mem_cons_of_mem x hp2)))
      ?_
    have step1 : canonF (insertParts (splitParts x) "" (insertParts (splitParts y) "" cs))
        = canonF (insertParts (splitParts x) "" (insertParts (splitParts y) "" ds)) :=
      insertParts_canonF_congr (splitParts x) "" _ _ gy1.1 gy1.2 gy2.1 gy2.2
        (insertParts_nameAll alnumName (splitParts y) "" cs hySegs hA1)
        (insertParts_nameAll alnumName (splitParts y) "" ds hySegs hA2)
        hxSegs
        (insertParts_canonF_congr (splitParts y) "" cs ds hn1 ha1 hn2 ha2 hA1 hA2 hySegs hc)
    rw [step1]
    exact insertParts_swap_canonF ((splitParts x).length + (splitParts y).length)
      (splitParts x) (splitParts y) "" ds (le_refl _) hn2 ha2 hA2 hxSegs hySegs
  | trans h1 h2 ih1 ih2 =>
    intro cs ds hn1 ha1 hn2 ha2 hA1 hA2 hS hc
    exact (ih1 cs cs hn1 ha1 hn1 ha1 hA1 hA1 hS rfl).trans
      (ih2 cs ds hn1 ha1 hn2 ha2 hA1 hA2 (fun p hp2 => hS p (h1.mem_iff.mpr hp2)) hc)

lemma canonF_length (cs : List FileTreeNode) : (canonF cs).length = cs.length := by
  show (List.insertionSort nodeLE (canonL cs)).length = _
  rw [List.length_insertionSort, canonL_length]

lemma buildFileTree_canon_perm (S1 S2 : List String) (hp : S1.Perm S2)
    (hS1 : ∀ p ∈ S1, alnumPath p = true) :
    canon (buildFileTree S1) = canon (buildFileTree S2) := by
  have hF := foldl_insert_perm_canonF hp [] [] rfl rfl rfl rfl rfl rfl hS1 rfl
  have hlen : (S1.foldl (fun acc pp => insertParts (splitParts pp) "" acc) []).length
      = (S2.foldl (fun acc pp => insertParts (splitParts pp) "" acc) []).length := by
    rw [← canonF_length, hF, canonF_length]
  rw [buildFileTree, buildFileTree]
  cases h1 : S1.foldl (fun acc pp => insertParts (splitParts pp) "" acc) [] with
  | nil =>
    cases h2 : S2.foldl (fun acc pp => insertParts (splitParts pp) "" acc) [] with
    | nil => rfl
    | cons d t2 =>
      rw [h1, h2] at hlen
      simp only [List.length_nil, List.length_cons] at hlen
      omega
  | cons c t1 =>
    cases h2 : S2.foldl (fun acc pp => insertParts (splitParts pp) "" acc) [] with
    | nil =>
      rw [h1, h2] at hlen
      simp only [List.length_nil, List.length_cons] at hlen
      omega
    | cons d t2 =>
      rw [h1, h2] at hF hlen
      cases t1 with
      | nil =>
        cases t2 with
        | nil =>
          have h3 : ([canon c] : List FileTreeNode) = [canon d] := hF
          rw [List.cons.injEq] at h3
          exact h3.1
        | cons d2 t2' =>
          simp only [List.length_cons, List.length_nil] at hlen
          omega
      | cons c2 t1' =>
        cases t2 with
        | nil =>
          simp only [List.length_cons, List.length_nil] at hlen
          omega
        | cons d2 t2' =>
          show FileTreeNode.mk "." "" true (canonF (c :: c2 :: t1'))
            = FileTreeNode.mk "." "" true (canonF (d :: d2 :: t2'))
          exact congrArg (FileTreeNode.mk "." "" true) hF

/-- C6 counterexample.  Byte-identity under reordering fails once sibling
names tie under localeCompare: the names e-acute (precomposed) and e plus
combining acute are distinct strings that ECMA-402 requires the
default-locale comparator to treat as equal (canonical equivalence), so the
stable sort preserves the two differing insertion orders and the drawings
differ byte for byte. -/
theorem C6_counterexample :
    (["r/é", "r/e\u0301"].Perm ["r/e\u0301", "r/é"]) ∧
    generateTreeString (buildFileTree ["r/é", "r/e\u0301"]) "" true
      ≠ generateTreeString (buildFileTree ["r/e\u0301", "r/é"]) "" true := by
  constructor
  · decide
  · decide

/-- C6, amended.  For selections whose paths are made of ASCII-alphanumeric
characters and separators — the fragment on which the modelled comparator
is exact and, in particular, never ties on distinct names — rendering is a
function of the path set alone: two input lists that are permutations of
each other build trees with the same canonical form, so generateTreeString
produces byte-identical drawings and the tree body assembled by
generateOutput is byte-identical as well.  Without that restriction the
guarantee fails: localeCompare ties on canonically equivalent distinct
names and the stable sort then preserves the original discovery order (see
the counterexample). -/
theorem C6_order_independence (S1 S2 : List String) (hp : S1.Perm S2)
    (ha : ∀ p ∈ S1, alnumPath p = true) :
    generateTreeString (buildFileTree S1) "" true
        = generateTreeString (buildFileTree S2) "" true ∧
      generateOutputTreeBody S1 = generateOutputTreeBody S2 := by
  have hc := buildFileTree_canon_perm S1 S2 hp ha
  have hname : (buildFileTree S1).name = (buildFileTree S2).name := by
    rw [← canon_name (buildFileTree S1), ← canon_name (buildFileTree S2), hc]
  have hpath : (buildFileTree S1).path = (buildFileTree S2).path := by
    rw [← canon_path (buildFileTree S1), ← canon_path (buildFileTree S2), hc]
  have hrender : generateTreeString (buildFileTree S1) "" true
      = generateTreeString (buildFileTree S2) "" true := by
    rw [← generateTreeString_canon (sizeOf (buildFileTree S1)) (buildFileTree S1)
        (le_refl _) "" true,
      ← generateTreeString_canon (sizeOf (buildFileTree S2)) (buildFileTree S2)
        (le_refl _) "" true,
      hc]
  refine ⟨hrender, ?_⟩
  rw [generateOutputTreeBody, generateOutputTreeBody, hname, hpath, hrender]

/-- Witness for C6 at a concrete pair of reordered path lists. -/
theorem C6_order_independence_witness :
    ((["b", "a/c", "a/d"].Perm ["a/d", "b", "a/c"]) ∧
      (∀ p ∈ ["b", "a/c", "a/d"], alnumPath p = true)) ∧
    (generateTreeString (buildFileTree ["b", "a/c", "a/d"]) "" true
        = generateTreeString (buildFileTree ["a/d", "b", "a/c"]) "" true ∧
      generateOutputTreeBody ["b", "a/c", "a/d"] = generateOutputTreeBody ["a/d", "b", "a/c"]) :=
  ⟨⟨by decide, by decide⟩,
    C6_order_independence ["b", "a/c", "a/d"] ["a/d", "b", "a/c"] (by decide) (by decide)⟩

/-! ## C3: the round trip from a drawing back to a tree -/

lemma splitParts_clean (s : String) (hnl : pathNoNl s = true) :
    ∀ seg ∈ splitParts s, nameCleanB seg = true := by
  intro seg hseg
  have hne : seg ≠ "" := splitParts_mem_ne s seg hseg
  have hmem : seg ∈ splitSegsAux s.data [] := (List.mem_filter.mp hseg).1
  rw [nameCleanB, Bool.and_eq_true]
  constructor
  · simpa using hne
  · rw [List.all_eq_true]
    intro ch hch
    rcases splitSegsAux_chars s.data [] (by intro x hx; cases hx) seg hmem ch hch with ⟨h1, h2⟩
    have hin : ch ∈ s.data := by
      rcases h2 with h2 | h2
      · cases h2
      · exact h2
    have hnl2 : ¬(ch = '\n') := by
      rw [pathNoNl, List.all_eq_true] at hnl
      have := hnl ch hin
      simpa using this
    simp [h1, hnl2]

lemma buildFileTree_nameAll (q : String → Bool) (hdot : q "." = true) (S : List String)
    (hS : ∀ pp ∈ S, ∀ seg ∈ splitParts pp, q seg = true) :
    allNodesB (fun a => q a.name) (buildFileTree S) = true := by
  have h : allForestB (fun a => q a.name)
      (S.foldl (fun acc pp => insertParts (splitParts pp) "" acc) []) = true := by
    have key : ∀ (S' : List String) (cs : List FileTreeNode),
        (∀ pp ∈ S', ∀ seg ∈ splitParts pp, q seg = true) →
        allForestB (fun a => q a.name) cs = true →
        allForestB (fun a => q a.name)
          (S'.foldl (fun acc pp => insertParts (splitParts pp) "" acc) cs) = true := by
      intro S'
      induction S' with
      | nil => intro cs _ h; exact h
      | cons pp S'' ih =>
        intro cs hq h
        exact ih _ (fun p2 hp2 => hq p2 (List.mem_cons_of_mem pp hp2))
          (insertParts_nameAll q (splitParts pp) "" cs
            (hq pp (List.mem_cons_self pp S'')) h)
    exact key S [] hS rfl
  rw [buildFileTree]
  cases hfold : S.foldl (fun acc pp => insertParts (splitParts pp) "" acc) [] with
  | nil =>
    rw [allNodesB_mk]
    simpa [FileTreeNode.name, allForestB] using hdot
  | cons c cs' =>
    rw [hfold] at h
    cases cs' with
    | nil =>
      rw [allForestB, allForestB, Bool.and_eq_true] at h
      simpa using h.1
    | cons c2 cs'' =>
      rw [allNodesB_mk, h]
      simpa [FileTreeNode.name] using hdot

lemma buildFileTree_cleanName (S : List String) (hS : ∀ pp ∈ S, pathNoNl pp = true) :
    allNodesB cleanName (buildFileTree S) = true :=
  buildFileTree_nameAll nameCleanB (by decide) S
    (fun pp hpp seg hseg => splitParts_clean pp (hS pp hpp) seg hseg)

lemma normJoinSegs_cons (x : String) (rest acc : List String) :
    normJoinSegs (x :: rest) acc =
      if x = "" || x = "." then normJoinSegs rest acc
      else if x = ".." then
        match acc with
        | [] => normJoinSegs rest [".."]
        | t :: ts =>
          if t = ".." then normJoinSegs rest (".." :: t :: ts) else normJoinSegs rest ts
      else normJoinSegs rest (x :: acc) := rfl

lemma normJoinSegs_mem :
    ∀ (l acc : List String), (∀ s ∈ acc, s ≠ "") →
      ∀ s ∈ normJoinSegs l acc, s ≠ "" := by
  intro l
  induction l with
  | nil =>
    intro acc hacc s hs
    rw [normJoinSegs] at hs
    exact hacc s (by simpa using hs)
  | cons x rest ih =>
    intro acc hacc s hs
    rw [normJoinSegs_cons] at hs
    by_cases h1 : (x = "" || x = ".") = true
    · rw [if_pos h1] at hs
      exact ih acc hacc s hs
    · rw [if_neg h1] at hs
      by_cases h2 : x = ".."
      · rw [if_pos h2] at hs
        cases hacc2 : acc with
        | nil =>
          rw [hacc2] at hs
          have hs2 : s ∈ normJoinSegs rest [".."] := hs
          refine ih [".."] ?_ s hs2
          intro t ht
          rw [List.mem_singleton] at ht
          subst ht
          decide
        | cons t ts =>
          rw [hacc2] at hs
          have hs2 : s ∈ (if t = ".." then normJoinSegs rest (".." :: t :: ts)
              else normJoinSegs rest ts) := hs
          by_cases h3 : t = ".."
          · rw [if_pos h3] at hs2
            refine ih (".." :: t :: ts) ?_ s hs2
            intro u hu
            rcases List.mem_cons.mp hu with he | hm
            · subst he; decide
            · exact hacc u (by rw [hacc2]; exact hm)
          · rw [if_neg h3] at hs2
            exact ih ts (fun u hu => hacc u (by rw [hacc2]; exact List.mem_cons_of_mem t hu))
              s hs2
      · rw [if_neg h2] at hs
        refine ih (x :: acc) ?_ s hs
        intro u hu
        rcases List.mem_cons.mp hu with he | hm
        · subst he
          intro hx
          apply h1
          rw [hx]
          rfl
        · exact hacc u hm

lemma append_slash_ne (s t : String) : s ++ "/" ++ t ≠ "" := by
  intro h
  have hd : (s ++ "/" ++ t).data = [] := by rw [h]
  rw [String.data_append, String.data_append] at hd
  simp at hd

lemma pathJoin_ne (a b : String) : pathJoin a b ≠ "" := by
  rw [pathJoin]
  cases hn : normJoinSegs (splitSlash a ++ splitSlash b) [] with
  | nil => decide
  | cons s rest =>
    have hs : s ≠ "" := normJoinSegs_mem _ [] (by intro u hu; cases hu) s
      (by rw [hn]; exact List.mem_cons_self s rest)
    cases rest with
    | nil => exact hs
    | cons s2 rest2 => exact append_slash_ne s (joinSegs (s2 :: rest2))

lemma insertParts_nePath :
    ∀ (parts : List String) (cur : String) (cs : List FileTreeNode),
      (∀ pp ∈ parts, pp ≠ "") → allForestB nePath cs = true →
      allForestB nePath (insertParts parts cur cs) = true := by
  intro parts
  induction parts with
  | nil => intro _ cs _ h; exact h
  | cons part rest ih =>
    intro cur cs hne hall
    rw [insertParts]
    cases hupd : updateFirst (fun c => c.name = part)
        (fun c => .mk c.name c.path c.isDirectory
          (insertParts rest (if cur = "" then part else pathJoin cur part) c.children)) cs with
    | some cs2 =>
      refine updateFirst_allForest nePath _ _ cs cs2 hall ?_ hupd
      intro c hc
      cases c with
      | mk n pa d ccs =>
        simp only [FileTreeNode.name, FileTreeNode.path, FileTreeNode.isDirectory,
          FileTreeNode.children]
        rw [allNodesB_mk, Bool.and_eq_true] at hc
        rw [allNodesB_mk, Bool.and_eq_true]
        constructor
        · simpa [nePath, FileTreeNode.path] using hc.1
        · exact ih _ ccs (fun pp hpp => hne pp (List.mem_cons_of_mem part hpp)) hc.2
    | none =>
      rw [allForestB_append, hall]
      have hnp : (if cur = "" then part else pathJoin cur part) ≠ "" := by
        by_cases hcur : cur = ""
        · rw [if_pos hcur]; exact hne part (List.mem_cons_self part rest)
        · rw [if_neg hcur]; exact pathJoin_ne cur part
      rw [allForestB, allNodesB_mk]
      have h1 : nePath (FileTreeNode.mk part (if cur = "" then part else pathJoin cur part)
          (!rest.isEmpty)
          (insertParts rest (if cur = "" then part else pathJoin cur part) [])) = true := by
        simpa [nePath, FileTreeNode.path] using hnp
      rw [h1, ih _ [] (fun pp hpp => hne pp (List.mem_cons_of_mem part hpp)) rfl]
      rfl

lemma buildFileTree_nePath_children (S : List String) :
    allForestB nePath (buildFileTree S).children = true ∧
      ((buildFileTree S).path ≠ "" → allNodesB nePath (buildFileTree S) = true) := by
  have h : allForestB nePath
      (S.foldl (fun acc pp => insertParts (splitParts pp) "" acc) []) = true := by
    have key : ∀ (S' : List String) (cs : List FileTreeNode),
        allForestB nePath cs = true →
        allForestB nePath
          (S'.foldl (fun acc pp => insertParts (splitParts pp) "" acc) cs) = true := by
      intro S'
      induction S' with
      | nil => intro cs h; exact h
      | cons pp S'' ih =>
        intro cs hcs
        exact ih _ (insertParts_nePath (splitParts pp) "" cs (splitParts_mem_ne pp) hcs)
    exact key S [] rfl
  rw [buildFileTree]
  cases hfold : S.foldl (fun acc pp => insertParts (splitParts pp) "" acc) [] with
  | nil =>
    refine ⟨rfl, fun hp => ?_⟩
    exact absurd rfl hp
  | cons c cs' =>
    rw [hfold] at h
    cases cs' with
    | nil =>
      rw [allForestB, Bool.and_eq_true] at h
      refine ⟨?_, fun _ => h.1⟩
      cases c with
      | mk n pa d ccs =>
        have := h.1
        rw [allNodesB_mk, Bool.and_eq_true] at this
        exact this.2
    | cons c2 cs'' =>
      refine ⟨h, fun hp => ?_⟩
      exact absurd rfl hp

lemma nlTerminated_concat (s : String) : nlTerminated (s ++ "\n") :=
  Or.inr ⟨s.data, by rw [String.data_append]⟩

lemma nlTerminated_append (s t : String) (hs : nlTerminated s) (ht : nlTerminated t) :
    nlTerminated (s ++ t) := by
  rcases ht with ht | ⟨l, hl⟩
  · rcases hs with hs | ⟨l2, hl2⟩
    · left; rw [String.data_append, hs, ht]; rfl
    · right; exact ⟨l2, by rw [String.data_append, ht, hl2]; simp⟩
  · right; exact ⟨s.data ++ l, by rw [String.data_append, hl, List.append_assoc]⟩

lemma splitNlAux_append_filter :
    ∀ (l1 acc l2 : List Char),
      (splitNlAux ((l1 ++ ['\n']) ++ l2) acc).filter (fun t => t ≠ "")
        = (splitNlAux (l1 ++ ['\n']) acc).filter (fun t => t ≠ "")
          ++ (splitNlAux l2 []).filter (fun t => t ≠ "") := by
  intro l1
  induction l1 with
  | nil =>
    intro acc l2
    simp only [List.nil_append, List.cons_append]
    rw [splitNlAux, if_pos rfl, splitNlAux, if_pos rfl, splitNlAux]
    rw [List.filter_cons, List.filter_cons, List.filter_cons]
    by_cases hp : ((⟨acc.reverse⟩ : String) ≠ "")
    · rw [if_pos (by simpa using hp), if_pos (by simpa using hp)]
      simp
    · rw [if_neg (by simpa using hp), if_neg (by simpa using hp)]
      simp
  | cons c l1 ih =>
    intro acc l2
    by_cases hc : c = '\n'
    · subst hc
      simp only [List.cons_append]
      rw [splitNlAux, if_pos rfl, splitNlAux, if_pos rfl]
      rw [List.filter_cons, List.filter_cons]
      have ih2 := ih [] l2
      by_cases hp : ((⟨acc.reverse⟩ : String) ≠ "")
      · rw [if_pos (by simpa using hp), if_pos (by simpa using hp)]
        rw [List.cons_append]
        rw [show ((l1 ++ ['\n']) ++ l2) = (l1 ++ ['\n'] ++ l2) from rfl] at ih2
        rw [ih2]
      · rw [if_neg (by simpa using hp), if_neg (by simpa using hp)]
        exact ih2
    · simp only [List.cons_append]
      rw [splitNlAux, if_neg hc, splitNlAux, if_neg hc]
      exact ih (c :: acc) l2

lemma linesOf_append (s1 s2 : String) (h : nlTerminated s1) :
    linesOf (s1 ++ s2) = linesOf s1 ++ linesOf s2 := by
  rcases h with h | ⟨l, hl⟩
  · have h2 : (s1 ++ s2).data = s2.data := by rw [String.data_append, h]; rfl
    rw [linesOf, linesOf, linesOf, h2, h]
    rw [splitNlAux]
    simp
  · have hd : (s1 ++ s2).data = (l ++ ['\n']) ++ s2.data := by rw [String.data_append, hl]
    rw [linesOf, linesOf, linesOf, hd, hl]
    exact splitNlAux_append_filter l [] s2.data

lemma splitNlAux_no_nl :
    ∀ (l acc rest : List Char), (∀ c ∈ l, c ≠ '\n') →
      splitNlAux (l ++ '\n' :: rest) acc = ⟨acc.reverse ++ l⟩ :: splitNlAux rest [] := by
  intro l
  induction l with
  | nil =>
    intro acc rest _
    rw [List.nil_append, splitNlAux, if_pos rfl]
    simp
  | cons c l ih =>
    intro acc rest h
    rw [List.cons_append, splitNlAux, if_neg (h c (List.mem_cons_self c l)),
      ih (c :: acc) rest (fun x hx => h x (List.mem_cons_of_mem c hx))]
    congr 1
    show String.mk ((c :: acc).reverse ++ l) = String.mk (acc.reverse ++ c :: l)
    rw [List.reverse_cons, List.append_assoc]
    rfl

lemma linesOf_single_line (line : String) (h : ∀ c ∈ line.data, c ≠ '\n')
    (hne : line ≠ "") : linesOf (line ++ "\n") = [line] := by
  rw [linesOf]
  have hd : (line ++ "\n").data = line.data ++ '\n' :: [] := by
    rw [String.data_append]
  rw [hd, splitNlAux_no_nl line.data [] [] h, splitNlAux]
  show (String.mk line.data :: [String.mk []]).filter (fun t => t ≠ "") = [line]
  rw [List.filter_cons, List.filter_cons, if_pos (by simpa using hne)]
  rw [if_neg (by simp)]
  rfl

lemma isGroupsB_cons_eq (d : Nat) (a b c3 e : Char) (l5 : List Char) :
    isGroupsB (d + 1) (a :: b :: c3 :: e :: l5)
      = (([a, b, c3, e] = "    ".data || [a, b, c3, e] = "│   ".data)
        && isGroupsB d l5) := rfl

lemma group_chars_ne_nl (a b c3 e : Char)
    (hg : [a, b, c3, e] = "    ".data ∨ [a, b, c3, e] = "│   ".data) :
    ∀ x ∈ [a, b, c3, e], x ≠ '\n' := by
  rcases hg with hg | hg <;>
    · rw [hg]
      intro x hx hxe
      subst hxe
      revert hx
      decide

lemma isGroupsB_chars :
    ∀ (d : Nat) (l : List Char), isGroupsB d l = true → ∀ c ∈ l, c ≠ '\n' := by
  intro d
  induction d with
  | zero =>
    intro l h c hc
    cases l with
    | nil => cases hc
    | cons a l2 => simp [isGroupsB] at h
  | succ d ih =>
    intro l h c hc
    cases l with
    | nil => simp [isGroupsB] at h
    | cons a l2 =>
      cases l2 with
      | nil => simp [isGroupsB] at h
      | cons b l3 =>
        cases l3 with
        | nil => simp [isGroupsB] at h
        | cons c3 l4 =>
          cases l4 with
          | nil => simp [isGroupsB] at h
          | cons e l5 =>
            rw [isGroupsB_cons_eq, Bool.and_eq_true] at h
            have hgrp : [a, b, c3, e] = "    ".data ∨ [a, b, c3, e] = "│   ".data := by
              rw [Bool.or_eq_true] at h
              rcases h.1 with hg | hg
              · exact Or.inl (by simpa using hg)
              · exact Or.inr (by simpa using hg)
            have hfour := group_chars_ne_nl a b c3 e hgrp
            rcases List.mem_cons.mp hc with he | hc2
            · subst he; exact hfour c (by simp)
            · rcases List.mem_cons.mp hc2 with he | hc3
              · subst he; exact hfour c (by simp)
              · rcases List.mem_cons.mp hc3 with he | hc4
                · subst he; exact hfour c (by simp)
                · rcases List.mem_cons.mp hc4 with he | hc5
                  · subst he; exact hfour c (by simp)
                  · rw [Bool.or_eq_true] at h
                    exact ih l5 h.2 c hc5

lemma isGroupsB_append_group :
    ∀ (d : Nat) (l g : List Char), isGroupsB d l = true →
      (g = "    ".data ∨ g = "│   ".data) → isGroupsB (d + 1) (l ++ g) = true := by
  intro d
  induction d with
  | zero =>
    intro l g h hg
    have hl : l = [] := by
      cases l with
      | nil => rfl
      | cons a l2 => simp [isGroupsB] at h
    subst hl
    rcases hg with hg | hg <;> (subst hg; decide)
  | succ d ih =>
    intro l g h hg
    cases l with
    | nil => simp [isGroupsB] at h
    | cons a l2 =>
      cases l2 with
      | nil => simp [isGroupsB] at h
      | cons b l3 =>
        cases l3 with
        | nil => simp [isGroupsB] at h
        | cons c3 l4 =>
          cases l4 with
          | nil => simp [isGroupsB] at h
          | cons e l5 =>
            rw [isGroupsB_cons_eq, Bool.and_eq_true] at h
            show isGroupsB (d + 1 + 1) (a :: b :: c3 :: e :: (l5 ++ g)) = true
            rw [isGroupsB_cons_eq, Bool.and_eq_true]
            exact ⟨h.1, ih l5 g h.2 hg⟩

lemma stripGroups_of_groups :
    ∀ (d : Nat) (pre tail : List Char), isGroupsB d pre = true →
      stripGroups tail = (0, tail) → stripGroups (pre ++ tail) = (d, tail) := by
  intro d
  induction d with
  | zero =>
    intro pre tail h htail
    have hl : pre = [] := by
      cases pre with
      | nil => rfl
      | cons a l2 => simp [isGroupsB] at h
    subst hl
    rw [List.nil_append, htail]
  | succ d ih =>
    intro pre tail h htail
    cases pre with
    | nil => simp [isGroupsB] at h
    | cons a l2 =>
      cases l2 with
      | nil => simp [isGroupsB] at h
      | cons b l3 =>
        cases l3 with
        | nil => simp [isGroupsB] at h
        | cons c3 l4 =>
          cases l4 with
          | nil => simp [isGroupsB] at h
          | cons e l5 =>
            rw [isGroupsB_cons_eq, Bool.and_eq_true] at h
            show stripGroups (a :: b :: c3 :: e :: (l5 ++ tail)) = (d + 1, tail)
            rw [stripGroups, if_pos h.1, ih l5 tail h.2 htail]

lemma stripGroups_cons_eq (a b c3 e : Char) (rest : List Char) :
    stripGroups (a :: b :: c3 :: e :: rest)
      = if [a, b, c3, e] = "    ".data || [a, b, c3, e] = "│   ".data then
          ((stripGroups rest).1 + 1, (stripGroups rest).2)
        else (0, a :: b :: c3 :: e :: rest) := rfl

lemma parseLine_tee (d : Nat) (pre nm : List Char) (hpre : isGroupsB d pre = true) :
    parseLine (pre ++ ("├── ".data ++ nm)) = (d, ⟨nm⟩) := by
  have hzero : stripGroups ("├── ".data ++ nm) = (0, "├── ".data ++ nm) := by
    show stripGroups ('├' :: '─' :: '─' :: ' ' :: nm) = (0, '├' :: '─' :: '─' :: ' ' :: nm)
    rw [stripGroups_cons_eq, if_neg (by decide)]
  have hstrip := stripGroups_of_groups d pre ("├── ".data ++ nm) hpre hzero
  unfold parseLine
  rw [hstrip]
  rfl

lemma parseLine_corner (d : Nat) (pre nm : List Char) (hpre : isGroupsB d pre = true) :
    parseLine (pre ++ ("└── ".data ++ nm)) = (d, ⟨nm⟩) := by
  have hzero : stripGroups ("└── ".data ++ nm) = (0, "└── ".data ++ nm) := by
    show stripGroups ('└' :: '─' :: '─' :: ' ' :: nm) = (0, '└' :: '─' :: '─' :: ' ' :: nm)
    rw [stripGroups_cons_eq, if_neg (by decide)]
  have hstrip := stripGroups_of_groups d pre ("└── ".data ++ nm) hpre hzero
  unfold parseLine
  rw [hstrip]
  rfl

lemma entriesPairs_map : ∀ (cs : List FileTreeNode) (d : Nat),
    entriesPairs cs d = cs.map (fun c => (c, nodeEntries c d)) := by
  intro cs
  induction cs with
  | nil => intro d; rfl
  | cons c cs ih => intro d; rw [entriesPairs, List.map_cons, ih]

lemma entSeq_eq : ∀ (l : List FileTreeNode) (d : Nat),
    concatSnd (l.map (fun c => (c, nodeEntries c d))) = entSeq l d := by
  intro l
  induction l with
  | nil => intro d; rfl
  | cons c l ih => intro d; rw [List.map_cons, concatSnd, entSeq, ih]

lemma nodeEntries_bridge (n p : String) (dd : Bool) (cs : List FileTreeNode) (d : Nat) :
    nodeEntries (FileTreeNode.mk n p dd cs) d = (d, n) :: entSeq (sortNodes cs) (d + 1) := by
  show (d, n) :: concatSnd (List.insertionSort pairLE (entriesPairs cs (d + 1))) = _
  rw [entriesPairs_map, insertionSort_map _ (fun c => rfl), entSeq_eq]
  rfl

lemma chainPairs_map : ∀ cs : List FileTreeNode,
    chainPairs cs = cs.map (fun c => (c, leafChains c)) := by
  intro cs
  induction cs with
  | nil => rfl
  | cons c cs ih => rw [chainPairs, List.map_cons, ih]

lemma chainSeq_eq : ∀ l : List FileTreeNode,
    concatSnd (l.map (fun c => (c, leafChains c))) = chainSeq l := by
  intro l
  induction l with
  | nil => rfl
  | cons c l ih => rw [List.map_cons, concatSnd, chainSeq, ih]

lemma leafChains_bridge (n p : String) (dd : Bool) (c0 : FileTreeNode)
    (cs : List FileTreeNode) :
    leafChains (FileTreeNode.mk n p dd (c0 :: cs))
      = (chainSeq (sortNodes (c0 :: cs))).map (fun ch => n :: ch) := by
  show (concatSnd (List.insertionSort pairLE (chainPairs (c0 :: cs)))).map (fun ch => n :: ch)
    = _
  rw [chainPairs_map, insertionSort_map _ (fun c => rfl), chainSeq_eq]
  rfl

lemma renderSeq_nlTerm (l : List FileTreeNode)
    (h : ∀ c ∈ l, ∀ pre isLast, nlTerminated (generateTreeString c pre isLast)) :
    ∀ pre, nlTerminated (renderSeq l pre) := by
  induction l with
  | nil => intro pre; exact Or.inl rfl
  | cons c l ih =>
    intro pre
    cases l with
    | nil => exact h c (List.mem_cons_self c []) pre true
    | cons c2 l2 =>
      show nlTerminated (generateTreeString c pre false ++ renderSeq (c2 :: l2) pre)
      exact nlTerminated_append _ _ (h c (List.mem_cons_self c (c2 :: l2)) pre false)
        (ih (fun x hx pre2 b => h x (List.mem_cons_of_mem c hx) pre2 b) pre)

lemma generateTreeString_nlTerm :
    ∀ (k : Nat) (t : FileTreeNode), sizeOf t ≤ k →
      ∀ pre isLast, nlTerminated (generateTreeString t pre isLast) := by
  intro k
  induction k with
  | zero =>
    intro t hk
    cases t with
    | mk n p dd cs =>
      rw [FileTreeNode.mk.sizeOf_spec] at hk
      omega
  | succ k ih =>
    intro t hk pre isLast
    cases t with
    | mk n p dd cs =>
      have hmem : ∀ c ∈ sortNodes cs, sizeOf c ≤ k := by
        intro c hc
        have hc2 : c ∈ cs := (List.perm_insertionSort nodeLE cs).mem_iff.mp hc
        have h1 : sizeOf c < sizeOf cs := List.sizeOf_lt_of_mem hc2
        rw [FileTreeNode.mk.sizeOf_spec] at hk
        omega
      rw [generateTreeString_renderSeq]
      refine nlTerminated_append _ _ ?_ (renderSeq_nlTerm (sortNodes cs)
        (fun c hc pre2 b => ih c (hmem c hc) pre2 b) _)
      by_cases hp : p ≠ ""
      · rw [if_pos hp]
        exact nlTerminated_concat _
      · rw [if_neg hp]
        by_cases hn : n ≠ "root" ∧ n ≠ ""
        · rw [if_pos hn]
          right
          exact ⟨n.data ++ ['/'], by rw [String.data_append, List.append_assoc]; rfl⟩
        · rw [if_neg hn]
          exact Or.inl rfl

lemma data_head_line (pre conn n : String) :
    (pre ++ conn ++ n).data = pre.data ++ (conn.data ++ n.data) := by
  rw [String.data_append, String.data_append, List.append_assoc]

lemma head_line_chars (pre conn n : String) (hpre : ∀ c ∈ pre.data, c ≠ '\n')
    (hconn : ∀ c ∈ conn.data, c ≠ '\n') (hn : ∀ c ∈ n.data, c ≠ '\n') :
    ∀ c ∈ (pre ++ conn ++ n).data, c ≠ '\n' := by
  intro c hc
  rw [data_head_line] at hc
  rcases List.mem_append.mp hc with h | h
  · exact hpre c h
  · rcases List.mem_append.mp h with h2 | h2
    · exact hconn c h2
    · exact hn c h2

lemma head_line_ne (pre conn n : String) (hconn : conn.data ≠ []) :
    pre ++ conn ++ n ≠ "" := by
  intro h
  have hd : (pre ++ conn ++ n).data = [] := by rw [h]
  rw [data_head_line] at hd
  rcases List.append_eq_nil.mp hd with ⟨h1, h2⟩
  rcases List.append_eq_nil.mp h2 with ⟨h3, h4⟩
  exact hconn h3

lemma cleanName_chars (n : String) (h : nameCleanB n = true) : ∀ c ∈ n.data, c ≠ '\n' := by
  rw [nameCleanB, Bool.and_eq_true] at h
  intro c hc hce
  have := (List.all_eq_true.mp h.2) c hc
  subst hce
  simp at this

lemma allNodes_head_clean (n p : String) (dd : Bool) (cs : List FileTreeNode)
    (h : allNodesB cleanName (FileTreeNode.mk n p dd cs) = true) :
    nameCleanB n = true ∧ allForestB cleanName cs = true := by
  rw [allNodesB_mk, Bool.and_eq_true] at h
  exact ⟨by simpa [cleanName, FileTreeNode.name] using h.1, h.2⟩

lemma allNodes_head_nePath (n p : String) (dd : Bool) (cs : List FileTreeNode)
    (h : allNodesB nePath (FileTreeNode.mk n p dd cs) = true) :
    p ≠ "" ∧ allForestB nePath cs = true := by
  rw [allNodesB_mk, Bool.and_eq_true] at h
  exact ⟨by simpa [nePath, FileTreeNode.path] using h.1, h.2⟩

lemma generateTreeString_parse :
    ∀ (k : Nat) (t : FileTreeNode), sizeOf t ≤ k →
      allNodesB cleanName t = true → allNodesB nePath t = true →
      ∀ (pre : String) (d : Nat) (isLast : Bool), isGroupsB d pre.data = true →
        (linesOf (generateTreeString t pre isLast)).map (fun s => parseLine s.data)
          = nodeEntries t d := by
  intro k
  induction k with
  | zero =>
    intro t hk
    cases t with
    | mk n p dd cs =>
      rw [FileTreeNode.mk.sizeOf_spec] at hk
      omega
  | succ k ih =>
    intro t hk hclean hpath pre d isLast hpre
    cases t with
    | mk n p dd cs =>
      rcases allNodes_head_clean n p dd cs hclean with ⟨hnc, hcf⟩
      rcases allNodes_head_nePath n p dd cs hpath with ⟨hp, hpf⟩
      have hmem : ∀ c ∈ sortNodes cs,
          sizeOf c ≤ k ∧ allNodesB cleanName c = true ∧ allNodesB nePath c = true := by
        intro c hc
        have hc2 : c ∈ cs := (List.perm_insertionSort nodeLE cs).mem_iff.mp hc
        have h1 : sizeOf c < sizeOf cs := List.sizeOf_lt_of_mem hc2
        rw [FileTreeNode.mk.sizeOf_spec] at hk
        exact ⟨by omega, allForestB_mem cleanName cs hcf c hc2,
          allForestB_mem nePath cs hpf c hc2⟩
      have hforest : ∀ (pre2 : String) (d2 : Nat), isGroupsB d2 pre2.data = true →
          (linesOf (renderSeq (sortNodes cs) pre2)).map (fun s => parseLine s.data)
            = entSeq (sortNodes cs) d2 := by
        have key : ∀ (l : List FileTreeNode),
            (∀ c ∈ l, sizeOf c ≤ k ∧ allNodesB cleanName c = true ∧
              allNodesB nePath c = true) →
            ∀ (pre2 : String) (d2 : Nat), isGroupsB d2 pre2.data = true →
              (linesOf (renderSeq l pre2)).map (fun s => parseLine s.data) = entSeq l d2 := by
          intro l
          induction l with
          | nil => intro _ pre2 d2 _; rfl
          | cons c l ihl =>
            intro hl pre2 d2 hpre2
            cases l with
            | nil =>
              rcases hl c (List.mem_cons_self c []) with ⟨h1, h2, h3⟩
              rw [show renderSeq [c] pre2 = generateTreeString c pre2 true from rfl,
                ih c h1 h2 h3 pre2 d2 true hpre2]
              show nodeEntries c d2 = nodeEntries c d2 ++ entSeq [] d2
              rw [entSeq, List.append_nil]
            | cons c2 l2 =>
              rcases hl c (List.mem_cons_self c (c2 :: l2)) with ⟨h1, h2, h3⟩
              have hnt : nlTerminated (generateTreeString c pre2 false) :=
                generateTreeString_nlTerm (sizeOf c) c (le_refl _) pre2 false
              rw [show renderSeq (c :: c2 :: l2) pre2
                  = generateTreeString c pre2 false ++ renderSeq (c2 :: l2) pre2 from rfl,
                linesOf_append _ _ hnt, List.map_append, ih c h1 h2 h3 pre2 d2 false hpre2,
                ihl (fun x hx => hl x (List.mem_cons_of_mem c hx)) pre2 d2 hpre2]
              rfl
        exact fun pre2 d2 h2 => key (sortNodes cs) hmem pre2 d2 h2
      rw [generateTreeString_renderSeq, if_pos hp,
        if_neg (show ¬(p = "" ∧ n = "root") from fun hx => hp hx.1), nodeEntries_bridge]
      cases isLast with
      | true =>
        have hnt : nlTerminated (pre ++ "└── " ++ n ++ "\n") := nlTerminated_concat _
        rw [show (if (true : Bool) then "└── " else "├── ") = "└── " from rfl]
        rw [linesOf_append _ _ hnt, List.map_append]
        have hone : linesOf (pre ++ "└── " ++ n ++ "\n") = [pre ++ "└── " ++ n] :=
          linesOf_single_line _ (head_line_chars pre "└── " n
              (isGroupsB_chars d pre.data hpre) (by decide) (cleanName_chars n hnc))
            (head_line_ne pre "└── " n (by decide))
        rw [hone, List.map_cons, List.map_nil]
        have hparse : parseLine (pre ++ "└── " ++ n).data = (d, n) := by
          rw [data_head_line]
          have := parseLine_corner d pre.data n.data hpre
          rw [show ("└── ".data ++ n.data) = ("└── ".data ++ n.data) from rfl] at this
          simpa using this
        rw [hparse]
        have hgrp : isGroupsB (d + 1) (pre ++ "    ").data = true := by
          rw [String.data_append]
          exact isGroupsB_append_group d pre.data "    ".data hpre (Or.inl rfl)
        rw [show (if (true : Bool) then "    " else "│   ") = "    " from rfl]
        rw [hforest (pre ++ "    ") (d + 1) hgrp]
        rfl
      | false =>
        have hnt : nlTerminated (pre ++ "├── " ++ n ++ "\n") := nlTerminated_concat _
        rw [show (if (false : Bool) then "└── " else "├── ") = "├── " from rfl]
        rw [linesOf_append _ _ hnt, List.map_append]
        have hone : linesOf (pre ++ "├── " ++ n ++ "\n") = [pre ++ "├── " ++ n] :=
          linesOf_single_line _ (head_line_chars pre "├── " n
              (isGroupsB_chars d pre.data hpre) (by decide) (cleanName_chars n hnc))
            (head_line_ne pre "├── " n (by decide))
        rw [hone, List.map_cons, List.map_nil]
        have hparse : parseLine (pre ++ "├── " ++ n).data = (d, n) := by
          rw [data_head_line]
          have := parseLine_tee d pre.data n.data hpre
          simpa using this
        rw [hparse]
        have hgrp : isGroupsB (d + 1) (pre ++ "│   ").data = true := by
          rw [String.data_append]
          exact isGroupsB_append_group d pre.data "│   ".data hpre (Or.inr rfl)
        rw [show (if (false : Bool) then "    " else "│   ") = "│   " from rfl]
        rw [hforest (pre ++ "│   ") (d + 1) hgrp]
        rfl

lemma leafWalk_cons (d : Nat) (n : String) (rest : List (Nat × String)) (stack : List String) :
    leafWalk ((d, n) :: rest) stack
      = (if headLEB rest d then [joinSegs (stack.take d ++ [n])] else [])
        ++ leafWalk rest (stack.take d ++ [n]) := rfl

lemma leafWalk_take_congr :
    ∀ (l : List (Nat × String)) (s1 s2 : List String),
      (match l with
       | [] => True
       | (d2, _) :: _ => s1.take d2 = s2.take d2) →
      leafWalk l s1 = leafWalk l s2 := by
  intro l
  cases l with
  | nil => intro s1 s2 _; rfl
  | cons e rest =>
    rcases e with ⟨d2, nm⟩
    intro s1 s2 h
    have h2 : s1.take d2 = s2.take d2 := h
    rw [leafWalk_cons, leafWalk_cons, h2]

lemma nodeEntries_head (c : FileTreeNode) (d : Nat) :
    ∃ tl, nodeEntries c d = (d, c.name) :: tl := by
  cases c with
  | mk n p dd cs => exact ⟨_, nodeEntries_bridge n p dd cs d⟩

lemma headLE_entSeq (l : List FileTreeNode) (d : Nat) (rest : List (Nat × String))
    (h : headLE rest d) : headLE (entSeq l d ++ rest) d := by
  cases l with
  | nil => exact h
  | cons c l2 =>
    rcases nodeEntries_head c d with ⟨tl, htl⟩
    show headLE ((nodeEntries c d ++ entSeq l2 d) ++ rest) d
    rw [htl]
    show d ≤ d
    exact le_refl d

lemma headLE_mono (rest : List (Nat × String)) (d d2 : Nat) (h : headLE rest d)
    (hdd : d ≤ d2) : headLE rest d2 := by
  cases rest with
  | nil => trivial
  | cons e l =>
    rcases e with ⟨d3, nm⟩
    exact le_trans h hdd

lemma sortNodes_length (l : List FileTreeNode) : (sortNodes l).length = l.length :=
  List.length_insertionSort nodeLE l

lemma leafWalk_entries :
    ∀ (k : Nat) (t : FileTreeNode), sizeOf t ≤ k →
      ∀ (d : Nat) (stack : List String) (rest : List (Nat × String)),
        stack.length = d → headLE rest d →
        leafWalk (nodeEntries t d ++ rest) stack
          = (leafChains t).map (fun ch => joinSegs (stack ++ ch)) ++ leafWalk rest stack := by
  intro k
  induction k with
  | zero =>
    intro t hk
    cases t with
    | mk n p dd cs =>
      rw [FileTreeNode.mk.sizeOf_spec] at hk
      omega
  | succ k ih =>
    intro t hk d stack rest hs hr
    cases t with
    | mk n p dd cs =>
      have hmem : ∀ c ∈ sortNodes cs, sizeOf c ≤ k := by
        intro c hc
        have hc2 : c ∈ cs := (List.perm_insertionSort nodeLE cs).mem_iff.mp hc
        have h1 : sizeOf c < sizeOf cs := List.sizeOf_lt_of_mem hc2
        rw [FileTreeNode.mk.sizeOf_spec] at hk
        omega
      have htake : stack.take d = stack := by
        rw [← hs]
        exact List.take_length stack
      have hcongr : ∀ rest2 : List (Nat × String), headLE rest2 d →
          leafWalk rest2 (stack ++ [n]) = leafWalk rest2 stack := by
        intro rest2 h2
        refine leafWalk_take_congr rest2 (stack ++ [n]) stack ?_
        cases rest2 with
        | nil => trivial
        | cons e l2 =>
          rcases e with ⟨d3, nm⟩
          have h3 : d3 ≤ stack.length := by rw [hs]; exact h2
          exact List.take_append_of_le_length h3
      have key : ∀ (l : List FileTreeNode), (∀ c ∈ l, sizeOf c ≤ k) →
          ∀ (d2 : Nat) (stack2 : List String) (rest2 : List (Nat × String)),
            stack2.length = d2 → headLE rest2 d2 →
            leafWalk (entSeq l d2 ++ rest2) stack2
              = (chainSeq l).map (fun ch => joinSegs (stack2 ++ ch))
                ++ leafWalk rest2 stack2 := by
        intro l
        induction l with
        | nil => intro _ d2 stack2 rest2 _ _; rfl
        | cons c l2 ihl =>
          intro hl d2 stack2 rest2 hs2 hr2
          show leafWalk ((nodeEntries c d2 ++ entSeq l2 d2) ++ rest2) stack2 = _
          rw [List.append_assoc]
          rw [ih c (hl c (List.mem_cons_self c l2)) d2 stack2 (entSeq l2 d2 ++ rest2) hs2
            (headLE_entSeq l2 d2 rest2 hr2)]
          rw [ihl (fun x hx => hl x (List.mem_cons_of_mem c hx)) d2 stack2 rest2 hs2 hr2]
          show _ = ((leafChains c ++ chainSeq l2).map (fun ch => joinSegs (stack2 ++ ch)))
            ++ leafWalk rest2 stack2
          rw [List.map_append, List.append_assoc]
      rw [nodeEntries_bridge]
      cases hcs : cs with
      | nil =>
        show leafWalk ((d, n) :: (entSeq (sortNodes []) (d + 1) ++ rest)) stack = _
        rw [show sortNodes ([] : List FileTreeNode) = [] from rfl]
        show leafWalk ((d, n) :: rest) stack = _
        rw [leafWalk_cons, htake]
        have hleaf : headLEB rest d = true := by
          cases rest with
          | nil => rfl
          | cons e l2 =>
            rcases e with ⟨d3, nm⟩
            exact decide_eq_true hr
        rw [if_pos hleaf, hcongr rest hr]
        rfl
      | cons c0 cs' =>
        rw [hcs] at hmem
        have hscs : ∃ sc0 scs', sortNodes (c0 :: cs') = sc0 :: scs' := by
          cases hq : sortNodes (c0 :: cs') with
          | nil =>
            have := sortNodes_length (c0 :: cs')
            rw [hq] at this
            simp at this
          | cons a b => exact ⟨a, b, rfl⟩
        rcases hscs with ⟨sc0, scs', hscs⟩
        show leafWalk ((d, n) :: (entSeq (sortNodes (c0 :: cs')) (d + 1) ++ rest)) stack = _
        rw [leafWalk_cons, htake]
        have hshape : ∃ tl2, entSeq (sortNodes (c0 :: cs')) (d + 1) ++ rest
            = (d + 1, sc0.name) :: tl2 := by
          rcases nodeEntries_head sc0 (d + 1) with ⟨tl, htl⟩
          rw [hscs]
          show ∃ tl2, (nodeEntries sc0 (d + 1) ++ entSeq scs' (d + 1)) ++ rest = _
          rw [htl]
          exact ⟨(tl ++ entSeq scs' (d + 1)) ++ rest, rfl⟩
        rcases hshape with ⟨tl2, hshape⟩
        rw [hshape]
        have hleaf : headLEB ((d + 1, sc0.name) :: tl2) d = false := by
          show decide (d + 1 ≤ d) = false
          exact decide_eq_false (by omega)
        rw [if_neg (by rw [hleaf]; exact Bool.false_ne_true), ← hshape]
        rw [key (sortNodes (c0 :: cs')) hmem (d + 1) (stack ++ [n]) rest
          (by simp [hs]) (headLE_mono rest d (d + 1) hr (by omega))]
        rw [hcongr rest hr]
        rw [show leafChains (FileTreeNode.mk n p dd (c0 :: cs'))
          = (chainSeq (sortNodes (c0 :: cs'))).map (fun ch => n :: ch) from
            leafChains_bridge n p dd c0 cs']
        rw [List.map_map, List.nil_append]
        have hcomp : ((fun ch => joinSegs (stack ++ ch)) ∘ (fun ch => n :: ch))
            = fun ch => joinSegs ((stack ++ [n]) ++ ch) := by
          funext ch
          show joinSegs (stack ++ n :: ch) = joinSegs ((stack ++ [n]) ++ ch)
          rw [List.append_assoc]
          rfl
        rw [hcomp]

lemma splitSegsAux_no_sep :
    ∀ (l acc : List Char), (∀ c ∈ l, isSep c = false) →
      splitSegsAux l acc = [⟨acc.reverse ++ l⟩] := by
  intro l
  induction l with
  | nil => intro acc _; rw [splitSegsAux]; simp
  | cons c l ih =>
    intro acc h
    rw [splitSegsAux, if_neg (by simp [h c (List.mem_cons_self c l)]),
      ih (c :: acc) (fun x hx => h x (List.mem_cons_of_mem c hx))]
    congr 1
    show String.mk ((c :: acc).reverse ++ l) = String.mk (acc.reverse ++ c :: l)
    rw [List.reverse_cons, List.append_assoc]
    rfl

lemma splitSegsAux_sep_split :
    ∀ (l acc rest : List Char), (∀ c ∈ l, isSep c = false) →
      splitSegsAux (l ++ '/' :: rest) acc = ⟨acc.reverse ++ l⟩ :: splitSegsAux rest [] := by
  intro l
  induction l with
  | nil =>
    intro acc rest _
    rw [List.nil_append, splitSegsAux, if_pos (by decide)]
    simp
  | cons c l ih =>
    intro acc rest h
    rw [List.cons_append, splitSegsAux, if_neg (by simp [h c (List.mem_cons_self c l)]),
      ih (c :: acc) rest (fun x hx => h x (List.mem_cons_of_mem c hx))]
    congr 2
    show (c :: acc).reverse ++ l = acc.reverse ++ c :: l
    rw [List.reverse_cons, List.append_assoc]
    rfl

lemma splitParts_joinSegs :
    ∀ segs : List String, (∀ s ∈ segs, nameCleanB s = true) →
      splitParts (joinSegs segs) = segs := by
  intro segs
  induction segs with
  | nil =>
    intro _
    rw [joinSegs]
    rfl
  | cons s rest ih =>
    intro h
    have hs := h s (List.mem_cons_self s rest)
    rw [nameCleanB, Bool.and_eq_true] at hs
    have hne : s ≠ "" := by simpa using hs.1
    have hsep : ∀ c ∈ s.data, isSep c = false := by
      intro c hc
      have := List.all_eq_true.mp hs.2 c hc
      rw [Bool.and_eq_true] at this
      simpa using this.2
    cases rest with
    | nil =>
      rw [joinSegs, splitParts, splitSegsAux_no_sep s.data [] hsep]
      show ([s] : List String).filter (fun t => t ≠ "") = [s]
      rw [List.filter_cons, if_pos (by simpa using hne)]
      rfl
    | cons s2 rest2 =>
      have hjs : joinSegs (s :: s2 :: rest2) = s ++ "/" ++ joinSegs (s2 :: rest2) := rfl
      rw [hjs]
      have hd : (s ++ "/" ++ joinSegs (s2 :: rest2)).data
          = s.data ++ '/' :: (joinSegs (s2 :: rest2)).data := by
        rw [String.data_append, String.data_append, List.append_assoc]
        rfl
      rw [splitParts, hd, splitSegsAux_sep_split s.data [] _ hsep]
      show (String.mk s.data :: splitSegsAux (joinSegs (s2 :: rest2)).data []).filter
          (fun t => t ≠ "") = s :: s2 :: rest2
      rw [List.filter_cons, if_pos (by simpa using hne)]
      have := ih (fun x hx => h x (List.mem_cons_of_mem s hx))
      rw [splitParts] at this
      rw [this]

lemma foldl_insert_group_aux (m cur : String) :
    ∀ (ts : List (List String)) (f0 : List FileTreeNode) (fl : Bool)
      (ch : List FileTreeNode), (∀ x ∈ f0, x.name ≠ m) →
      List.foldl (fun cs t => insertParts t cur cs)
          (f0 ++ [FileTreeNode.mk m (if cur = "" then m else pathJoin cur m) fl ch])
          (ts.map (fun t => m :: t))
        = f0 ++ [FileTreeNode.mk m (if cur = "" then m else pathJoin cur m) fl
            (List.foldl (fun cs t =>
              insertParts t (if cur = "" then m else pathJoin cur m) cs) ch ts)] := by
  intro ts
  induction ts with
  | nil => intro f0 fl ch _; rfl
  | cons t ts ih =>
    intro f0 fl ch hf0
    rw [List.map_cons, List.foldl_cons, List.foldl_cons]
    have hfound := updateFirst_found (fun c => c.name = m)
      (fun c => FileTreeNode.mk c.name c.path c.isDirectory
        (insertParts t (if cur = "" then m else pathJoin cur m) c.children))
      f0 (FileTreeNode.mk m (if cur = "" then m else pathJoin cur m) fl ch) []
      (fun x hx => by simp [hf0 x hx]) (by simp [FileTreeNode.name])
    have hstep : insertParts (m :: t) cur
        (f0 ++ [FileTreeNode.mk m (if cur = "" then m else pathJoin cur m) fl ch])
        = f0 ++ [FileTreeNode.mk m (if cur = "" then m else pathJoin cur m) fl
            (insertParts t (if cur = "" then m else pathJoin cur m) ch)] := by
      rw [insertParts, hfound]
      rfl
    rw [hstep, ih f0 fl _ hf0]

lemma foldl_insert_group (m cur : String) (t1 : List String) (ts : List (List String))
    (f0 : List FileTreeNode) (hf0 : ∀ x ∈ f0, x.name ≠ m) :
    List.foldl (fun cs t => insertParts t cur cs) f0 ((t1 :: ts).map (fun t => m :: t))
      = f0 ++ [FileTreeNode.mk m (if cur = "" then m else pathJoin cur m) (!t1.isEmpty)
          (List.foldl (fun cs t =>
            insertParts t (if cur = "" then m else pathJoin cur m) cs)
            (insertParts t1 (if cur = "" then m else pathJoin cur m) []) ts)] := by
  rw [List.map_cons, List.foldl_cons]
  have hnone : updateFirst (fun c => c.name = m)
      (fun c => FileTreeNode.mk c.name c.path c.isDirectory
        (insertParts t1 (if cur = "" then m else pathJoin cur m) c.children)) f0
      = none :=
    updateFirst_none_of_all _ _ f0 (fun x hx => by simp [hf0 x hx])
  have hstep : insertParts (m :: t1) cur f0
      = f0 ++ [FileTreeNode.mk m (if cur = "" then m else pathJoin cur m) (!t1.isEmpty)
          (insertParts t1 (if cur = "" then m else pathJoin cur m) [])] := by
    rw [insertParts, hnone]
  rw [hstep]
  exact foldl_insert_group_aux m cur ts f0 (!t1.isEmpty) _ hf0

lemma findByName_cons (n : String) (c : FileTreeNode) (cs : List FileTreeNode) :
    findByName n (c :: cs) = if c.name = n then some c else findByName n cs := rfl

lemma isoForestSub_cons (x : FileTreeNode) (rl ds : List FileTreeNode) :
    isoForestSub (x :: rl) ds
      = ((match findByName x.name ds with
          | some d => isoNode x d
          | none => false) && isoForestSub rl ds) := rfl

lemma isoForestSub_cons_right :
    ∀ (rl : List FileTreeNode) (c : FileTreeNode) (ds : List FileTreeNode),
      isoForestSub rl ds = true → (∀ x ∈ rl, x.name ≠ c.name) →
      isoForestSub rl (c :: ds) = true := by
  intro rl
  induction rl with
  | nil => intro c ds _ _; rfl
  | cons x rl ih =>
    intro c ds h hne
    rw [isoForestSub_cons, Bool.and_eq_true] at h
    rw [isoForestSub_cons, Bool.and_eq_true]
    refine ⟨?_, ih c ds h.2 (fun y hy => hne y (List.mem_cons_of_mem x hy))⟩
    rw [findByName_cons,
      if_neg (fun he => hne x (List.mem_cons_self x rl) he.symm)]
    exact h.1

lemma findByName_some (n : String) :
    ∀ (ds : List FileTreeNode) (d : FileTreeNode),
      findByName n ds = some d → d ∈ ds ∧ d.name = n := by
  intro ds
  induction ds with
  | nil => intro d h; simp [findByName] at h
  | cons c cs ih =>
    intro d h
    rw [findByName_cons] at h
    by_cases hc : c.name = n
    · rw [if_pos hc] at h
      have : c = d := by simpa using h
      subst this
      exact ⟨List.mem_cons_self c cs, hc⟩
    · rw [if_neg hc] at h
      rcases ih d h with ⟨h1, h2⟩
      exact ⟨List.mem_cons_of_mem c h1, h2⟩

lemma findByName_none (n : String) :
    ∀ ds : List FileTreeNode, findByName n ds = none → ∀ c ∈ ds, c.name ≠ n := by
  intro ds
  induction ds with
  | nil => intro _ c hc; cases hc
  | cons c cs ih =>
    intro h x hx
    rw [findByName_cons] at h
    by_cases hc : c.name = n
    · rw [if_pos hc] at h; simp at h
    · rw [if_neg hc] at h
      rcases List.mem_cons.mp hx with he | hm
      · subst he; exact hc
      · exact ih h x hm

lemma findByName_of_mem (n : String) :
    ∀ (ds : List FileTreeNode) (d : FileTreeNode), (ds.map FileTreeNode.name).Nodup →
      d ∈ ds → d.name = n → findByName n ds = some d := by
  intro ds
  induction ds with
  | nil => intro d _ hd; cases hd
  | cons c cs ih =>
    intro d hnd hd hdn
    rw [findByName_cons]
    rcases List.mem_cons.mp hd with he | hm
    · subst he
      rw [if_pos hdn]
    · by_cases hc : c.name = n
      · have : c = d := mem_name_unique (c :: cs) hnd c (List.mem_cons_self c cs) d
          (List.mem_cons_of_mem c hm) (hc.trans hdn.symm)
        subst this
        rw [if_pos hc]
      · rw [if_neg hc]
        exact ih d (by
          rw [List.map_cons, List.nodup_cons] at hnd
          exact hnd.2) hm hdn

lemma findByName_perm (n : String) (ds ds' : List FileTreeNode) (hp : ds.Perm ds')
    (hnd : (ds.map FileTreeNode.name).Nodup) : findByName n ds = findByName n ds' := by
  cases h : findByName n ds with
  | none =>
    cases h2 : findByName n ds' with
    | none => rfl
    | some d =>
      rcases findByName_some n ds' d h2 with ⟨h3, h4⟩
      exact absurd h4 (findByName_none n ds h d (hp.mem_iff.mpr h3))
  | some d =>
    rcases findByName_some n ds d h with ⟨h3, h4⟩
    rw [findByName_of_mem n ds' d (((hp.map FileTreeNode.name).nodup_iff).mp hnd)
      (hp.mem_iff.mp h3) h4]

lemma isoForestSub_perm_right :
    ∀ (rl ds ds' : List FileTreeNode), ds.Perm ds' → (ds.map FileTreeNode.name).Nodup →
      isoForestSub rl ds = true → isoForestSub rl ds' = true := by
  intro rl
  induction rl with
  | nil => intro _ _ _ _ _; rfl
  | cons x rl ih =>
    intro ds ds' hp hnd h
    rw [isoForestSub_cons, Bool.and_eq_true] at h
    rw [isoForestSub_cons, Bool.and_eq_true]
    refine ⟨?_, ih ds ds' hp hnd h.2⟩
    rw [← findByName_perm x.name ds ds' hp hnd]
    exact h.1

lemma allForestB_of_mem (p : FileTreeNode → Bool) :
    ∀ l : List FileTreeNode, (∀ c ∈ l, allNodesB p c = true) → allForestB p l = true := by
  intro l
  induction l with
  | nil => intro _; rfl
  | cons c l ih =>
    intro h
    rw [allForestB, Bool.and_eq_true]
    exact ⟨h c (List.mem_cons_self c l), ih (fun x hx => h x (List.mem_cons_of_mem c hx))⟩

lemma foldl_congr_mem {α β : Type} (f g : α → β → α) :
    ∀ (l : List β) (init : α), (∀ x ∈ l, ∀ acc, f acc x = g acc x) →
      l.foldl f init = l.foldl g init := by
  intro l
  induction l with
  | nil => intro _ _; rfl
  | cons x l ih =>
    intro init h
    rw [List.foldl_cons, List.foldl_cons, h x (List.mem_cons_self x l) init,
      ih _ (fun y hy => h y (List.mem_cons_of_mem x hy))]

lemma chainSeq_mem :
    ∀ (l : List FileTreeNode) (ch : List String), ch ∈ chainSeq l →
      ∃ c ∈ l, ch ∈ leafChains c := by
  intro l
  induction l with
  | nil => intro ch hch; cases hch
  | cons c l ih =>
    intro ch hch
    rcases List.mem_append.mp hch with h | h
    · exact ⟨c, List.mem_cons_self c l, h⟩
    · rcases ih ch h with ⟨c2, h1, h2⟩
      exact ⟨c2, List.mem_cons_of_mem c h1, h2⟩

lemma leafChains_clean :
    ∀ (k : Nat) (t : FileTreeNode), sizeOf t ≤ k → allNodesB cleanName t = true →
      ∀ ch ∈ leafChains t, ∀ s ∈ ch, nameCleanB s = true := by
  intro k
  induction k with
  | zero =>
    intro t hk
    cases t with
    | mk n p dd cs =>
      rw [FileTreeNode.mk.sizeOf_spec] at hk
      omega
  | succ k ih =>
    intro t hk hclean ch hch s hs
    cases t with
    | mk n p dd cs =>
      rcases allNodes_head_clean n p dd cs hclean with ⟨hnc, hcf⟩
      cases cs with
      | nil =>
        have hch2 : ch = [n] := by simpa [leafChains] using hch
        subst hch2
        have : s = n := by simpa using hs
        subst this
        exact hnc
      | cons c0 cs' =>
        rw [leafChains_bridge] at hch
        rcases List.mem_map.mp hch with ⟨ch2, hch2, hche⟩
        rcases chainSeq_mem (sortNodes (c0 :: cs')) ch2 hch2 with ⟨c2, hc2, hch3⟩
        have hc2m : c2 ∈ c0 :: cs' :=
          (List.perm_insertionSort nodeLE (c0 :: cs')).mem_iff.mp hc2
        subst hche
        rcases List.mem_cons.mp hs with he | hm
        · subst he; exact hnc
        · have hsz : sizeOf c2 ≤ k := by
            have h1 : sizeOf c2 < sizeOf (c0 :: cs') := List.sizeOf_lt_of_mem hc2m
            rw [FileTreeNode.mk.sizeOf_spec] at hk
            omega
          exact ih c2 hsz (allForestB_mem cleanName (c0 :: cs') hcf c2 hc2m) ch2 hch3 s hm

lemma leafChains_ne_nil :
    ∀ (k : Nat) (t : FileTreeNode), sizeOf t ≤ k → leafChains t ≠ [] := by
  intro k
  induction k with
  | zero =>
    intro t hk
    cases t with
    | mk n p dd cs =>
      rw [FileTreeNode.mk.sizeOf_spec] at hk
      omega
  | succ k ih =>
    intro t hk
    cases t with
    | mk n p dd cs =>
      cases cs with
      | nil => simp [leafChains]
      | cons c0 cs' =>
        rw [leafChains_bridge]
        intro h
        rw [List.map_eq_nil] at h
        have hscs : ∃ sc0 scs', sortNodes (c0 :: cs') = sc0 :: scs' := by
          cases hq : sortNodes (c0 :: cs') with
          | nil =>
            have := sortNodes_length (c0 :: cs')
            rw [hq] at this
            simp at this
          | cons a b => exact ⟨a, b, rfl⟩
        rcases hscs with ⟨sc0, scs', hscs⟩
        rw [hscs] at h
        have hm : sc0 ∈ c0 :: cs' :=
          (List.perm_insertionSort nodeLE (c0 :: cs')).mem_iff.mp
            (show sc0 ∈ sortNodes (c0 :: cs') from by
              rw [hscs]
              exact List.mem_cons_self sc0 scs')
        have hsz : sizeOf sc0 ≤ k := by
          have h1 : sizeOf sc0 < sizeOf (c0 :: cs') := List.sizeOf_lt_of_mem hm
          rw [FileTreeNode.mk.sizeOf_spec] at hk
          omega
        have := ih sc0 hsz
        show False
        apply this
        have happ : leafChains sc0 ++ chainSeq scs' = [] := h
        exact (List.append_eq_nil.mp happ).1

lemma isoNode_mk (n p : String) (d : Bool) (cs : List FileTreeNode) (b : FileTreeNode) :
    isoNode (FileTreeNode.mk n p d cs) b
      = ((n == b.name) && (cs.length == b.children.length)
          && isoForestSub cs b.children) := rfl

lemma chainSeq_ne_nil (l : List FileTreeNode) (hne : l ≠ []) : chainSeq l ≠ [] := by
  cases l with
  | nil => exact absurd rfl hne
  | cons c l2 =>
    show leafChains c ++ chainSeq l2 ≠ []
    intro h
    exact leafChains_ne_nil (sizeOf c) c (le_refl _) (List.append_eq_nil.mp h).1

lemma rebuild_forest :
    ∀ (k : Nat) (l : List FileTreeNode), (∀ c ∈ l, sizeOf c ≤ k) →
      (l.map FileTreeNode.name).Nodup →
      allForestB sibNodup l = true →
      ∀ (f0 : List FileTreeNode) (cur : String),
        (∀ x ∈ f0, ∀ c ∈ l, x.name ≠ c.name) →
        ∃ rl, List.foldl (fun cs ch => insertParts ch cur cs) f0 (chainSeq l) = f0 ++ rl ∧
          rl.map FileTreeNode.name = l.map FileTreeNode.name ∧
          isoForestSub rl l = true := by
  intro k
  induction k with
  | zero =>
    intro l hl _ _ f0 cur _
    cases l with
    | nil => exact ⟨[], (List.append_nil f0).symm, rfl, rfl⟩
    | cons c l' =>
      cases c with
      | mk m p dd ccs =>
        have := hl (FileTreeNode.mk m p dd ccs) (List.mem_cons_self _ _)
        rw [FileTreeNode.mk.sizeOf_spec] at this
        omega
  | succ k ihk =>
    intro l
    induction l with
    | nil => intro _ _ _ f0 cur _; exact ⟨[], (List.append_nil f0).symm, rfl, rfl⟩
    | cons c l' ihl =>
      intro hk hnod hall f0 cur hdisj
      cases c with
      | mk m p dd ccs =>
        rw [List.map_cons, List.nodup_cons] at hnod
        rw [allForestB, Bool.and_eq_true] at hall
        have hf0m : ∀ x ∈ f0, x.name ≠ m :=
          fun x hx => hdisj x hx (FileTreeNode.mk m p dd ccs) (List.mem_cons_self _ _)
        have hnode : ∃ node : FileTreeNode,
            List.foldl (fun cs ch => insertParts ch cur cs) f0
                (leafChains (FileTreeNode.mk m p dd ccs)) = f0 ++ [node] ∧
              node.name = m ∧ isoNode node (FileTreeNode.mk m p dd ccs) = true := by
          cases ccs with
          | nil =>
            refine ⟨FileTreeNode.mk m (if cur = "" then m else pathJoin cur m) false [], ?_, rfl, ?_⟩
            · have := foldl_insert_group m cur [] [] f0 hf0m
              rw [show leafChains (FileTreeNode.mk m p dd [])
                  = (([] : List String) :: []).map (fun t => m :: t) from rfl]
              rw [this]
              rfl
            · simp [isoNode_mk, FileTreeNode.name, FileTreeNode.children, isoForestSub]
          | cons c0 ccs' =>
            have hchild := allNodesB_sibNodup_parts (FileTreeNode.mk m p dd (c0 :: ccs')) hall.1
            have hsz : ∀ x ∈ sortNodes (c0 :: ccs'), sizeOf x ≤ k := by
              intro x hx
              have hx2 : x ∈ c0 :: ccs' :=
                (List.perm_insertionSort nodeLE (c0 :: ccs')).mem_iff.mp hx
              have h1 : sizeOf x < sizeOf (c0 :: ccs') := List.sizeOf_lt_of_mem hx2
              have h2 := hk (FileTreeNode.mk m p dd (c0 :: ccs')) (List.mem_cons_self _ _)
              rw [FileTreeNode.mk.sizeOf_spec] at h2
              omega
            have hnodin : ((sortNodes (c0 :: ccs')).map FileTreeNode.name).Nodup := by
              refine (((List.perm_insertionSort nodeLE (c0 :: ccs')).map
                FileTreeNode.name).nodup_iff).mpr ?_
              exact (namesNodupB_iff _).mp
                (by simpa [FileTreeNode.children] using hchild.1)
            have hallin : allForestB sibNodup (sortNodes (c0 :: ccs')) = true := by
              refine allForestB_of_mem sibNodup _ ?_
              intro x hx
              have hx2 : x ∈ c0 :: ccs' :=
                (List.perm_insertionSort nodeLE (c0 :: ccs')).mem_iff.mp hx
              exact allForestB_mem sibNodup (c0 :: ccs')
                (by simpa [FileTreeNode.children] using hchild.2) x hx2
            rcases ihk (sortNodes (c0 :: ccs')) hsz hnodin hallin [] 
              (if cur = "" then m else pathJoin cur m) (by intro x hx; cases hx)
              with ⟨rli, hfoldi, hnamesi, hisoi⟩
            rw [List.nil_append] at hfoldi
            cases htails : chainSeq (sortNodes (c0 :: ccs')) with
            | nil =>
              exact absurd htails (chainSeq_ne_nil (sortNodes (c0 :: ccs')) (by
                intro hq
                have := sortNodes_length (c0 :: ccs')
                rw [hq] at this
                simp at this))
            | cons t1 ts =>
              refine ⟨FileTreeNode.mk m (if cur = "" then m else pathJoin cur m)
                (!t1.isEmpty) rli, ?_, rfl, ?_⟩
              · rw [leafChains_bridge, htails, foldl_insert_group m cur t1 ts f0 hf0m]
                rw [htails] at hfoldi
                rw [show List.foldl (fun cs t =>
                      insertParts t (if cur = "" then m else pathJoin cur m) cs)
                    (insertParts t1 (if cur = "" then m else pathJoin cur m) []) ts
                    = List.foldl (fun cs t =>
                      insertParts t (if cur = "" then m else pathJoin cur m) cs) [] (t1 :: ts)
                  from rfl, hfoldi]
              · rw [isoNode_mk]
                have hlen : rli.length = (c0 :: ccs').length := by
                  have h1 := congrArg List.length hnamesi
                  rw [List.length_map, List.length_map] at h1
                  rw [h1, sortNodes_length]
                have hisof : isoForestSub rli (c0 :: ccs') = true :=
                  isoForestSub_perm_right rli (sortNodes (c0 :: ccs')) (c0 :: ccs')
                    (List.perm_insertionSort nodeLE (c0 :: ccs')) hnodin hisoi
                simp [FileTreeNode.name, FileTreeNode.children, hlen, hisof]
        rcases hnode with ⟨node, hfold1, hname1, hiso1⟩
        have hdisj' : ∀ x ∈ f0 ++ [node], ∀ c2 ∈ l', x.name ≠ c2.name := by
          intro x hx c2 hc2
          rcases List.mem_append.mp hx with h | h
          · exact hdisj x h c2 (List.mem_cons_of_mem _ hc2)
          · have : x = node := by simpa using h
            subst this
            rw [hname1]
            intro he
            exact hnod.1 (by
              rw [show (FileTreeNode.mk m p dd ccs).name = m from rfl, he]
              exact List.mem_map_of_mem FileTreeNode.name hc2)
        rcases ihl (fun x hx => hk x (List.mem_cons_of_mem _ hx)) hnod.2 hall.2
          (f0 ++ [node]) cur hdisj' with ⟨rl', hfold2, hnames2, hiso2⟩
        refine ⟨node :: rl', ?_, ?_, ?_⟩
        · show List.foldl (fun cs ch => insertParts ch cur cs) f0
            (leafChains (FileTreeNode.mk m p dd ccs) ++ chainSeq l') = _
          rw [List.foldl_append, hfold1, hfold2, List.append_assoc]
          rfl
        · rw [List.map_cons, hname1, hnames2]
          rfl
        · rw [isoForestSub_cons, Bool.and_eq_true]
          constructor
          · rw [hname1, findByName_cons,
              if_pos (show (FileTreeNode.mk m p dd ccs).name = m from rfl)]
            exact hiso1
          · refine isoForestSub_cons_right rl' (FileTreeNode.mk m p dd ccs) l' hiso2 ?_
            intro x hx
            have hxn : x.name ∈ l'.map FileTreeNode.name := by
              rw [← hnames2]
              exact List.mem_map_of_mem FileTreeNode.name hx
            show x.name ≠ m
            intro he
            rw [he] at hxn
            exact hnod.1 hxn

lemma foldl_insert_nePath (S : List String) :
    allForestB nePath (S.foldl (fun acc pp => insertParts (splitParts pp) "" acc) []) = true := by
  have key : ∀ (S' : List String) (cs : List FileTreeNode),
      allForestB nePath cs = true →
      allForestB nePath
        (S'.foldl (fun acc pp => insertParts (splitParts pp) "" acc) cs) = true := by
    intro S'
    induction S' with
    | nil => intro cs h; exact h
    | cons pp S'' ih =>
      intro cs hcs
      exact ih _ (insertParts_nePath (splitParts pp) "" cs (splitParts_mem_ne pp) hcs)
  exact key S [] rfl

lemma buildFileTree_sibNodup (S : List String) :
    allNodesB sibNodup (buildFileTree S) = true := by
  have hnodup := foldl_insert_nodup S [] rfl rfl
  rw [buildFileTree]
  cases hfold : S.foldl (fun cs p => insertParts (splitParts p) "" cs) [] with
  | nil => decide
  | cons c cs' =>
    rw [hfold] at hnodup
    cases cs' with
    | nil =>
      have hforest := hnodup.2
      rw [allForestB, Bool.and_eq_true] at hforest
      exact hforest.1
    | cons c2 cs'' =>
      rw [allNodesB_mk, Bool.and_eq_true]
      constructor
      · simpa [sibNodup, FileTreeNode.children] using hnodup.1
      · exact hnodup.2

lemma renderSeq_parse :
    ∀ l : List FileTreeNode,
      (∀ c ∈ l, allNodesB cleanName c = true ∧ allNodesB nePath c = true) →
      ∀ (pre : String) (d : Nat), isGroupsB d pre.data = true →
        (linesOf (renderSeq l pre)).map (fun s => parseLine s.data) = entSeq l d := by
  intro l
  induction l with
  | nil => intro _ pre d _; rfl
  | cons c l ih =>
    intro h pre d hpre
    cases l with
    | nil =>
      show (linesOf (generateTreeString c pre true)).map (fun s => parseLine s.data)
        = entSeq [c] d
      rw [generateTreeString_parse (sizeOf c) c (le_refl _) (h c (List.mem_cons_self c [])).1
        (h c (List.mem_cons_self c [])).2 pre d true hpre]
      exact (List.append_nil (nodeEntries c d)).symm
    | cons c2 l2 =>
      show (linesOf (generateTreeString c pre false ++ renderSeq (c2 :: l2) pre)).map
          (fun s => parseLine s.data) = entSeq (c :: c2 :: l2) d
      rw [linesOf_append _ _ (generateTreeString_nlTerm (sizeOf c) c (le_refl _) pre false),
        List.map_append,
        generateTreeString_parse (sizeOf c) c (le_refl _)
          (h c (List.mem_cons_self _ _)).1 (h c (List.mem_cons_self _ _)).2 pre d false hpre,
        ih (fun x hx => h x (List.mem_cons_of_mem c hx)) pre d hpre]
      rfl

lemma built_parse (S : List String) (hS : ∀ pp ∈ S, pathNoNl pp = true) :
    (linesOf (generateTreeString (buildFileTree S) "" true)).map (fun l => parseLine l.data)
      = nodeEntries (buildFileTree S) 0 := by
  have hclean := buildFileTree_cleanName S hS
  have hne := foldl_insert_nePath S
  rw [buildFileTree] at hclean ⊢
  cases hfold : S.foldl (fun cs p => insertParts (splitParts p) "" cs) [] with
  | nil => decide
  | cons c cs' =>
    rw [hfold] at hclean hne
    cases cs' with
    | nil =>
      have hc : allNodesB cleanName c = true := hclean
      have hnec : allNodesB nePath c = true := by
        rw [allForestB, Bool.and_eq_true] at hne
        exact hne.1
      exact generateTreeString_parse (sizeOf c) c (le_refl _) hc hnec "" 0 true (by decide)
    | cons c2 cs'' =>
      show (linesOf (generateTreeString
          (FileTreeNode.mk "." "" true (c :: c2 :: cs'')) "" true)).map
          (fun l => parseLine l.data)
        = nodeEntries (FileTreeNode.mk "." "" true (c :: c2 :: cs'')) 0
      have hcT : allNodesB cleanName (FileTreeNode.mk "." "" true (c :: c2 :: cs'')) = true :=
        hclean
      rw [allNodesB_mk, Bool.and_eq_true] at hcT
      have hch : ∀ x ∈ sortNodes (c :: c2 :: cs''),
          allNodesB cleanName x = true ∧ allNodesB nePath x = true := by
        intro x hx
        have hx2 : x ∈ c :: c2 :: cs'' :=
          (List.perm_insertionSort nodeLE (c :: c2 :: cs'')).mem_iff.mp hx
        exact ⟨allForestB_mem cleanName _ hcT.2 x hx2, allForestB_mem nePath _ hne x hx2⟩
      have hgts : generateTreeString (FileTreeNode.mk "." "" true (c :: c2 :: cs'')) "" true
          = ("./" ++ "\n") ++ renderSeq (sortNodes (c :: c2 :: cs'')) "    " := by
        rw [generateTreeString_renderSeq]
        rfl
      rw [hgts, linesOf_append _ _ (nlTerminated_concat "./"),
        linesOf_single_line "./" (by decide) (by decide), List.map_append,
        renderSeq_parse (sortNodes (c :: c2 :: cs'')) hch "    " 1 (by decide),
        nodeEntries_bridge]
      show parseLine "./".data :: entSeq (sortNodes (c :: c2 :: cs'')) 1
        = (0, ".") :: entSeq (sortNodes (c :: c2 :: cs'')) 1
      rw [show parseLine "./".data = (0, ".") from by decide]

lemma rebuild_iso (t : FileTreeNode) (hclean : allNodesB cleanName t = true)
    (hsib : allNodesB sibNodup t = true) :
    isoNode (buildFileTree ((leafChains t).map joinSegs)) t = true := by
  have hsz : ∀ c ∈ [t], sizeOf c ≤ sizeOf t := by
    intro c hc
    rw [List.mem_singleton] at hc
    rw [hc]
  have hnd : (([t]).map FileTreeNode.name).Nodup := by simp
  have hall : allForestB sibNodup [t] = true := by
    rw [allForestB, Bool.and_eq_true]
    exact ⟨hsib, rfl⟩
  rcases rebuild_forest (sizeOf t) [t] hsz hnd hall [] "" (by intro x hx; cases hx)
    with ⟨rl, hfold, hnames, hiso⟩
  rw [List.nil_append] at hfold
  have hcs : chainSeq [t] = leafChains t := by
    show leafChains t ++ [] = leafChains t
    rw [List.append_nil]
  rw [hcs] at hfold
  have hfold2 : ((leafChains t).map joinSegs).foldl
      (fun cs p => insertParts (splitParts p) "" cs) [] = rl := by
    rw [List.foldl_map]
    refine Eq.trans (foldl_congr_mem _ (fun cs ch => insertParts ch "" cs)
      (leafChains t) [] ?_) hfold
    intro ch hch acc
    show insertParts (splitParts (joinSegs ch)) "" acc = insertParts ch "" acc
    rw [splitParts_joinSegs ch (leafChains_clean (sizeOf t) t (le_refl _) hclean ch hch)]
  rw [buildFileTree, hfold2]
  have hlen : rl.length = 1 := by
    have h1 := congrArg List.length hnames
    rw [List.length_map, List.length_map] at h1
    simpa using h1
  cases rl with
  | nil => exact absurd hlen (by decide)
  | cons x rl' =>
    cases rl' with
    | nil =>
      simp only [List.map_cons, List.map_nil, List.cons.injEq, and_true] at hnames
      rw [isoForestSub_cons, Bool.and_eq_true, findByName_cons, if_pos hnames.symm] at hiso
      show isoNode x t = true
      exact hiso.1
    | cons y rl'' =>
      rw [List.length_cons, List.length_cons] at hlen
      omega

/-- C3 counterexample.  The round trip fails verbatim on a selection whose
path contains a newline: rendering the single node named with an embedded
newline produces two drawing lines, the extractor reads back two distinct
leaves, and the rebuilt tree is a two-child dot root instead of the original
single node. -/
theorem C3_counterexample :
    isoNode (buildFileTree (leafPathsOfString
        (generateTreeString (buildFileTree ["x\ny"]) "" true)))
      (buildFileTree ["x\ny"]) = false := by
  decide

/-- C3, amended.  For any selection of newline-free paths, building the
tree, rendering it with generateTreeString, extracting the leaf paths of
the drawing (each deepest-line root-to-leaf name chain joined with
slashes), and building a tree from those paths yields a tree isomorphic to
the first: same node names and same parent-child structure up to sibling
order.  The original claim, with no restriction on the paths, fails when a
path name embeds a newline (see the counterexample), since the drawing is
parsed by lines. -/
theorem C3_round_trip (S : List String) (h : ∀ p ∈ S, pathNoNl p = true) :
    isoNode (buildFileTree (leafPathsOfString
        (generateTreeString (buildFileTree S) "" true)))
      (buildFileTree S) = true := by
  have hparse := built_parse S h
  have hclean := buildFileTree_cleanName S h
  have hsib := buildFileTree_sibNodup S
  have hpaths : leafPathsOfString (generateTreeString (buildFileTree S) "" true)
      = (leafChains (buildFileTree S)).map joinSegs := by
    rw [leafPathsOfString, hparse]
    rw [← List.append_nil (nodeEntries (buildFileTree S) 0)]
    rw [leafWalk_entries (sizeOf (buildFileTree S)) _ (le_refl _) 0 [] [] rfl trivial]
    rw [show leafWalk [] ([] : List String) = [] from rfl, List.append_nil]
    rfl
  rw [hpaths]
  exact rebuild_iso (buildFileTree S) hclean hsib

/-- Witness for the amended C3 round trip on a concrete three-path
selection. -/
theorem C3_round_trip_witness :
    (∀ p ∈ ["a/b", "a/c", "d"], pathNoNl p = true) ∧
    isoNode (buildFileTree (leafPathsOfString
        (generateTreeString (buildFileTree ["a/b", "a/c", "d"]) "" true)))
      (buildFileTree ["a/b", "a/c", "d"]) = true :=
  ⟨by decide, C3_round_trip ["a/b", "a/c", "d"] (by decide)⟩
